import Mathlib

/-!
# Dynamic range compression kernel (`cras/src/dsp/drc_kernel.c`)

A shallow embedding of the DRC kernel and a verification of its ring buffer,
configuration, static-curve, envelope and dispatcher properties.

Modelling conventions.

* `float` values are elements of a linearly ordered field `α`.  Arithmetic is exact, except
  for the two operations whose rounding decides a frame count or whether two curves
  coincide: the product in `set_pre_delay_time` and the quotient `1 / ratio` in
  `update_static_curve_parameters` pass through `DrcMath.roundf`.  On the machine `roundf` is
  `round_to_float` (IEEE 754 binary32, round to nearest, ties to even); in exact arithmetic
  it is the identity.  The definitions are executable for `α = ℚ`; statements in exact real
  arithmetic take `α = ℝ` and a math library that satisfies `ExactMath`.
* The functions and constants of `drc_math.h` (not part of the sources at hand) are
  parameters, collected in `DrcMath`.
* An `int` is an integer in `[-2^31, 2^31)`; `int` arithmetic that leaves the range wraps
  around (`wrap_int`), and a mask is applied to the two's-complement bit pattern
  (`int_bits`).
* `DRC_NUM_CHANNELS` (from `drc_kernel.h`) is the parameter `C`.
* A block of audio is a list of frames; a frame gives one sample per channel.  The C code
  overwrites `data_channels[j][i]` in place; the embedding returns the overwritten frames.
* Each pre-delay buffer is a map from slot numbers to samples; the slots `0 .. 1023` are the
  allocated ones.
* `-INFINITY` in `max_attack_compression_diff_db` is `none`.
* Converting a `float` to `unsigned` is defined only when the truncated value fits 32 bits;
  `set_pre_delay_time` and `dk_set_parameters` return `none` otherwise.  What x86-64 code
  does with such a value is `float_to_unsigned_wrapping`.
-/

set_option linter.unusedSectionVars false

namespace DrcKernel

/-! ## Constants -/

/-- `#define MAX_PRE_DELAY_FRAMES 1024` -/
def MAX_PRE_DELAY_FRAMES : ℕ := 1024

/-- `#define MAX_PRE_DELAY_FRAMES_MASK (MAX_PRE_DELAY_FRAMES - 1)` -/
def MAX_PRE_DELAY_FRAMES_MASK : ℕ := MAX_PRE_DELAY_FRAMES - 1

/-- `#define DEFAULT_PRE_DELAY_FRAMES 256` -/
def DEFAULT_PRE_DELAY_FRAMES : ℕ := 256

/-- `#define DIVISION_FRAMES 32` -/
def DIVISION_FRAMES : ℕ := 32

/-- `#define DIVISION_FRAMES_MASK (DIVISION_FRAMES - 1)` -/
def DIVISION_FRAMES_MASK : ℕ := DIVISION_FRAMES - 1

/-- `#define kSpacingDb 5` -/
def kSpacingDb : ℕ := 5

/-! ## Data model -/

/-- The functions and constants that `drc_kernel.c` takes from `drc_math.h` and `math.h`, and
`roundf`, the rounding of an arithmetic result to a `float`. -/
structure DrcMath (α : Type) where
  knee_expf : α → α
  expf : α → α
  powf : α → α → α
  sqrtf : α → α
  linear_to_decibels : α → α
  decibels_to_linear : α → α
  warp_sinf : α → α
  warp_asinf : α → α
  isbadf : α → Bool
  NEG_TWO_DB : α
  roundf : α → α

/-- The fields of `struct drc_kernel` that `drc_kernel.c` reads or writes. -/
structure drc_kernel (α : Type) (C : ℕ) where
  sample_rate : α
  detector_average : α
  compressor_gain : α
  enabled : ℤ
  processed : ℤ
  last_pre_delay_frames : ℕ
  pre_delay_read_index : ℕ
  pre_delay_write_index : ℕ
  max_attack_compression_diff_db : Option α
  ratio : α
  slope : α
  linear_threshold : α
  db_threshold : α
  db_knee : α
  knee_threshold : α
  ratio_base : α
  K : α
  knee_alpha : α
  knee_beta : α
  master_linear_gain : α
  attack_frames : α
  sat_release_frames_inv_neg : α
  kA : α
  kB : α
  kC : α
  kD : α
  kE : α
  envelope_rate : α
  scaled_desired_gain : α
  pre_delay_buffers : Fin C → ℕ → α

/-- One frame: a sample for each channel. -/
abbrev Frame (α : Type) (C : ℕ) : Type := Fin C → α

section Kernel

variable {α : Type} [LinearOrderedField α] [FloorRing α] {C : ℕ}

/-- `const float uninitialized_value = -1;` -/
def uninitialized_value : α := -1

/-- `dk_init`: the fields it assigns are overwritten in the caller's structure, the others keep
whatever the structure held; `calloc` gives all-zero buffers. -/
def dk_init (dk : drc_kernel α C) (sample_rate : α) : drc_kernel α C :=
  { dk with
    sample_rate := sample_rate
    detector_average := 0
    compressor_gain := 1
    enabled := 0
    processed := 0
    last_pre_delay_frames := DEFAULT_PRE_DELAY_FRAMES
    pre_delay_read_index := 0
    pre_delay_write_index := DEFAULT_PRE_DELAY_FRAMES
    max_attack_compression_diff_db := none
    ratio := uninitialized_value
    slope := uninitialized_value
    linear_threshold := uninitialized_value
    db_threshold := uninitialized_value
    db_knee := uninitialized_value
    knee_threshold := uninitialized_value
    ratio_base := uninitialized_value
    K := uninitialized_value
    pre_delay_buffers := fun _ _ => 0 }

/-- The integer nearest to `x`, a tie going to the even one. -/
def round_half_even (x : α) : ℤ :=
  if Int.fract x < 1 / 2 then ⌊x⌋
  else if 1 / 2 < Int.fract x then ⌊x⌋ + 1
  else if ⌊x⌋ % 2 = 0 then ⌊x⌋ else ⌊x⌋ + 1

/-- The binary exponent with which a `float` near `x` is stored: `2 ^ e ≤ |x| < 2 ^ (e + 1)`,
and -126 for the subnormal numbers and zero. -/
def float_exponent (x : α) : ℤ := max (Int.log 2 |x|) (-126)

/-- The `float` (IEEE 754 binary32) nearest to `x`, ties to even: a multiple of
`2 ^ (e - 23)`, so 24 significant bits.  Values beyond the largest `float` are rounded the
same way (there is no infinity). -/
def round_to_float (x : α) : α :=
  (round_half_even (x / 2 ^ (float_exponent x - 23)) : α) * 2 ^ (float_exponent x - 23)

/-- Conversion of a `float` to `unsigned` (32 bits): the fractional part is discarded; the
conversion is undefined (`none`) when the truncated value does not fit. -/
def float_to_unsigned (x : α) : Option ℕ :=
  if -1 < x ∧ x < 2 ^ 32 then some ⌊x⌋₊ else none

/-- The part of `set_pre_delay_time` after the frame count has been computed. -/
def set_pre_delay_frames (dk : drc_kernel α C) (frames : ℕ) : drc_kernel α C :=
  let pre_delay_frames :=
    if frames > MAX_PRE_DELAY_FRAMES - 1 then MAX_PRE_DELAY_FRAMES - 1 else frames
  if dk.last_pre_delay_frames ≠ pre_delay_frames then
    { dk with
      last_pre_delay_frames := pre_delay_frames
      pre_delay_buffers := fun _ _ => 0
      pre_delay_read_index := 0
      pre_delay_write_index := pre_delay_frames }
  else dk

/-- `set_pre_delay_time`: sets the pre-delay (lookahead) buffer size.  The product is a
`float`, so it is rounded (`roundf`) before it is converted to `unsigned`. -/
def set_pre_delay_time (m : DrcMath α) (dk : drc_kernel α C) (pre_delay_time : α) :
    Option (drc_kernel α C) :=
  (float_to_unsigned (m.roundf (pre_delay_time * dk.sample_rate))).map
    (set_pre_delay_frames dk)

/-! ### Static curve -/

/-- `knee_curve`: exponential curve for the knee. -/
def knee_curve (m : DrcMath α) (dk : drc_kernel α C) (x k : α) : α :=
  if x < dk.linear_threshold then x
  else dk.linear_threshold + (1 - m.knee_expf (-k * (x - dk.linear_threshold))) / k

/-- `slope_at`: approximate first derivative with input and output in dB. -/
def slope_at (m : DrcMath α) (dk : drc_kernel α C) (x k : α) : α :=
  if x < dk.linear_threshold then 1
  else
    let x2 := x * 1.001
    let x_db := m.linear_to_decibels x
    let x2Db := m.linear_to_decibels x2
    let y_db := m.linear_to_decibels (knee_curve m dk x k)
    let y2Db := m.linear_to_decibels (knee_curve m dk x2 k)
    (y2Db - y_db) / (x2Db - x_db)

/-- The body of the `for` loop of `k_at_slope`, run `n` times on `(minK, maxK, k)`. -/
def k_at_slope_loop (m : DrcMath α) (dk : drc_kernel α C) (x desired_slope : α) :
    ℕ → α × α × α → α × α × α
  | 0, s => s
  | n + 1, (minK, maxK, k) =>
    let slope := slope_at m dk x k
    let minK1 := if slope < desired_slope then minK else k
    let maxK1 := if slope < desired_slope then k else maxK
    k_at_slope_loop m dk x desired_slope n (minK1, maxK1, m.sqrtf (minK1 * maxK1))

/-- `k_at_slope`: 15 steps of bisection on the geometric mean. -/
def k_at_slope (m : DrcMath α) (dk : drc_kernel α C) (desired_slope : α) : α :=
  let x_db := dk.db_threshold + dk.db_knee
  let x := m.decibels_to_linear x_db
  (k_at_slope_loop m dk x desired_slope 15 (0.1, 10000, 5)).2.2

/-- `update_static_curve_parameters`.  The quotient `1 / dk->ratio` is a `float`, rounded by
`roundf`; it is computed twice, with the same result. -/
def update_static_curve_parameters (m : DrcMath α) (dk : drc_kernel α C)
    (db_threshold db_knee ratio : α) : drc_kernel α C :=
  if db_threshold ≠ dk.db_threshold ∨ db_knee ≠ dk.db_knee ∨ ratio ≠ dk.ratio then
    let dk1 : drc_kernel α C :=
      { dk with
        db_threshold := db_threshold
        linear_threshold := m.decibels_to_linear db_threshold
        db_knee := db_knee
        ratio := ratio
        slope := m.roundf (1 / ratio) }
    let k := k_at_slope m dk1 (m.roundf (1 / dk1.ratio))
    let dk2 : drc_kernel α C :=
      { dk1 with
        K := k
        knee_alpha := dk1.linear_threshold + 1 / k
        knee_beta := -m.expf (k * dk1.linear_threshold) / k
        knee_threshold := m.decibels_to_linear (db_threshold + db_knee) }
    let y0 := knee_curve m dk2 dk2.knee_threshold k
    { dk2 with ratio_base := y0 * m.powf dk2.knee_threshold (-dk2.slope) }
  else dk

/-- `knee_curveK`: the knee part of the compression curve. -/
def knee_curveK (m : DrcMath α) (dk : drc_kernel α C) (x : α) : α :=
  dk.knee_alpha + dk.knee_beta * m.knee_expf (-dk.K * x)

/-- `volume_gain`: full compression curve; the ratio of output and input signal. -/
def volume_gain (m : DrcMath α) (dk : drc_kernel α C) (x : α) : α :=
  if x < dk.knee_threshold then
    if x < dk.linear_threshold then 1
    else knee_curveK m dk x / x
  else dk.ratio_base * m.powf x (dk.slope - 1)

/-- `dk_set_parameters`. -/
def dk_set_parameters (m : DrcMath α) (dk : drc_kernel α C)
    (db_threshold db_knee ratio attack_time release_time pre_delay_time db_post_gain
      releaseZone1 releaseZone2 releaseZone3 releaseZone4 : α) : Option (drc_kernel α C) :=
  let sample_rate := dk.sample_rate
  let dk1 := update_static_curve_parameters m dk db_threshold db_knee ratio
  -- Makeup gain.
  let full_range_gain := volume_gain m dk1 1
  let full_range_makeup_gain := 1 / full_range_gain
  -- Empirical/perceptual tuning.
  let full_range_makeup_gain := m.powf full_range_makeup_gain 0.6
  -- Attack parameters.
  let attack_time := max 0.001 attack_time
  -- Release parameters.
  let release_frames := sample_rate * release_time
  -- Detector release time.
  let sat_release_time : α := 0.0025
  let sat_release_frames := sat_release_time * sample_rate
  let y1 := release_frames * releaseZone1
  let y2 := release_frames * releaseZone2
  let y3 := release_frames * releaseZone3
  let y4 := release_frames * releaseZone4
  let dk2 : drc_kernel α C :=
    { dk1 with
      master_linear_gain := m.decibels_to_linear db_post_gain * full_range_makeup_gain
      attack_frames := attack_time * sample_rate
      sat_release_frames_inv_neg := -1 / sat_release_frames
      kA := 0.9999999999999998 * y1 + 1.8432219684323923e-16 * y2
        - 1.9373394351676423e-16 * y3 + 8.824516011816245e-18 * y4
      kB := -1.5788320352845888 * y1 + 2.3305837032074286 * y2
        - 0.9141194204840429 * y3 + 0.1623677525612032 * y4
      kC := 0.5334142869106424 * y1 - 1.272736789213631 * y2
        + 0.9258856042207512 * y3 - 0.18656310191776226 * y4
      kD := 0.08783463138207234 * y1 - 0.1694162967925622 * y2
        + 0.08588057951595272 * y3 - 0.00429891410546283 * y4
      kE := -0.042416883008123074 * y1 + 0.1115693827987602 * y2
        - 0.09764676325265872 * y3 + 0.028494263462021576 * y4 }
  set_pre_delay_time m dk2 pre_delay_time

/-- `dk_set_enabled`. -/
def dk_set_enabled (dk : drc_kernel α C) (enabled : ℤ) : drc_kernel α C :=
  { dk with enabled := enabled }

/-! ### Envelope -/

/-- `dk_process_update_envelope`: updates the `envelope_rate` used for the next division. -/
def dk_process_update_envelope (m : DrcMath α) (dk : drc_kernel α C) : drc_kernel α C :=
  let kA := dk.kA
  let kB := dk.kB
  let kC := dk.kC
  let kD := dk.kD
  let kE := dk.kE
  let attack_frames := dk.attack_frames
  -- Calculate desired gain
  let desired_gain := dk.detector_average
  -- Pre-warp so we get desired_gain after sin() warp below.
  let scaled_desired_gain := m.warp_asinf desired_gain
  let is_releasing := scaled_desired_gain > dk.compressor_gain
  let compression_diff_db := m.linear_to_decibels (dk.compressor_gain / scaled_desired_gain)
  if is_releasing then
    -- Release mode
    let compression_diff_db := if m.isbadf compression_diff_db then -1 else compression_diff_db
    let x := compression_diff_db
    let x := max (-12) x
    let x := min 0 x
    let x := 0.25 * (x + 12)
    let x2 := x * x
    let x3 := x2 * x
    let x4 := x2 * x2
    let release_frames := kA + kB * x + kC * x2 + kD * x3 + kE * x4
    let db_per_frame := (kSpacingDb : α) / release_frames
    let envelope_rate := m.decibels_to_linear db_per_frame
    { dk with
      max_attack_compression_diff_db := none
      envelope_rate := envelope_rate
      scaled_desired_gain := scaled_desired_gain }
  else
    -- Attack mode
    let compression_diff_db := if m.isbadf compression_diff_db then 1 else compression_diff_db
    let max_attack : α :=
      match dk.max_attack_compression_diff_db with
      | none => compression_diff_db
      | some v => max v compression_diff_db
    let eff_atten_diff_db := max 0.5 max_attack
    let x := 0.25 / eff_atten_diff_db
    let envelope_rate := 1 - m.powf x (1 / attack_frames)
    { dk with
      max_attack_compression_diff_db := some max_attack
      envelope_rate := envelope_rate
      scaled_desired_gain := scaled_desired_gain }

/-! ### Division processing -/

/-- The local variables of `dk_process_division` that live across frames. -/
structure division_locals (α : Type) where
  pre_delay_read_index : ℕ
  pre_delay_write_index : ℕ
  detector_average : α
  compressor_gain : α

/-- First channel loop of a frame of `dk_process_division`: the undelayed samples go into the
pre-delay buffers and `abs_input` becomes their largest magnitude. -/
def division_store (frame : Frame α C) (pre_delay_write_index : ℕ) :
    List (Fin C) → (Fin C → ℕ → α) × α → (Fin C → ℕ → α) × α
  | [], s => s
  | j :: js, (bufs, abs_input) =>
    let undelayed_source := frame j
    let bufs1 := Function.update bufs j
      (Function.update (bufs j) pre_delay_write_index undelayed_source)
    let abs_undelayed_source := |undelayed_source|
    let abs_input1 := if abs_input < abs_undelayed_source then abs_undelayed_source else abs_input
    division_store frame pre_delay_write_index js (bufs1, abs_input1)

/-- Second channel loop of a frame of `dk_process_division`: the delayed samples, scaled by
`total_gain`, overwrite the frame. -/
def division_apply (bufs : Fin C → ℕ → α) (pre_delay_read_index : ℕ) (total_gain : α) :
    List (Fin C) → Frame α C → Frame α C
  | [], frame => frame
  | j :: js, frame =>
    let delay_buffer := bufs j
    division_apply bufs pre_delay_read_index total_gain js
      (Function.update frame j (delay_buffer pre_delay_read_index * total_gain))

/-- One iteration of the `while (frames_to_process--)` loop of `dk_process_division`. -/
def division_frame (m : DrcMath α) (dk : drc_kernel α C)
    (sat_release_frames_inv_neg master_linear_gain envelope_rate scaled_desired_gain : α)
    (l : division_locals α) (frame : Frame α C) :
    drc_kernel α C × division_locals α × Frame α C :=
  let (bufs, abs_input) :=
    division_store frame l.pre_delay_write_index (List.finRange C) (dk.pre_delay_buffers, 0)
  let dk1 : drc_kernel α C := { dk with pre_delay_buffers := bufs }
  let gain := volume_gain m dk1 abs_input
  let is_release := gain > l.detector_average
  let detector_average :=
    if is_release then
      let gain_db := m.linear_to_decibels (min gain m.NEG_TWO_DB)
      let db_per_frame := gain_db * sat_release_frames_inv_neg
      let sat_release_rate := m.decibels_to_linear db_per_frame - 1
      l.detector_average + (gain - l.detector_average) * sat_release_rate
    else gain
  -- Exponential approach to desired gain.
  let compressor_gain :=
    if envelope_rate < 1 then
      l.compressor_gain + (scaled_desired_gain - l.compressor_gain) * envelope_rate
    else min 1 (l.compressor_gain * envelope_rate)
  -- Fix gremlins.
  let detector_average := if m.isbadf detector_average then 1 else min detector_average 1
  let post_warp_compressor_gain := m.warp_sinf compressor_gain
  let total_gain := master_linear_gain * post_warp_compressor_gain
  let out := division_apply bufs l.pre_delay_read_index total_gain (List.finRange C) frame
  (dk1,
   { pre_delay_read_index := (l.pre_delay_read_index + 1) &&& MAX_PRE_DELAY_FRAMES_MASK
     pre_delay_write_index := (l.pre_delay_write_index + 1) &&& MAX_PRE_DELAY_FRAMES_MASK
     detector_average := detector_average
     compressor_gain := compressor_gain },
   out)

/-- The `while (frames_to_process--)` loop of `dk_process_division`. -/
def dk_process_division_loop (m : DrcMath α)
    (sat_release_frames_inv_neg master_linear_gain envelope_rate scaled_desired_gain : α) :
    drc_kernel α C → division_locals α → List (Frame α C) →
      drc_kernel α C × division_locals α × List (Frame α C)
  | dk, l, [] => (dk, l, [])
  | dk, l, frame :: frames =>
    let (dk1, l1, out) := division_frame m dk sat_release_frames_inv_neg master_linear_gain
      envelope_rate scaled_desired_gain l frame
    let (dk2, l2, outs) := dk_process_division_loop m sat_release_frames_inv_neg
      master_linear_gain envelope_rate scaled_desired_gain dk1 l1 frames
    (dk2, l2, out :: outs)

/-- `dk_process_division`: the actual compression, on the frames of one fragment. -/
def dk_process_division (m : DrcMath α) (dk : drc_kernel α C) (frames : List (Frame α C)) :
    drc_kernel α C × List (Frame α C) :=
  let (dk1, l, outs) := dk_process_division_loop m dk.sat_release_frames_inv_neg
    dk.master_linear_gain dk.envelope_rate dk.scaled_desired_gain dk
    { pre_delay_read_index := dk.pre_delay_read_index
      pre_delay_write_index := dk.pre_delay_write_index
      detector_average := dk.detector_average
      compressor_gain := dk.compressor_gain } frames
  -- Locals back to member variables.
  ({ dk1 with
     pre_delay_read_index := l.pre_delay_read_index
     pre_delay_write_index := l.pre_delay_write_index
     detector_average := l.detector_average
     compressor_gain := l.compressor_gain }, outs)

/-! ### Bypass and dispatcher -/

/-- The channel loop of a frame of `dk_process_delay_only`: each channel stores its sample at
`write_index` and then takes its output from `read_index`. -/
def delay_only_channels (read_index write_index : ℕ) :
    List (Fin C) → (Fin C → ℕ → α) × Frame α C → (Fin C → ℕ → α) × Frame α C
  | [], s => s
  | j :: js, (bufs, frame) =>
    let delay_buffer := Function.update (bufs j) write_index (frame j)
    delay_only_channels read_index write_index js
      (Function.update bufs j delay_buffer, Function.update frame j (delay_buffer read_index))

/-- The `for (i = 0; i < count; i++)` loop of `dk_process_delay_only`, on the buffers and the
local indices. -/
def dk_process_delay_only_loop :
    (Fin C → ℕ → α) → ℕ → ℕ → List (Frame α C) → (Fin C → ℕ → α) × ℕ × ℕ × List (Frame α C)
  | bufs, read_index, write_index, [] => (bufs, read_index, write_index, [])
  | bufs, read_index, write_index, frame :: frames =>
    let (bufs1, out) := delay_only_channels read_index write_index (List.finRange C) (bufs, frame)
    let (bufs2, r, w, outs) := dk_process_delay_only_loop bufs1
      ((read_index + 1) &&& MAX_PRE_DELAY_FRAMES_MASK)
      ((write_index + 1) &&& MAX_PRE_DELAY_FRAMES_MASK) frames
    (bufs2, r, w, out :: outs)

/-- `dk_process_delay_only`: delay the input only; used when the kernel is disabled. -/
def dk_process_delay_only (dk : drc_kernel α C) (frames : List (Frame α C)) :
    drc_kernel α C × List (Frame α C) :=
  let (bufs, read_index, write_index, outs) := dk_process_delay_only_loop dk.pre_delay_buffers
    dk.pre_delay_read_index dk.pre_delay_write_index frames
  ({ dk with
     pre_delay_buffers := bufs
     pre_delay_read_index := read_index
     pre_delay_write_index := write_index }, outs)

/-- The value an `int` (32 bits, two's complement) holds after the arithmetic result `x`:
a result outside the range of `int` wraps around. -/
def wrap_int (x : ℤ) : ℤ := (x + 2 ^ 31) % 2 ^ 32 - 2 ^ 31

/-- The 32-bit two's-complement bit pattern of an `int`, as a natural number. -/
def int_bits (x : ℤ) : ℕ := (x % 2 ^ 32).toNat

/-- The `while (i < count)` loop of `dk_process`; `frames` are the frames from `i` on.  The
`int` index `i` is compared with, and subtracted from, the `unsigned` `count` as an
`unsigned`, so for a block of fewer than `2 ^ 32` frames it is the position in the block.
`processed`, `offset` and `fragment` are `int`s: the mask is applied to the bit pattern of
`processed`, and `processed += fragment` wraps.  Returns the kernel, the local `processed`
and the overwritten frames. -/
def dk_process_loop (m : DrcMath α) (dk : drc_kernel α C) (processed : ℤ)
    (frames : List (Frame α C)) : drc_kernel α C × ℤ × List (Frame α C) :=
  if frames = [] then (dk, processed, [])
  else
    -- Update envelope once per division (32 frames)
    let offset := int_bits processed &&& DIVISION_FRAMES_MASK
    let dk1 := if offset = 0 then dk_process_update_envelope m dk else dk
    let fragment := min (DIVISION_FRAMES - offset) frames.length
    let r := dk_process_division m dk1 (frames.take fragment)
    let rest :=
      dk_process_loop m r.1 (wrap_int (processed + fragment)) (frames.drop fragment)
    (rest.1, rest.2.1, r.2 ++ rest.2.2)
termination_by frames.length
decreasing_by
  have h1 : 0 < frames.length := List.length_pos.mpr (by assumption)
  have h2 : int_bits processed &&& DIVISION_FRAMES_MASK ≤ DIVISION_FRAMES_MASK :=
    Nat.and_le_right
  simp only [List.length_drop, DIVISION_FRAMES, DIVISION_FRAMES_MASK] at *
  omega

/-- `dk_process`. -/
def dk_process (m : DrcMath α) (dk : drc_kernel α C) (frames : List (Frame α C)) :
    drc_kernel α C × List (Frame α C) :=
  if dk.enabled = 0 then dk_process_delay_only dk frames
  else
    let r := dk_process_loop m dk dk.processed frames
    ({ r.1 with processed := r.2.1 }, r.2.2)

/-! ## Frame-by-frame view of the processing loops -/

/-- All channels store their sample of `frame` in slot `w` of their buffer. -/
def ring_store (bufs : Fin C → ℕ → α) (w : ℕ) (frame : Frame α C) : Fin C → ℕ → α :=
  fun j => Function.update (bufs j) w (frame j)

/-- The kernel with the four loop locals of `dk_process_division` written back. -/
def writeback (dk : drc_kernel α C) (l : division_locals α) : drc_kernel α C :=
  { dk with
    pre_delay_read_index := l.pre_delay_read_index
    pre_delay_write_index := l.pre_delay_write_index
    detector_average := l.detector_average
    compressor_gain := l.compressor_gain }

/-- The loop locals of `dk_process_division` as they are read from the kernel. -/
def locals_of (dk : drc_kernel α C) : division_locals α :=
  { pre_delay_read_index := dk.pre_delay_read_index
    pre_delay_write_index := dk.pre_delay_write_index
    detector_average := dk.detector_average
    compressor_gain := dk.compressor_gain }

/-- Runs a per-frame step over a block, collecting the output frames. -/
def run_frames (step : drc_kernel α C → Frame α C → drc_kernel α C × Frame α C) :
    drc_kernel α C → List (Frame α C) → drc_kernel α C × List (Frame α C)
  | dk, [] => (dk, [])
  | dk, frame :: frames =>
    let r := step dk frame
    let rest := run_frames step r.1 frames
    (rest.1, r.2 :: rest.2)

/-- What one frame of the bypass path does to the kernel. -/
def delay_frame (dk : drc_kernel α C) (frame : Frame α C) : drc_kernel α C × Frame α C :=
  let bufs := ring_store dk.pre_delay_buffers dk.pre_delay_write_index frame
  ({ dk with
     pre_delay_buffers := bufs
     pre_delay_read_index := (dk.pre_delay_read_index + 1) % 1024
     pre_delay_write_index := (dk.pre_delay_write_index + 1) % 1024 },
   fun j => bufs j dk.pre_delay_read_index)

/-- A sequence of `dk_process` calls on consecutive blocks; the outputs are concatenated. -/
def dk_process_calls (m : DrcMath α) :
    drc_kernel α C → List (List (Frame α C)) → drc_kernel α C × List (Frame α C)
  | dk, [] => (dk, [])
  | dk, block :: blocks =>
    let r := dk_process m dk block
    let rest := dk_process_calls m r.1 blocks
    (rest.1, r.2 ++ rest.2)

/-- The delay line between the read and the write index holds the frames `q`, oldest first:
slot `(r + t) % 1024` of channel `j` holds sample `j` of `q[t]`, and the write index is
`q.length` slots ahead of the read index. -/
def RingInv (bufs : Fin C → ℕ → α) (r w : ℕ) (q : List (Frame α C)) : Prop :=
  r < 1024 ∧ q.length < 1024 ∧ w = (r + q.length) % 1024 ∧
    ∀ (t : ℕ) (j : Fin C), t < q.length → bufs j ((r + t) % 1024) = q.getD t 0 j

/-- The value of `abs_input` after the first channel loop of a frame of `dk_process_division`,
started from `a`. -/
def frame_abs_input (frame : Frame α C) : List (Fin C) → α → α
  | [], a => a
  | j :: js, a => frame_abs_input frame js (if a < |frame j| then |frame j| else a)

/-- What one frame of `dk_process_division` does to the kernel, with the loop locals kept in
their member variables. -/
def enabled_frame (m : DrcMath α) (dk : drc_kernel α C) (frame : Frame α C) :
    drc_kernel α C × Frame α C :=
  let bufs := ring_store dk.pre_delay_buffers dk.pre_delay_write_index frame
  let abs_input := frame_abs_input frame (List.finRange C) 0
  let gain := volume_gain m dk abs_input
  let detector_average :=
    if gain > dk.detector_average then
      dk.detector_average + (gain - dk.detector_average) *
        (m.decibels_to_linear
          (m.linear_to_decibels (min gain m.NEG_TWO_DB) * dk.sat_release_frames_inv_neg) - 1)
    else gain
  let compressor_gain :=
    if dk.envelope_rate < 1 then
      dk.compressor_gain + (dk.scaled_desired_gain - dk.compressor_gain) * dk.envelope_rate
    else min 1 (dk.compressor_gain * dk.envelope_rate)
  let total_gain := dk.master_linear_gain * m.warp_sinf compressor_gain
  ({ dk with
     pre_delay_buffers := bufs
     pre_delay_read_index := (dk.pre_delay_read_index + 1) % 1024
     pre_delay_write_index := (dk.pre_delay_write_index + 1) % 1024
     detector_average := if m.isbadf detector_average then 1 else min detector_average 1
     compressor_gain := compressor_gain },
   fun j => bufs j dk.pre_delay_read_index * total_gain)

/-- The kernel with `processed` set to `p`. -/
def set_processed (dk : drc_kernel α C) (p : ℤ) : drc_kernel α C :=
  { dk with processed := p }

/-- What one frame of the enabled `dk_process` does to the kernel, with the local `processed`
kept in its member variable: the envelope is updated at a division boundary. -/
def loop_frame (m : DrcMath α) (dk : drc_kernel α C) (frame : Frame α C) :
    drc_kernel α C × Frame α C :=
  let dk1 := if dk.processed % 32 = 0 then dk_process_update_envelope m dk else dk
  let r := enabled_frame m dk1 frame
  (set_processed r.1 (wrap_int (dk.processed + 1)), r.2)

/-- A kernel structure with every field zero. -/
def zero_kernel : drc_kernel α C :=
  { sample_rate := 0, detector_average := 0, compressor_gain := 0, enabled := 0, processed := 0
    last_pre_delay_frames := 0, pre_delay_read_index := 0, pre_delay_write_index := 0
    max_attack_compression_diff_db := none, ratio := 0, slope := 0, linear_threshold := 0
    db_threshold := 0, db_knee := 0, knee_threshold := 0, ratio_base := 0, K := 0
    knee_alpha := 0, knee_beta := 0, master_linear_gain := 0, attack_frames := 0
    sat_release_frames_inv_neg := 0, kA := 0, kB := 0, kC := 0, kD := 0, kE := 0
    envelope_rate := 0, scaled_desired_gain := 0, pre_delay_buffers := fun _ _ => 0 }

/-- Rational stand-ins for the functions of `drc_math.h`, for evaluating the kernel on concrete
inputs, without rounding; the theorems that take a `DrcMath` hold for every choice of these
functions. -/
def testMath : DrcMath ℚ :=
  { knee_expf := fun x => 1 + x
    expf := fun x => 1 + x
    powf := fun x _ => x
    sqrtf := fun x => (1 + x) / 2
    linear_to_decibels := fun x => 20 * (x - 1)
    decibels_to_linear := fun x => 1 + x / 20
    warp_sinf := fun x => x
    warp_asinf := fun x => x
    isbadf := fun _ => false
    NEG_TWO_DB := 0.7943282347242815
    roundf := fun x => x }

/-- The rational stand-ins with the rounding of the machine. -/
def floatMath : DrcMath ℚ := { testMath with roundf := round_to_float }

/-- A stereo kernel right after `dk_init` at 48 kHz. -/
def example_kernel : drc_kernel ℚ 2 := dk_init zero_kernel 48000

/-- The example kernel, enabled. -/
def example_enabled_kernel : drc_kernel ℚ 2 := dk_set_enabled example_kernel 1

/-- A short stereo block. -/
def example_block : List (Frame ℚ 2) := [fun _ => 1, fun _ => 2, fun _ => 3]

/-- The example kernel reconfigured to a pre-delay of two frames. -/
def example_short_kernel : drc_kernel ℚ 2 := set_pre_delay_frames example_kernel 2

/-- The first assignments of `update_static_curve_parameters` when a parameter has changed:
the cached parameters, the linear threshold and the slope. -/
def curve_stage1 (m : DrcMath α) (dk : drc_kernel α C)
    (db_threshold db_knee ratio : α) : drc_kernel α C :=
  { dk with
    db_threshold := db_threshold
    linear_threshold := m.decibels_to_linear db_threshold
    db_knee := db_knee
    ratio := ratio
    slope := m.roundf (1 / ratio) }

/-- The assignments of `update_static_curve_parameters` when a parameter has changed. -/
def compute_static_curve (m : DrcMath α) (dk : drc_kernel α C)
    (db_threshold db_knee ratio : α) : drc_kernel α C :=
  { curve_stage1 m dk db_threshold db_knee ratio with
    K := k_at_slope m (curve_stage1 m dk db_threshold db_knee ratio) (m.roundf (1 / ratio))
    knee_alpha := m.decibels_to_linear db_threshold +
      1 / k_at_slope m (curve_stage1 m dk db_threshold db_knee ratio) (m.roundf (1 / ratio))
    knee_beta :=
      -m.expf
          (k_at_slope m (curve_stage1 m dk db_threshold db_knee ratio) (m.roundf (1 / ratio)) *
            m.decibels_to_linear db_threshold) /
        k_at_slope m (curve_stage1 m dk db_threshold db_knee ratio) (m.roundf (1 / ratio))
    knee_threshold := m.decibels_to_linear (db_threshold + db_knee)
    ratio_base :=
      knee_curve m (curve_stage1 m dk db_threshold db_knee ratio)
          (m.decibels_to_linear (db_threshold + db_knee))
          (k_at_slope m (curve_stage1 m dk db_threshold db_knee ratio) (m.roundf (1 / ratio))) *
        m.powf (m.decibels_to_linear (db_threshold + db_knee)) (-m.roundf (1 / ratio)) }

/-- The assignments of `dk_set_parameters` between the static curve update and
`set_pre_delay_time`. -/
def set_timing (m : DrcMath α) (dk1 : drc_kernel α C)
    (sample_rate attack_time release_time db_post_gain
      releaseZone1 releaseZone2 releaseZone3 releaseZone4 : α) : drc_kernel α C :=
  { dk1 with
    master_linear_gain :=
      m.decibels_to_linear db_post_gain * m.powf (1 / volume_gain m dk1 1) 0.6
    attack_frames := max 0.001 attack_time * sample_rate
    sat_release_frames_inv_neg := -1 / (0.0025 * sample_rate)
    kA := 0.9999999999999998 * (sample_rate * release_time * releaseZone1)
      + 1.8432219684323923e-16 * (sample_rate * release_time * releaseZone2)
      - 1.9373394351676423e-16 * (sample_rate * release_time * releaseZone3)
      + 8.824516011816245e-18 * (sample_rate * release_time * releaseZone4)
    kB := -1.5788320352845888 * (sample_rate * release_time * releaseZone1)
      + 2.3305837032074286 * (sample_rate * release_time * releaseZone2)
      - 0.9141194204840429 * (sample_rate * release_time * releaseZone3)
      + 0.1623677525612032 * (sample_rate * release_time * releaseZone4)
    kC := 0.5334142869106424 * (sample_rate * release_time * releaseZone1)
      - 1.272736789213631 * (sample_rate * release_time * releaseZone2)
      + 0.9258856042207512 * (sample_rate * release_time * releaseZone3)
      - 0.18656310191776226 * (sample_rate * release_time * releaseZone4)
    kD := 0.08783463138207234 * (sample_rate * release_time * releaseZone1)
      - 0.1694162967925622 * (sample_rate * release_time * releaseZone2)
      + 0.08588057951595272 * (sample_rate * release_time * releaseZone3)
      - 0.00429891410546283 * (sample_rate * release_time * releaseZone4)
    kE := -0.042416883008123074 * (sample_rate * release_time * releaseZone1)
      + 0.1115693827987602 * (sample_rate * release_time * releaseZone2)
      - 0.09764676325265872 * (sample_rate * release_time * releaseZone3)
      + 0.028494263462021576 * (sample_rate * release_time * releaseZone4) }

/-- The frame count after the clamp of `set_pre_delay_time`. -/
def clamp_frames (frames : ℕ) : ℕ :=
  if frames > MAX_PRE_DELAY_FRAMES - 1 then MAX_PRE_DELAY_FRAMES - 1 else frames

/-- The states a kernel can be in: `dk_init` on any structure, followed by `dk_set_parameters`
calls that return, `dk_set_enabled` calls and `dk_process` calls, in any order. -/
inductive Reachable (m : DrcMath α) : drc_kernel α C → Prop
  | init (dk0 : drc_kernel α C) (sample_rate : α) : Reachable m (dk_init dk0 sample_rate)
  | set_parameters {dk dk1 : drc_kernel α C}
      (db_threshold db_knee ratio attack_time release_time pre_delay_time db_post_gain
        releaseZone1 releaseZone2 releaseZone3 releaseZone4 : α) :
      Reachable m dk →
      dk_set_parameters m dk db_threshold db_knee ratio attack_time release_time pre_delay_time
        db_post_gain releaseZone1 releaseZone2 releaseZone3 releaseZone4 = some dk1 →
      Reachable m dk1
  | set_enabled {dk : drc_kernel α C} (enabled : ℤ) :
      Reachable m dk → Reachable m (dk_set_enabled dk enabled)
  | process {dk : drc_kernel α C} (frames : List (Frame α C)) :
      Reachable m dk → Reachable m (dk_process m dk frames).1

/-- The ring-buffer invariant: both indices inside the buffer, the configured delay at most
1023, and the write index that many slots ahead of the read index. -/
def RingOK (dk : drc_kernel α C) : Prop :=
  dk.pre_delay_read_index ≤ 1023 ∧ dk.pre_delay_write_index ≤ 1023 ∧
    dk.last_pre_delay_frames ≤ 1023 ∧
    ((dk.pre_delay_write_index : ℤ) - dk.pre_delay_read_index) % 1024 = dk.last_pre_delay_frames

/-- The states reached from `dk` by `dk_process` and `dk_set_enabled` calls, in any number and
order. -/
inductive ProcessSteps (m : DrcMath α) : drc_kernel α C → drc_kernel α C → Prop
  | refl (dk : drc_kernel α C) : ProcessSteps m dk dk
  | process {dk dk1 : drc_kernel α C} (frames : List (Frame α C)) :
      ProcessSteps m dk dk1 → ProcessSteps m dk (dk_process m dk1 frames).1
  | set_enabled {dk dk1 : drc_kernel α C} (enabled : ℤ) :
      ProcessSteps m dk dk1 → ProcessSteps m dk (dk_set_enabled dk1 enabled)

/-- The kernel with the configuration (sample rate, static curve, timing, configured delay) of
`c` and the runtime state (detector, gains, counters, ring indices, buffers) of `s`. -/
def with_runtime (c s : drc_kernel α C) : drc_kernel α C :=
  { c with
    detector_average := s.detector_average
    compressor_gain := s.compressor_gain
    enabled := s.enabled
    processed := s.processed
    pre_delay_read_index := s.pre_delay_read_index
    pre_delay_write_index := s.pre_delay_write_index
    max_attack_compression_diff_db := s.max_attack_compression_diff_db
    envelope_rate := s.envelope_rate
    scaled_desired_gain := s.scaled_desired_gain
    pre_delay_buffers := s.pre_delay_buffers }

/-- The kernel `d` holds what `dk_set_parameters` with these arguments computes. -/
def Configured (m : DrcMath α) (t k r at_ rt pt pg z1 z2 z3 z4 : α) (d : drc_kernel α C) :
    Prop :=
  t = d.db_threshold ∧ k = d.db_knee ∧ r = d.ratio ∧
    set_timing m d d.sample_rate at_ rt pg z1 z2 z3 z4 = d ∧
    ∃ n, float_to_unsigned (m.roundf (pt * d.sample_rate)) = some n ∧
      clamp_frames n = d.last_pre_delay_frames

/-- The frame count as the specification words it: the product rounded to the nearest integer,
clamped into `[0, 1023]`. -/
def spec_pre_delay_frames (pre_delay_time sample_rate : α) : ℕ :=
  min (round (pre_delay_time * sample_rate)).toNat (MAX_PRE_DELAY_FRAMES - 1)

/-- A kernel with a threshold of 1/2 and a knee that ends at 1. -/
def example_curve_kernel : drc_kernel ℚ 2 :=
  { (zero_kernel : drc_kernel ℚ 2) with linear_threshold := 1 / 2, knee_threshold := 1 }

/-- The ten static-curve fields of a kernel. -/
def curve_of (d : drc_kernel α C) : α × α × α × α × α × α × α × α × α × α :=
  (d.db_threshold, d.db_knee, d.ratio, d.linear_threshold, d.slope, d.K, d.knee_alpha,
    d.knee_beta, d.knee_threshold, d.ratio_base)

/-- The static curve is either unconfigured (`db_knee` still holds the value written by
`dk_init`) or its derived fields are the ones `update_static_curve_parameters` computes
from the cached `db_threshold`, `db_knee` and `ratio`. -/
def CurveInv (m : DrcMath α) (dk : drc_kernel α C) : Prop :=
  dk.db_knee = uninitialized_value ∨
    (dk.linear_threshold = m.decibels_to_linear dk.db_threshold ∧
     dk.slope = m.roundf (1 / dk.ratio) ∧
     dk.K = k_at_slope m dk (m.roundf (1 / dk.ratio)) ∧
     dk.knee_alpha = dk.linear_threshold + 1 / dk.K ∧
     dk.knee_beta = -m.expf (dk.K * dk.linear_threshold) / dk.K ∧
     dk.knee_threshold = m.decibels_to_linear (dk.db_threshold + dk.db_knee) ∧
     dk.ratio_base =
       knee_curve m dk dk.knee_threshold dk.K * m.powf dk.knee_threshold (-dk.slope))

/-- Exact real arithmetic: the functions of `drc_math.h` and `math.h` are the real functions
they stand for (decibels are `20 * log10`), and no result is rounded. -/
def ExactMath (m : DrcMath ℝ) : Prop :=
  (∀ x, m.knee_expf x = Real.exp x) ∧
  (∀ x, m.expf x = Real.exp x) ∧
  (∀ x y, 0 < x → m.powf x y = x ^ y) ∧
  (∀ x, 0 ≤ x → m.sqrtf x = Real.sqrt x) ∧
  (∀ x, 0 < x → m.linear_to_decibels x = 20 * Real.logb 10 x) ∧
  (∀ x, m.decibels_to_linear x = (10 : ℝ) ^ (x / 20)) ∧
  (∀ x, m.roundf x = x)

/-- The static curve of a real kernel in closed form: positive threshold below the end of the
knee, and `knee_alpha`, `knee_beta` and `ratio_base` as functions of threshold, knee end, `K`
and slope. -/
def ExactCurve (d : drc_kernel ℝ C) : Prop :=
  0 < d.linear_threshold ∧ d.linear_threshold ≤ d.knee_threshold ∧
  d.knee_alpha = d.linear_threshold + 1 / d.K ∧
  d.knee_beta = -Real.exp (d.K * d.linear_threshold) / d.K ∧
  d.ratio_base =
    (d.linear_threshold +
      (1 - Real.exp (-d.K * (d.knee_threshold - d.linear_threshold))) / d.K) *
      d.knee_threshold ^ (-d.slope)

/-- The derived static-curve fields are the ones `update_static_curve_parameters` computes
from the cached `db_threshold`, `db_knee` and `ratio`. -/
def CurveComputed (m : DrcMath α) (dk : drc_kernel α C) : Prop :=
  dk.linear_threshold = m.decibels_to_linear dk.db_threshold ∧
  dk.slope = m.roundf (1 / dk.ratio) ∧
  dk.K = k_at_slope m dk (m.roundf (1 / dk.ratio)) ∧
  dk.knee_alpha = dk.linear_threshold + 1 / dk.K ∧
  dk.knee_beta = -m.expf (dk.K * dk.linear_threshold) / dk.K ∧
  dk.knee_threshold = m.decibels_to_linear (dk.db_threshold + dk.db_knee) ∧
  dk.ratio_base =
    knee_curve m dk dk.knee_threshold dk.K * m.powf dk.knee_threshold (-dk.slope)

/-- The compression difference in dB that `dk_process_update_envelope` starts from. -/
def compression_diff_db (m : DrcMath α) (dk : drc_kernel α C) : α :=
  m.linear_to_decibels (dk.compressor_gain / m.warp_asinf dk.detector_average)

/-- The argument of the release polynomial in `dk_process_update_envelope`: the compression
difference, with a bad value replaced by -1, clamped into `[-12, 0]` and rescaled. -/
def release_x (m : DrcMath α) (dk : drc_kernel α C) : α :=
  0.25 * (min 0 (max (-12)
    (if m.isbadf (compression_diff_db m dk) then -1 else compression_diff_db m dk)) + 12)

/-- The release polynomial of `dk_process_update_envelope`, as the code evaluates it. -/
def release_duration (dk : drc_kernel α C) (x : α) : α :=
  dk.kA + dk.kB * x + dk.kC * (x * x) + dk.kD * (x * x * x) + dk.kE * (x * x * (x * x))

/-- The running maximum that the attack branch of `dk_process_update_envelope` stores. -/
def attack_max (m : DrcMath α) (dk : drc_kernel α C) : α :=
  match dk.max_attack_compression_diff_db with
  | none => if m.isbadf (compression_diff_db m dk) then 1 else compression_diff_db m dk
  | some v => max v (if m.isbadf (compression_diff_db m dk) then 1 else compression_diff_db m dk)

/-- The control flow of the `while (i < count)` loop of `dk_process`, which depends on
`processed` and `count` only: for each iteration, the value of `processed` at its start and
the `fragment` handed to `dk_process_division`. -/
def dk_process_trace (processed : ℤ) (count : ℕ) : List (ℤ × ℕ) :=
  if count = 0 then []
  else
    let offset := int_bits processed &&& DIVISION_FRAMES_MASK
    let fragment := min (DIVISION_FRAMES - offset) count
    (processed, fragment) ::
      dk_process_trace (wrap_int (processed + fragment)) (count - fragment)
termination_by count
decreasing_by
  have h1 : 0 < count := Nat.pos_of_ne_zero (by assumption)
  have h2 : int_bits processed &&& DIVISION_FRAMES_MASK ≤ DIVISION_FRAMES_MASK :=
    Nat.and_le_right
  simp only [DIVISION_FRAMES, DIVISION_FRAMES_MASK] at *
  omega

/-- The iterations of a trace replayed on a kernel: an iteration that starts on a division
boundary first runs `dk_process_update_envelope`, then every iteration passes its fragment of
the frames to `dk_process_division`. -/
def run_trace (m : DrcMath α) :
    drc_kernel α C → List (ℤ × ℕ) → List (Frame α C) → drc_kernel α C × List (Frame α C)
  | dk, [], _ => (dk, [])
  | dk, (q, f) :: tr, frames =>
    let dk1 :=
      if int_bits q &&& DIVISION_FRAMES_MASK = 0 then dk_process_update_envelope m dk else dk
    let r := dk_process_division m dk1 (frames.take f)
    let rest := run_trace m r.1 tr (frames.drop f)
    (rest.1, r.2 ++ rest.2)

/-- The states a kernel can be in when every `dk_process` call finds `attack_frames > 0`:
`dk_init` on any structure, followed by `dk_set_parameters` calls that return,
`dk_set_enabled` calls and such `dk_process` calls, in any order. -/
inductive ReachableAttack (m : DrcMath α) : drc_kernel α C → Prop
  | init (dk0 : drc_kernel α C) (sample_rate : α) :
      ReachableAttack m (dk_init dk0 sample_rate)
  | set_parameters {dk dk1 : drc_kernel α C}
      (db_threshold db_knee ratio attack_time release_time pre_delay_time db_post_gain
        releaseZone1 releaseZone2 releaseZone3 releaseZone4 : α) :
      ReachableAttack m dk →
      dk_set_parameters m dk db_threshold db_knee ratio attack_time release_time pre_delay_time
        db_post_gain releaseZone1 releaseZone2 releaseZone3 releaseZone4 = some dk1 →
      ReachableAttack m dk1
  | set_enabled {dk : drc_kernel α C} (enabled : ℤ) :
      ReachableAttack m dk → ReachableAttack m (dk_set_enabled dk enabled)
  | process {dk : drc_kernel α C} (frames : List (Frame α C)) :
      ReachableAttack m dk → 0 < dk.attack_frames →
      ReachableAttack m (dk_process m dk frames).1

/-- The envelope invariant: compressor gain and detector average at most 1, and, inside a
division, a positive `envelope_rate` and a `scaled_desired_gain` at most 1. -/
def GainInv (dk : drc_kernel α C) : Prop :=
  dk.compressor_gain ≤ 1 ∧ dk.detector_average ≤ 1 ∧
    (dk.processed % 32 ≠ 0 → 0 < dk.envelope_rate ∧ dk.scaled_desired_gain ≤ 1)

/-- The fields of the kernel that the envelope invariant speaks about. -/
def envelope_of (dk : drc_kernel α C) : α × α × ℤ × α × α :=
  (dk.compressor_gain, dk.detector_average, dk.processed, dk.envelope_rate,
    dk.scaled_desired_gain)

/-- The kernel with `envelope_rate` and `scaled_desired_gain` replaced. -/
def set_envelope (dk : drc_kernel α C) (envelope_rate scaled_desired_gain : α) :
    drc_kernel α C :=
  { dk with envelope_rate := envelope_rate, scaled_desired_gain := scaled_desired_gain }

/-- Conversion of a `float` to `unsigned` as x86-64 code performs it (a 64-bit truncating
conversion of which the low 32 bits are kept): where C defines the conversion it gives the
same value, and a value that does not fit is reduced modulo `2 ^ 32`. -/
def float_to_unsigned_wrapping (x : α) : ℕ :=
  ((if 0 ≤ x then ⌊x⌋ else ⌈x⌉) % 2 ^ 32).toNat

/-- `set_pre_delay_time` compiled with that conversion. -/
def set_pre_delay_time_wrapping (m : DrcMath α) (dk : drc_kernel α C) (pre_delay_time : α) :
    drc_kernel α C :=
  set_pre_delay_frames dk (float_to_unsigned_wrapping (m.roundf (pre_delay_time * dk.sample_rate)))

/-! ## Auxiliary lemmas -/

theorem and_mask (n : ℕ) : n &&& MAX_PRE_DELAY_FRAMES_MASK = n % 1024 :=
  Nat.and_pow_two_sub_one_eq_mod n 10

theorem and_division_mask (n : ℕ) : n &&& DIVISION_FRAMES_MASK = n % 32 :=
  Nat.and_pow_two_sub_one_eq_mod n 5

theorem int_bits_mask (p : ℤ) : int_bits p &&& DIVISION_FRAMES_MASK = (p % 32).toNat := by
  rw [and_division_mask]
  unfold int_bits
  omega

theorem int_bits_mask_zero (p : ℤ) : int_bits p &&& DIVISION_FRAMES_MASK = 0 ↔ p % 32 = 0 := by
  rw [int_bits_mask]
  omega

theorem wrap_int_mod (x : ℤ) : wrap_int x % 32 = x % 32 := by
  unfold wrap_int
  omega

theorem wrap_int_add (x a : ℤ) : wrap_int (wrap_int x + a) = wrap_int (x + a) := by
  unfold wrap_int
  omega

theorem wrap_int_idem (x : ℤ) : wrap_int (wrap_int x) = wrap_int x := by
  unfold wrap_int
  omega

theorem wrap_int_of_range (x : ℤ) (h1 : -2 ^ 31 ≤ x) (h2 : x < 2 ^ 31) : wrap_int x = x := by
  unfold wrap_int
  omega

theorem round_half_even_of_lt (y : α) (n : ℤ) (h1 : (n : α) - 1 / 2 < y)
    (h2 : y < n + 1 / 2) : round_half_even y = n := by
  unfold round_half_even
  by_cases h : (n : α) ≤ y
  · have hf : ⌊y⌋ = n := Int.floor_eq_iff.mpr ⟨h, by linarith⟩
    have hr : Int.fract y < 1 / 2 := by
      rw [Int.fract, hf]; linarith
    rw [if_pos hr, hf]
  · have hlt : y < n := not_le.mp h
    have hf : ⌊y⌋ = n - 1 :=
      Int.floor_eq_iff.mpr ⟨by push_cast; linarith, by push_cast; linarith⟩
    have hr : 1 / 2 < Int.fract y := by
      rw [Int.fract, hf]; push_cast; linarith
    rw [if_neg (not_lt.mpr hr.le), if_pos hr, hf]
    ring

theorem round_half_even_nonneg (y : α) (h : 0 ≤ y) : 0 ≤ round_half_even y := by
  have hf : 0 ≤ ⌊y⌋ := Int.floor_nonneg.mpr h
  unfold round_half_even
  split
  · exact hf
  · split
    · omega
    · split <;> omega

theorem float_exponent_eq (x : α) (e : ℤ) (h1 : (2 : α) ^ e ≤ |x|) (h2 : |x| < 2 ^ (e + 1))
    (he : -126 ≤ e) : float_exponent x = e := by
  have hpos : 0 < |x| := lt_of_lt_of_le (zpow_pos (by norm_num) e) h1
  have hlog : Int.log 2 |x| = e := by
    apply le_antisymm
    · have := (Int.lt_zpow_iff_log_lt (b := 2) (by norm_num) hpos (x := e + 1)).mp
        (by simpa using h2)
      omega
    · exact (Int.zpow_le_iff_le_log (b := 2) (by norm_num) hpos).mp (by simpa using h1)
  unfold float_exponent
  rw [hlog]
  exact max_eq_left he

/-- Rounding to `float` at a value whose binade `e` and nearest multiple `n` of the unit in
the last place are known. -/
theorem round_to_float_of (x : α) (e n : ℤ) (h1 : (2 : α) ^ e ≤ |x|) (h2 : |x| < 2 ^ (e + 1))
    (he : -126 ≤ e) (h3 : (n : α) - 1 / 2 < x / 2 ^ (e - 23))
    (h4 : x / 2 ^ (e - 23) < n + 1 / 2) : round_to_float x = n * 2 ^ (e - 23) := by
  unfold round_to_float
  rw [float_exponent_eq x e h1 h2 he, round_half_even_of_lt _ n h3 h4]

theorem round_to_float_nonneg (x : α) (h : 0 ≤ x) : 0 ≤ round_to_float x := by
  unfold round_to_float
  have hu : (0 : α) < 2 ^ (float_exponent x - 23) := zpow_pos (by norm_num) _
  exact mul_nonneg (by exact_mod_cast round_half_even_nonneg _ (div_nonneg h hu.le)) hu.le

theorem run_frames_append (step : drc_kernel α C → Frame α C → drc_kernel α C × Frame α C)
    (dk : drc_kernel α C) (xs ys : List (Frame α C)) :
    run_frames step dk (xs ++ ys) =
      ((run_frames step (run_frames step dk xs).1 ys).1,
       (run_frames step dk xs).2 ++ (run_frames step (run_frames step dk xs).1 ys).2) := by
  induction xs generalizing dk with
  | nil => simp [run_frames]
  | cons x xs ih => simp [run_frames, ih]

theorem run_frames_length (step : drc_kernel α C → Frame α C → drc_kernel α C × Frame α C)
    (dk : drc_kernel α C) (xs : List (Frame α C)) :
    (run_frames step dk xs).2.length = xs.length := by
  induction xs generalizing dk with
  | nil => simp [run_frames]
  | cons x xs ih => simp [run_frames, ih]

theorem delay_only_channels_spec (r w : ℕ) (l : List (Fin C)) (hl : l.Nodup)
    (bufs : Fin C → ℕ → α) (frame : Frame α C) :
    delay_only_channels r w l (bufs, frame) =
      (fun j => if j ∈ l then Function.update (bufs j) w (frame j) else bufs j,
       fun j => if j ∈ l then Function.update (bufs j) w (frame j) r else frame j) := by
  induction l generalizing bufs frame with
  | nil => simp [delay_only_channels]
  | cons a l ih =>
    have ha : a ∉ l := (List.nodup_cons.mp hl).1
    rw [delay_only_channels, ih (List.nodup_cons.mp hl).2]
    refine Prod.ext ?_ ?_ <;> funext j <;> by_cases hj : j ∈ l
    · have hja : j ≠ a := fun h => ha (h ▸ hj)
      simp [hj, hja, Function.update_noteq]
    · by_cases hja : j = a
      · subst hja; simp [hj]
      · simp [hj, hja, Function.update_noteq]
    · have hja : j ≠ a := fun h => ha (h ▸ hj)
      simp [hj, hja, Function.update_noteq]
    · by_cases hja : j = a
      · subst hja; simp [hj]
      · simp [hj, hja, Function.update_noteq]

theorem delay_only_channels_all (r w : ℕ) (bufs : Fin C → ℕ → α) (frame : Frame α C) :
    delay_only_channels r w (List.finRange C) (bufs, frame) =
      (ring_store bufs w frame, fun j => ring_store bufs w frame j r) := by
  rw [delay_only_channels_spec r w _ (List.nodup_finRange C)]
  simp only [List.mem_finRange, if_true]
  rfl

theorem dk_process_delay_only_eq (dk : drc_kernel α C) (frames : List (Frame α C)) :
    dk_process_delay_only dk frames = run_frames delay_frame dk frames := by
  induction frames generalizing dk with
  | nil => simp [dk_process_delay_only, dk_process_delay_only_loop, run_frames]
  | cons x xs ih =>
    have h := ih (delay_frame dk x).1
    simp only [dk_process_delay_only, dk_process_delay_only_loop, run_frames,
      delay_only_channels_all, and_mask, delay_frame] at h ⊢
    rw [← h]

theorem ring_step (bufs : Fin C → ℕ → α) (r w : ℕ) (q : List (Frame α C))
    (h : RingInv bufs r w q) (x : Frame α C) :
    ∃ a q1, q ++ [x] = a :: q1 ∧ (fun j => ring_store bufs w x j r) = a ∧
      RingInv (ring_store bufs w x) ((r + 1) % 1024) ((w + 1) % 1024) q1 := by
  obtain ⟨hr, hq, hw, hb⟩ := h
  cases q with
  | nil =>
    refine ⟨x, [], rfl, ?_, ?_⟩
    · funext j
      have : w = r := by simp at hw; omega
      subst this
      simp [ring_store]
    · refine ⟨by omega, by simp, by simp at hw ⊢; omega, ?_⟩
      intro t j ht
      simp at ht
  | cons a q0 =>
    refine ⟨a, q0 ++ [x], rfl, ?_, ?_⟩
    · funext j
      have hne : r ≠ w := by simp at hw hq; omega
      have := hb 0 j (by simp)
      simp only [Nat.add_zero, Nat.mod_eq_of_lt hr] at this
      simp [ring_store, Function.update_noteq hne, this]
    · simp only [List.length_cons] at hw hq
      refine ⟨by omega, by simp; omega, by simp; omega, ?_⟩
      intro t j ht
      simp only [List.length_append, List.length_cons, List.length_nil] at ht
      by_cases htq : t < q0.length
      · have hne : ((r + 1) % 1024 + t) % 1024 ≠ w := by omega
        have := hb (t + 1) j (by simp; omega)
        have e : ((r + 1) % 1024 + t) % 1024 = (r + (t + 1)) % 1024 := by omega
        simp only [ring_store, Function.update_noteq hne]
        rw [e, this]
        simp [List.getD_eq_getElem?_getD, List.getElem?_append_left htq]
      · have ht' : t = q0.length := by omega
        have e : ((r + 1) % 1024 + t) % 1024 = w := by omega
        simp only [ring_store]
        rw [e, Function.update_same]
        subst ht'
        simp [List.getD_eq_getElem?_getD]

theorem delay_run (dk : drc_kernel α C) (q : List (Frame α C))
    (h : RingInv dk.pre_delay_buffers dk.pre_delay_read_index dk.pre_delay_write_index q)
    (xs : List (Frame α C)) :
    (run_frames delay_frame dk xs).2 = (q ++ xs).take xs.length ∧
      RingInv (run_frames delay_frame dk xs).1.pre_delay_buffers
        (run_frames delay_frame dk xs).1.pre_delay_read_index
        (run_frames delay_frame dk xs).1.pre_delay_write_index ((q ++ xs).drop xs.length) := by
  induction xs generalizing dk q with
  | nil => simpa [run_frames] using h
  | cons x xs ih =>
    obtain ⟨a, q1, hq, ha, hinv⟩ := ring_step _ _ _ _ h x
    have hcat : q ++ x :: xs = a :: (q1 ++ xs) := by
      rw [← List.singleton_append, ← List.append_assoc, hq]; rfl
    obtain ⟨h1, h2⟩ := ih (delay_frame dk x).1 q1 hinv
    refine ⟨?_, ?_⟩
    · simp only [run_frames, h1, hcat, List.length_cons, List.take_succ_cons]
      rw [← ha]; rfl
    · simpa only [run_frames, hcat, List.length_cons, List.drop_succ_cons] using h2

theorem delay_run_enabled (dk : drc_kernel α C) (xs : List (Frame α C)) :
    (run_frames delay_frame dk xs).1.enabled = dk.enabled := by
  induction xs generalizing dk with
  | nil => rfl
  | cons x xs ih => simp only [run_frames, ih]; rfl

theorem dk_process_disabled (m : DrcMath α) (dk : drc_kernel α C) (h : dk.enabled = 0)
    (xs : List (Frame α C)) : dk_process m dk xs = run_frames delay_frame dk xs := by
  simp [dk_process, h, dk_process_delay_only_eq]

theorem calls_delay (m : DrcMath α) (blocks : List (List (Frame α C))) (dk : drc_kernel α C)
    (q : List (Frame α C)) (hdis : dk.enabled = 0)
    (h : RingInv dk.pre_delay_buffers dk.pre_delay_read_index dk.pre_delay_write_index q) :
    (dk_process_calls m dk blocks).2 = (q ++ blocks.flatten).take blocks.flatten.length := by
  induction blocks generalizing dk q with
  | nil => simp [dk_process_calls]
  | cons b bs ih =>
    obtain ⟨h1, h2⟩ := delay_run dk q h b
    have hen : (run_frames delay_frame dk b).1.enabled = 0 := by rw [delay_run_enabled, hdis]
    have h3 := ih (run_frames delay_frame dk b).1 _ hen h2
    have e1 : (dk_process_calls m dk (b :: bs)).2 =
        (run_frames delay_frame dk b).2 ++
          (dk_process_calls m (run_frames delay_frame dk b).1 bs).2 := by
      simp only [dk_process_calls, dk_process_disabled m dk hdis]
    have hle : b.length ≤ (q ++ b).length := by simp
    rw [e1, h1, h3, List.flatten_cons, List.length_append, List.take_add,
      ← List.append_assoc q b, List.take_append_of_le_length hle,
      List.drop_append_of_le_length hle]

theorem getD_take_pad (d : ℕ) (xs : List (Frame α C)) (i : ℕ) (hi : i < xs.length) (j : Fin C) :
    ((List.replicate d (0 : Frame α C) ++ xs).take xs.length).getD i 0 j =
      if i < d then 0 else xs.getD (i - d) 0 j := by
  simp only [List.getD_eq_getElem?_getD, List.getElem?_take, hi, if_true]
  by_cases h : i < d
  · rw [List.getElem?_append_left (by simpa using h)]
    simp [h]
  · rw [List.getElem?_append_right (by simpa using h)]
    simp [h]

theorem bypass_outputs (m : DrcMath α) (dk : drc_kernel α C) (d : ℕ)
    (blocks : List (List (Frame α C))) (hdis : dk.enabled = 0)
    (hzero : ∀ j s, s < MAX_PRE_DELAY_FRAMES → dk.pre_delay_buffers j s = 0)
    (hr : dk.pre_delay_read_index < MAX_PRE_DELAY_FRAMES)
    (hw : dk.pre_delay_write_index < MAX_PRE_DELAY_FRAMES)
    (hd : ((dk.pre_delay_write_index : ℤ) - dk.pre_delay_read_index) % 1024 = d) :
    (dk_process_calls m dk blocks).2.length = blocks.flatten.length ∧
    (∀ i, i < blocks.flatten.length → ∀ j : Fin C,
      (dk_process_calls m dk blocks).2.getD i 0 j =
        if i < d then 0 else blocks.flatten.getD (i - d) 0 j) ∧
    (d = 0 → (dk_process_calls m dk blocks).2 = blocks.flatten) := by
  simp only [MAX_PRE_DELAY_FRAMES] at hzero hr hw
  have hinv : RingInv dk.pre_delay_buffers dk.pre_delay_read_index dk.pre_delay_write_index
      (List.replicate d (0 : Frame α C)) := by
    refine ⟨hr, by simp; omega, by simp; omega, ?_⟩
    intro t j ht
    simp only [List.length_replicate] at ht
    rw [hzero j _ (Nat.mod_lt _ (by norm_num))]
    simp [List.getD_eq_getElem?_getD, List.getElem?_replicate, ht]
  have hout := calls_delay m blocks dk _ hdis hinv
  refine ⟨?_, ?_, ?_⟩
  · rw [hout]; simp
  · intro i hi j
    rw [hout]
    exact getD_take_pad d _ i hi j
  · intro h0
    rw [hout, h0]
    simp

theorem division_store_spec (frame : Frame α C) (w : ℕ) (l : List (Fin C)) (hl : l.Nodup)
    (bufs : Fin C → ℕ → α) (a : α) :
    division_store frame w l (bufs, a) =
      (fun j => if j ∈ l then Function.update (bufs j) w (frame j) else bufs j,
       frame_abs_input frame l a) := by
  induction l generalizing bufs a with
  | nil => simp [division_store, frame_abs_input]
  | cons c l ih =>
    have hc : c ∉ l := (List.nodup_cons.mp hl).1
    rw [division_store, ih (List.nodup_cons.mp hl).2]
    refine Prod.ext ?_ rfl
    funext j
    by_cases hj : j ∈ l
    · have hjc : j ≠ c := fun h => hc (h ▸ hj)
      simp [hj, hjc, Function.update_noteq]
    · by_cases hjc : j = c
      · subst hjc; simp [hj]
      · simp [hj, hjc, Function.update_noteq]

theorem division_store_all (frame : Frame α C) (w : ℕ) (bufs : Fin C → ℕ → α) (a : α) :
    division_store frame w (List.finRange C) (bufs, a) =
      (ring_store bufs w frame, frame_abs_input frame (List.finRange C) a) := by
  rw [division_store_spec frame w _ (List.nodup_finRange C)]
  simp only [List.mem_finRange, if_true]
  rfl

theorem division_apply_spec (bufs : Fin C → ℕ → α) (r : ℕ) (g : α) (l : List (Fin C))
    (frame : Frame α C) :
    division_apply bufs r g l frame = fun j => if j ∈ l then bufs j r * g else frame j := by
  induction l generalizing frame with
  | nil => simp [division_apply]
  | cons c l ih =>
    rw [division_apply, ih]
    funext j
    by_cases hj : j ∈ l
    · simp [hj]
    · by_cases hjc : j = c
      · subst hjc; simp [hj]
      · simp [hj, hjc, Function.update_noteq]

theorem division_apply_all (bufs : Fin C → ℕ → α) (r : ℕ) (g : α) (frame : Frame α C) :
    division_apply bufs r g (List.finRange C) frame = fun j => bufs j r * g := by
  rw [division_apply_spec]
  simp only [List.mem_finRange, if_true]

theorem division_frame_eq (m : DrcMath α) (dk : drc_kernel α C) (l : division_locals α)
    (frame : Frame α C) :
    division_frame m dk dk.sat_release_frames_inv_neg dk.master_linear_gain dk.envelope_rate
        dk.scaled_desired_gain l frame =
      ({ dk with pre_delay_buffers := (enabled_frame m (writeback dk l) frame).1.pre_delay_buffers },
       locals_of (enabled_frame m (writeback dk l) frame).1,
       (enabled_frame m (writeback dk l) frame).2) := by
  simp only [division_frame, division_store_all, division_apply_all, and_mask]
  rfl

theorem enabled_run_fields (m : DrcMath α) (dk : drc_kernel α C) (fs : List (Frame α C)) :
    writeback
        { dk with pre_delay_buffers := (run_frames (enabled_frame m) dk fs).1.pre_delay_buffers }
        (locals_of (run_frames (enabled_frame m) dk fs).1) =
      (run_frames (enabled_frame m) dk fs).1 := by
  induction fs generalizing dk with
  | nil => rfl
  | cons x xs ih =>
    have h := ih (enabled_frame m dk x).1
    simp only [run_frames]
    rw [← h]
    rfl

theorem division_loop_eq (m : DrcMath α) (fs : List (Frame α C)) (dk : drc_kernel α C)
    (l : division_locals α) :
    dk_process_division_loop m dk.sat_release_frames_inv_neg dk.master_linear_gain
        dk.envelope_rate dk.scaled_desired_gain dk l fs =
      ({ dk with
         pre_delay_buffers :=
           (run_frames (enabled_frame m) (writeback dk l) fs).1.pre_delay_buffers },
       locals_of (run_frames (enabled_frame m) (writeback dk l) fs).1,
       (run_frames (enabled_frame m) (writeback dk l) fs).2) := by
  induction fs generalizing dk l with
  | nil => rfl
  | cons x xs ih =>
    have h := ih { dk with
      pre_delay_buffers := (enabled_frame m (writeback dk l) x).1.pre_delay_buffers }
      (locals_of (enabled_frame m (writeback dk l) x).1)
    simp only [dk_process_division_loop, division_frame_eq]
    simp only [run_frames]
    rw [h]
    rfl

theorem dk_process_division_eq (m : DrcMath α) (dk : drc_kernel α C) (fs : List (Frame α C)) :
    dk_process_division m dk fs = run_frames (enabled_frame m) dk fs := by
  have h := division_loop_eq m fs dk (locals_of dk)
  have e := enabled_run_fields m dk fs
  simp only [dk_process_division]
  refine Prod.ext ?_ ?_
  · rw [← e]
    change writeback (dk_process_division_loop m dk.sat_release_frames_inv_neg
      dk.master_linear_gain dk.envelope_rate dk.scaled_desired_gain dk (locals_of dk) fs).1
      (dk_process_division_loop m dk.sat_release_frames_inv_neg
      dk.master_linear_gain dk.envelope_rate dk.scaled_desired_gain dk (locals_of dk) fs).2.1 = _
    rw [h]
    rfl
  · change (dk_process_division_loop m dk.sat_release_frames_inv_neg
      dk.master_linear_gain dk.envelope_rate dk.scaled_desired_gain dk (locals_of dk) fs).2.2 = _
    rw [h]
    rfl

theorem enabled_frame_processed (m : DrcMath α) (dk : drc_kernel α C) (p : ℤ)
    (x : Frame α C) :
    enabled_frame m (set_processed dk p) x =
      (set_processed (enabled_frame m dk x).1 p, (enabled_frame m dk x).2) := rfl

theorem enabled_run_processed (m : DrcMath α) (fs : List (Frame α C)) (dk : drc_kernel α C)
    (p : ℤ) :
    run_frames (enabled_frame m) (set_processed dk p) fs =
      (set_processed (run_frames (enabled_frame m) dk fs).1 p,
       (run_frames (enabled_frame m) dk fs).2) := by
  induction fs generalizing dk with
  | nil => rfl
  | cons x xs ih => simp only [run_frames, enabled_frame_processed, ih]

theorem update_envelope_processed (m : DrcMath α) (dk : drc_kernel α C) (p : ℤ) :
    dk_process_update_envelope m (set_processed dk p) =
      set_processed (dk_process_update_envelope m dk) p := by
  simp only [dk_process_update_envelope, set_processed]
  split <;> rfl

theorem set_processed_set (dk : drc_kernel α C) (p q : ℤ) :
    set_processed (set_processed dk p) q = set_processed dk q := rfl

theorem set_processed_self (dk : drc_kernel α C) : set_processed dk dk.processed = dk := rfl

theorem set_processed_processed (dk : drc_kernel α C) (p : ℤ) :
    (set_processed dk p).processed = p := rfl

/-- Inside a division only its first frame can trigger the envelope update. -/
theorem loop_run_fragment (m : DrcMath α) (fs : List (Frame α C)) (dk : drc_kernel α C)
    (hne : fs ≠ []) (hlen : (dk.processed % 32).toNat + fs.length ≤ 32) :
    run_frames (loop_frame m) dk fs =
      (set_processed (run_frames (enabled_frame m)
            (if dk.processed % 32 = 0 then dk_process_update_envelope m dk else dk) fs).1
          (wrap_int (dk.processed + fs.length)),
       (run_frames (enabled_frame m)
            (if dk.processed % 32 = 0 then dk_process_update_envelope m dk else dk) fs).2) := by
  induction fs generalizing dk with
  | nil => exact absurd rfl hne
  | cons x xs ih =>
    cases xs with
    | nil =>
      simp only [run_frames, loop_frame, List.length_singleton, Nat.cast_one]
    | cons y ys =>
      simp only [List.length_cons] at hlen
      have hp : wrap_int (dk.processed + 1) % 32 ≠ 0 := by
        rw [wrap_int_mod]; omega
      have h := ih (loop_frame m dk x).1 (by simp) (by
        simp only [loop_frame, List.length_cons, set_processed_processed]
        rw [wrap_int_mod]; omega)
      rw [run_frames, h]
      simp only [loop_frame, set_processed_processed, hp, if_false, enabled_run_processed,
        set_processed_set, List.length_cons]
      rw [run_frames]
      refine Prod.ext ?_ rfl
      simp only
      congr 1
      rw [wrap_int_add]
      congr 1
      push_cast
      ring

theorem dk_process_loop_eq (m : DrcMath α) (n : ℕ) :
    ∀ (fs : List (Frame α C)), fs.length ≤ n → ∀ (dk : drc_kernel α C) (p : ℤ),
      (set_processed (dk_process_loop m dk p fs).1 (dk_process_loop m dk p fs).2.1,
        (dk_process_loop m dk p fs).2.2) =
      run_frames (loop_frame m) (set_processed dk p) fs := by
  induction n with
  | zero =>
    intro fs hfs dk p
    have : fs = [] := List.length_eq_zero.mp (Nat.le_zero.mp hfs)
    subst this
    rw [dk_process_loop]
    rfl
  | succ n ih =>
    intro fs hfs dk p
    by_cases hnil : fs = []
    · subst hnil
      rw [dk_process_loop]
      rfl
    · have hpos : 0 < fs.length := List.length_pos.mpr hnil
      have hoff : (p % 32).toNat < 32 := by omega
      have hz : ((p % 32).toNat = 0) = (p % 32 = 0) := propext (by omega)
      rw [dk_process_loop]
      simp only [hnil, if_false, int_bits_mask, hz, DIVISION_FRAMES, dk_process_division_eq]
      generalize hf : min (32 - (p % 32).toNat) fs.length = f
      have hf1 : 1 ≤ f := by omega
      have hf2 : f ≤ fs.length := by omega
      have hf3 : (p % 32).toNat + f ≤ 32 := by omega
      have htake : (fs.take f).length = f := by simp [hf2]
      have hrest := ih (fs.drop f) (by simp; omega)
        (run_frames (enabled_frame m)
          (if p % 32 = 0 then dk_process_update_envelope m dk else dk) (fs.take f)).1
        (wrap_int (p + f))
      have hfrag := loop_run_fragment m (fs.take f) (set_processed dk p)
        (by intro h; rw [h] at htake; simp at htake; omega)
        (by rw [htake]; exact hf3)
      conv_rhs => rw [← List.take_append_drop f fs, run_frames_append, hfrag]
      simp only [set_processed_processed, htake]
      have hupd : (if p % 32 = 0 then dk_process_update_envelope m (set_processed dk p)
          else set_processed dk p) =
          set_processed (if p % 32 = 0 then dk_process_update_envelope m dk else dk) p := by
        split
        · rw [update_envelope_processed]
        · rfl
      rw [hupd, enabled_run_processed]
      simp only [set_processed_set]
      rw [← hrest]

theorem dk_process_enabled (m : DrcMath α) (dk : drc_kernel α C) (h : dk.enabled ≠ 0)
    (fs : List (Frame α C)) : dk_process m dk fs = run_frames (loop_frame m) dk fs := by
  have e := dk_process_loop_eq m fs.length fs le_rfl dk dk.processed
  rw [set_processed_self] at e
  rw [← e]
  simp only [dk_process, h, if_false]
  rfl

theorem run_frames_field {β : Type}
    (step : drc_kernel α C → Frame α C → drc_kernel α C × Frame α C)
    (f : drc_kernel α C → β) (h : ∀ dk x, f (step dk x).1 = f dk)
    (dk : drc_kernel α C) (xs : List (Frame α C)) : f (run_frames step dk xs).1 = f dk := by
  induction xs generalizing dk with
  | nil => rfl
  | cons x xs ih => simp only [run_frames, ih, h]

theorem run_frames_getD (step : drc_kernel α C → Frame α C → drc_kernel α C × Frame α C)
    (xs : List (Frame α C)) (dk : drc_kernel α C) (i : ℕ) (hi : i < xs.length) :
    (run_frames step dk xs).2.getD i 0 =
        (step (run_frames step dk (xs.take i)).1 (xs.getD i 0)).2 ∧
      (run_frames step dk (xs.take (i + 1))).1 =
        (step (run_frames step dk (xs.take i)).1 (xs.getD i 0)).1 := by
  induction xs generalizing dk i with
  | nil => simp at hi
  | cons x xs ih =>
    cases i with
    | zero => simp [run_frames]
    | succ i =>
      have h := ih (step dk x).1 i (by simpa using hi)
      simpa [run_frames] using h

theorem update_envelope_ring (m : DrcMath α) (dk : drc_kernel α C) :
    (dk_process_update_envelope m dk).pre_delay_buffers = dk.pre_delay_buffers ∧
    (dk_process_update_envelope m dk).pre_delay_read_index = dk.pre_delay_read_index ∧
    (dk_process_update_envelope m dk).pre_delay_write_index = dk.pre_delay_write_index ∧
    (dk_process_update_envelope m dk).master_linear_gain = dk.master_linear_gain ∧
    (dk_process_update_envelope m dk).enabled = dk.enabled ∧
    (dk_process_update_envelope m dk).last_pre_delay_frames = dk.last_pre_delay_frames := by
  simp only [dk_process_update_envelope]
  split <;> exact ⟨rfl, rfl, rfl, rfl, rfl, rfl⟩

theorem loop_frame_spec (m : DrcMath α) (dk : drc_kernel α C) (x : Frame α C) :
    (loop_frame m dk x).1.pre_delay_buffers =
        ring_store dk.pre_delay_buffers dk.pre_delay_write_index x ∧
    (loop_frame m dk x).1.pre_delay_read_index = (dk.pre_delay_read_index + 1) % 1024 ∧
    (loop_frame m dk x).1.pre_delay_write_index = (dk.pre_delay_write_index + 1) % 1024 ∧
    (loop_frame m dk x).1.master_linear_gain = dk.master_linear_gain ∧
    (loop_frame m dk x).1.enabled = dk.enabled ∧
    (loop_frame m dk x).1.last_pre_delay_frames = dk.last_pre_delay_frames ∧
    (loop_frame m dk x).2 = fun j =>
      ring_store dk.pre_delay_buffers dk.pre_delay_write_index x j dk.pre_delay_read_index *
        (dk.master_linear_gain * m.warp_sinf (loop_frame m dk x).1.compressor_gain) := by
  obtain ⟨h1, h2, h3, h4, h5, h6⟩ := update_envelope_ring m dk
  by_cases hp : dk.processed % 32 = 0
  · simp [loop_frame, hp, enabled_frame, set_processed, h1, h2, h3, h4, h5, h6]
  · simp [loop_frame, hp, enabled_frame, set_processed]

theorem loop_run_enabled (m : DrcMath α) (dk : drc_kernel α C) (xs : List (Frame α C)) :
    (run_frames (loop_frame m) dk xs).1.enabled = dk.enabled :=
  run_frames_field _ (fun d => d.enabled) (fun d x => (loop_frame_spec m d x).2.2.2.2.1) dk xs

theorem loop_run_gain (m : DrcMath α) (dk : drc_kernel α C) (xs : List (Frame α C)) :
    (run_frames (loop_frame m) dk xs).1.master_linear_gain = dk.master_linear_gain :=
  run_frames_field _ (fun d => d.master_linear_gain)
    (fun d x => (loop_frame_spec m d x).2.2.2.1) dk xs

/-- The enabled and the bypass path move the ring in the same way. -/
theorem ring_sync (m : DrcMath α) (xs : List (Frame α C)) (dk dk' : drc_kernel α C)
    (hb : dk.pre_delay_buffers = dk'.pre_delay_buffers)
    (hr : dk.pre_delay_read_index = dk'.pre_delay_read_index)
    (hw : dk.pre_delay_write_index = dk'.pre_delay_write_index) :
    (run_frames (loop_frame m) dk xs).1.pre_delay_buffers =
        (run_frames delay_frame dk' xs).1.pre_delay_buffers ∧
    (run_frames (loop_frame m) dk xs).1.pre_delay_read_index =
        (run_frames delay_frame dk' xs).1.pre_delay_read_index ∧
    (run_frames (loop_frame m) dk xs).1.pre_delay_write_index =
        (run_frames delay_frame dk' xs).1.pre_delay_write_index := by
  induction xs generalizing dk dk' with
  | nil => exact ⟨hb, hr, hw⟩
  | cons x xs ih =>
    obtain ⟨h1, h2, h3, -⟩ := loop_frame_spec m dk x
    simp only [run_frames]
    apply ih
    · rw [h1, hb, hw]; rfl
    · rw [h2, hr]; rfl
    · rw [h3, hw]; rfl

theorem dk_process_append (m : DrcMath α) (dk : drc_kernel α C) (xs ys : List (Frame α C)) :
    dk_process m dk (xs ++ ys) =
      ((dk_process m (dk_process m dk xs).1 ys).1,
       (dk_process m dk xs).2 ++ (dk_process m (dk_process m dk xs).1 ys).2) := by
  by_cases h : dk.enabled = 0
  · have h1 : (run_frames delay_frame dk xs).1.enabled = 0 := by rw [delay_run_enabled, h]
    rw [dk_process_disabled m dk h, dk_process_disabled m dk h, dk_process_disabled m _ h1,
      run_frames_append]
  · have h1 : (run_frames (loop_frame m) dk xs).1.enabled ≠ 0 := by rw [loop_run_enabled]; exact h
    rw [dk_process_enabled m dk h, dk_process_enabled m dk h, dk_process_enabled m _ h1,
      run_frames_append]

/-- C3 (chunk-size independence). For every kernel state, enabled or disabled, every block
and every split point `k`, one `dk_process` call on the block gives the same output frames and
the same final kernel state, in all fields, as a call on the first `k` frames followed by a
call on the remaining frames. -/
theorem chunk_independence (m : DrcMath α) (dk : drc_kernel α C) (frames : List (Frame α C))
    (k : ℕ) :
    dk_process m dk frames =
      ((dk_process m (dk_process m dk (frames.take k)).1 (frames.drop k)).1,
       (dk_process m dk (frames.take k)).2 ++
         (dk_process m (dk_process m dk (frames.take k)).1 (frames.drop k)).2) := by
  rw [← dk_process_append, List.take_append_drop]

theorem ring_inv_of_indices (bufs : Fin C → ℕ → α) (r w : ℕ) (hr : r < 1024) (hw : w < 1024) :
    RingInv bufs r w
      (List.ofFn (fun t : Fin ((w + 1024 - r) % 1024) => fun j => bufs j ((r + t) % 1024))) := by
  refine ⟨hr, by simp; omega, by simp; omega, ?_⟩
  intro t j ht
  rw [List.getD_eq_getElem _ _ ht, List.getElem_ofFn]

theorem getD_take_queue (q xs : List (Frame α C)) (i : ℕ) (hq : q.length ≤ i)
    (hi : i < xs.length) :
    ((q ++ xs).take xs.length).getD i 0 = xs.getD (i - q.length) 0 := by
  simp only [List.getD_eq_getElem?_getD, List.getElem?_take, hi, if_true]
  rw [List.getElem?_append_right hq]

/-- C2 (one delay line for both paths). When the kernel is enabled, `dk_process` returns as
many frames as it was given; the sample it writes for channel `j` at frame `i` is the sample
`dk_process_delay_only` writes there from the same state and input, times
`master_linear_gain * warp_sinf(compressor_gain)` with the compressor gain as it stands after
frame `i`; the buffers and both ring indices after the call are those of the bypass path; and
when the indices are in range and `last_pre_delay_frames` apart, output `i` is input
`i - last_pre_delay_frames` times that gain. -/
theorem enabled_shares_delay_line (m : DrcMath α) (dk : drc_kernel α C)
    (frames : List (Frame α C)) (hen : dk.enabled ≠ 0) :
    (dk_process m dk frames).2.length = frames.length ∧
    (∀ i, i < frames.length → ∀ j : Fin C,
      (dk_process m dk frames).2.getD i 0 j =
        (dk_process_delay_only dk frames).2.getD i 0 j *
          (dk.master_linear_gain *
            m.warp_sinf (dk_process m dk (frames.take (i + 1))).1.compressor_gain)) ∧
    (dk_process m dk frames).1.pre_delay_buffers =
      (dk_process_delay_only dk frames).1.pre_delay_buffers ∧
    (dk_process m dk frames).1.pre_delay_read_index =
      (dk_process_delay_only dk frames).1.pre_delay_read_index ∧
    (dk_process m dk frames).1.pre_delay_write_index =
      (dk_process_delay_only dk frames).1.pre_delay_write_index ∧
    (dk.pre_delay_read_index < MAX_PRE_DELAY_FRAMES →
      dk.pre_delay_write_index < MAX_PRE_DELAY_FRAMES →
      ((dk.pre_delay_write_index : ℤ) - dk.pre_delay_read_index) % 1024 =
        dk.last_pre_delay_frames →
      ∀ i, dk.last_pre_delay_frames ≤ i → i < frames.length → ∀ j : Fin C,
        (dk_process m dk frames).2.getD i 0 j =
          frames.getD (i - dk.last_pre_delay_frames) 0 j *
            (dk.master_linear_gain *
              m.warp_sinf (dk_process m dk (frames.take (i + 1))).1.compressor_gain)) := by
  have hE : ∀ xs, dk_process m dk xs = run_frames (loop_frame m) dk xs :=
    dk_process_enabled m dk hen
  have hsync := ring_sync m frames dk dk rfl rfl rfl
  have hmain : ∀ i, i < frames.length → ∀ j : Fin C,
      (dk_process m dk frames).2.getD i 0 j =
        (dk_process_delay_only dk frames).2.getD i 0 j *
          (dk.master_linear_gain *
            m.warp_sinf (dk_process m dk (frames.take (i + 1))).1.compressor_gain) := by
    intro i hi j
    obtain ⟨e1, e2⟩ := run_frames_getD (loop_frame m) frames dk i hi
    obtain ⟨d1, -⟩ := run_frames_getD delay_frame frames dk i hi
    obtain ⟨s1, s2, s3⟩ := ring_sync m (frames.take i) dk dk rfl rfl rfl
    obtain ⟨-, -, -, -, -, -, hout⟩ :=
      loop_frame_spec m (run_frames (loop_frame m) dk (frames.take i)).1 (frames.getD i 0)
    rw [hE, hE, dk_process_delay_only_eq, e1, e2, d1, hout, loop_run_gain, s1, s2, s3]
    rfl
  refine ⟨?_, hmain, ?_, ?_, ?_, ?_⟩
  · rw [hE, run_frames_length]
  · rw [hE, dk_process_delay_only_eq]; exact hsync.1
  · rw [hE, dk_process_delay_only_eq]; exact hsync.2.1
  · rw [hE, dk_process_delay_only_eq]; exact hsync.2.2
  · intro hr hw hd i hdi hi j
    simp only [MAX_PRE_DELAY_FRAMES] at hr hw
    have hinv := ring_inv_of_indices dk.pre_delay_buffers _ _ hr hw
    have hlen : (List.ofFn (fun t : Fin ((dk.pre_delay_write_index + 1024 -
        dk.pre_delay_read_index) % 1024) => fun j =>
        dk.pre_delay_buffers j ((dk.pre_delay_read_index + t) % 1024))).length =
        dk.last_pre_delay_frames := by
      simp only [List.length_ofFn]; omega
    have hrun := (delay_run dk _ hinv frames).1
    rw [hmain i hi j, dk_process_delay_only_eq, hrun,
      getD_take_queue _ _ i (by rw [hlen]; exact hdi) hi, hlen]

/-- C1 (bypass latency). With the kernel disabled, all 1024 slots of every channel buffer zero
and the write index `d` slots ahead of the read index, any sequence of `dk_process` calls
returns as many frames as it was given, and for every channel the `i`-th output sample overall
is `0` for `i < d` and the `(i - d)`-th input sample otherwise; for `d = 0` the output is the
input. -/
theorem bypass_latency (m : DrcMath α) (dk : drc_kernel α C) (d : ℕ)
    (blocks : List (List (Frame α C))) (hdis : dk.enabled = 0)
    (hzero : ∀ j s, s < MAX_PRE_DELAY_FRAMES → dk.pre_delay_buffers j s = 0)
    (hr : dk.pre_delay_read_index < MAX_PRE_DELAY_FRAMES)
    (hw : dk.pre_delay_write_index < MAX_PRE_DELAY_FRAMES)
    (hd : ((dk.pre_delay_write_index : ℤ) - dk.pre_delay_read_index) % 1024 = d) :
    (dk_process_calls m dk blocks).2.length = blocks.flatten.length ∧
    (∀ i, i < blocks.flatten.length → ∀ j : Fin C,
      (dk_process_calls m dk blocks).2.getD i 0 j =
        if i < d then 0 else blocks.flatten.getD (i - d) 0 j) ∧
    (d = 0 → (dk_process_calls m dk blocks).2 = blocks.flatten) :=
  bypass_outputs m dk d blocks hdis hzero hr hw hd

/-- Witness for C1: a pre-delay of two frames, three frames in two calls; the third output of
channel 0 is the first input. -/
theorem bypass_latency_witness :
    example_short_kernel.enabled = 0 ∧
    (dk_process_calls testMath example_short_kernel
        [[fun _ => 1], [fun _ => 2, fun _ => 3]]).2.getD 2 0 0 =
      if 2 < 2 then 0 else
        ([[fun _ => 1], [fun _ => 2, fun _ => 3]] : List (List (Frame ℚ 2))).flatten.getD
          (2 - 2) 0 0 :=
  ⟨rfl, (bypass_latency testMath example_short_kernel 2 [[fun _ => 1], [fun _ => 2, fun _ => 3]]
    rfl (fun _ _ _ => rfl) (by decide) (by decide) (by decide)).2.1 2 (by decide) 0⟩

/-- Witness for C2: the enabled example kernel on the example block. -/
theorem enabled_shares_delay_line_witness :
    example_enabled_kernel.enabled ≠ 0 ∧
    (dk_process testMath example_enabled_kernel example_block).2.length =
      example_block.length :=
  ⟨by decide, (enabled_shares_delay_line testMath example_enabled_kernel example_block
    (by decide)).1⟩

theorem knee_curve_congr (m : DrcMath α) (d d1 : drc_kernel α C)
    (h : d.linear_threshold = d1.linear_threshold) (x k : α) :
    knee_curve m d x k = knee_curve m d1 x k := by
  simp only [knee_curve, h]

theorem update_static_eq (m : DrcMath α) (dk : drc_kernel α C) (t k r : α) :
    update_static_curve_parameters m dk t k r =
      if t ≠ dk.db_threshold ∨ k ≠ dk.db_knee ∨ r ≠ dk.ratio then compute_static_curve m dk t k r
      else dk := by
  simp only [update_static_curve_parameters, compute_static_curve]
  split
  · rw [knee_curve_congr m _ (curve_stage1 m dk t k r) rfl]
    rfl
  · rfl

theorem dk_set_parameters_eq (m : DrcMath α) (dk : drc_kernel α C)
    (t k r at_ rt pt pg z1 z2 z3 z4 : α) :
    dk_set_parameters m dk t k r at_ rt pt pg z1 z2 z3 z4 =
      (float_to_unsigned (m.roundf (pt * dk.sample_rate))).map
        (set_pre_delay_frames
          (set_timing m (update_static_curve_parameters m dk t k r) dk.sample_rate
            at_ rt pg z1 z2 z3 z4)) := by
  have hs : (update_static_curve_parameters m dk t k r).sample_rate = dk.sample_rate := by
    rw [update_static_eq]; split <;> rfl
  simp only [dk_set_parameters, set_pre_delay_time]
  rw [← hs]
  rfl

theorem set_pre_delay_frames_eq (dk : drc_kernel α C) (n : ℕ) :
    set_pre_delay_frames dk n =
      if dk.last_pre_delay_frames ≠ clamp_frames n then
        { dk with
          last_pre_delay_frames := clamp_frames n
          pre_delay_buffers := fun _ _ => 0
          pre_delay_read_index := 0
          pre_delay_write_index := clamp_frames n }
      else dk := rfl

theorem clamp_frames_le (n : ℕ) : clamp_frames n ≤ 1023 := by
  simp only [clamp_frames, MAX_PRE_DELAY_FRAMES]
  split <;> omega

theorem update_static_ring (m : DrcMath α) (dk : drc_kernel α C) (t k r : α) :
    (update_static_curve_parameters m dk t k r).pre_delay_buffers = dk.pre_delay_buffers ∧
    (update_static_curve_parameters m dk t k r).pre_delay_read_index =
      dk.pre_delay_read_index ∧
    (update_static_curve_parameters m dk t k r).pre_delay_write_index =
      dk.pre_delay_write_index ∧
    (update_static_curve_parameters m dk t k r).last_pre_delay_frames =
      dk.last_pre_delay_frames ∧
    (update_static_curve_parameters m dk t k r).enabled = dk.enabled := by
  rw [update_static_eq]
  split <;> exact ⟨rfl, rfl, rfl, rfl, rfl⟩

theorem set_pre_delay_frames_ring (dk : drc_kernel α C) (n : ℕ) (h : RingOK dk) :
    RingOK (set_pre_delay_frames dk n) := by
  rw [set_pre_delay_frames_eq]
  split
  · have := clamp_frames_le n
    refine ⟨by simp, this, this, ?_⟩
    simp only [Nat.cast_zero, sub_zero]
    omega
  · exact h

theorem dk_set_parameters_ring (m : DrcMath α) (dk dk1 : drc_kernel α C)
    (t k r at_ rt pt pg z1 z2 z3 z4 : α) (h : RingOK dk)
    (hs : dk_set_parameters m dk t k r at_ rt pt pg z1 z2 z3 z4 = some dk1) : RingOK dk1 := by
  rw [dk_set_parameters_eq] at hs
  obtain ⟨n, -, rfl⟩ := Option.map_eq_some'.mp hs
  apply set_pre_delay_frames_ring
  obtain ⟨-, h2, h3, h4, -⟩ := update_static_ring m dk t k r
  unfold RingOK at h ⊢
  simp only [set_timing]
  rw [h2, h3, h4]
  exact h

theorem run_frames_inv (step : drc_kernel α C → Frame α C → drc_kernel α C × Frame α C)
    (P : drc_kernel α C → Prop) (h : ∀ dk x, P dk → P (step dk x).1)
    (dk : drc_kernel α C) (xs : List (Frame α C)) (h0 : P dk) : P (run_frames step dk xs).1 := by
  induction xs generalizing dk with
  | nil => exact h0
  | cons x xs ih => exact ih _ (h dk x h0)

theorem dk_process_ring (m : DrcMath α) (dk : drc_kernel α C) (frames : List (Frame α C))
    (h : RingOK dk) : RingOK (dk_process m dk frames).1 := by
  by_cases hen : dk.enabled = 0
  · rw [dk_process_disabled m dk hen]
    refine run_frames_inv _ RingOK ?_ dk frames h
    intro d x hd
    unfold RingOK at hd ⊢
    simp only [delay_frame]
    omega
  · rw [dk_process_enabled m dk hen]
    refine run_frames_inv _ RingOK ?_ dk frames h
    intro d x hd
    obtain ⟨-, h2, h3, -, -, h6, -⟩ := loop_frame_spec m d x
    unfold RingOK at hd ⊢
    rw [h2, h3, h6]
    omega

theorem reachable_ring (m : DrcMath α) (dk : drc_kernel α C) (h : Reachable m dk) :
    RingOK dk := by
  induction h with
  | init dk0 sr =>
    refine ⟨?_, ?_, ?_, ?_⟩ <;> simp [dk_init, DEFAULT_PRE_DELAY_FRAMES]
  | set_parameters t k r at_ rt pt pg z1 z2 z3 z4 _ hs ih =>
    exact dk_set_parameters_ring m _ _ t k r at_ rt pt pg z1 z2 z3 z4 ih hs
  | set_enabled e _ ih => exact ih
  | process frames _ ih => exact dk_process_ring m _ frames ih

/-- C4 (ring-buffer invariant). In every state reachable from `dk_init` by `dk_set_parameters`
calls that return (among them all those with a non-negative `pre_delay_time` for which the
frame count is defined), `dk_set_enabled` and `dk_process` calls, both ring indices are at most
1023, `last_pre_delay_frames` is at most 1023 and the write index is `last_pre_delay_frames`
slots ahead of the read index modulo 1024; and so are the indices with which any frame `i` of
any further block is processed, which are those of the state after the first `i` frames. -/
theorem ring_buffer_invariant (m : DrcMath α) (dk : drc_kernel α C) (h : Reachable m dk) :
    dk.pre_delay_read_index ≤ 1023 ∧ dk.pre_delay_write_index ≤ 1023 ∧
    dk.last_pre_delay_frames ≤ 1023 ∧
    ((dk.pre_delay_write_index : ℤ) - dk.pre_delay_read_index) % 1024 =
      dk.last_pre_delay_frames ∧
    ∀ (frames : List (Frame α C)) (i : ℕ), i < frames.length →
      (dk_process m dk (frames.take i)).1.pre_delay_read_index < MAX_PRE_DELAY_FRAMES ∧
      (dk_process m dk (frames.take i)).1.pre_delay_write_index < MAX_PRE_DELAY_FRAMES := by
  obtain ⟨h1, h2, h3, h4⟩ := reachable_ring m dk h
  refine ⟨h1, h2, h3, h4, ?_⟩
  intro frames i _
  obtain ⟨g1, g2, -, -⟩ := reachable_ring m _ (Reachable.process (frames.take i) h)
  simp only [MAX_PRE_DELAY_FRAMES]
  omega

/-- Witness for C4: the example kernel after one block. -/
theorem ring_buffer_invariant_witness :
    (dk_process testMath example_kernel example_block).1.pre_delay_read_index ≤ 1023 ∧
    (dk_process testMath example_kernel example_block).1.pre_delay_write_index ≤ 1023 :=
  ⟨(ring_buffer_invariant testMath _
      (Reachable.process example_block (Reachable.init zero_kernel 48000))).1,
   (ring_buffer_invariant testMath _
      (Reachable.process example_block (Reachable.init zero_kernel 48000))).2.1⟩

theorem with_runtime_trans (a b c : drc_kernel α C) (h1 : with_runtime a b = b)
    (h2 : with_runtime b c = c) : with_runtime a c = c :=
  calc with_runtime a c = with_runtime (with_runtime a b) c := rfl
    _ = with_runtime b c := by rw [h1]
    _ = c := h2

theorem with_runtime_update_envelope (m : DrcMath α) (d : drc_kernel α C) :
    with_runtime d (dk_process_update_envelope m d) = dk_process_update_envelope m d := by
  simp only [dk_process_update_envelope]
  split <;> rfl

theorem with_runtime_loop_frame (m : DrcMath α) (d : drc_kernel α C) (x : Frame α C) :
    with_runtime d (loop_frame m d x).1 = (loop_frame m d x).1 := by
  have h := with_runtime_update_envelope m d
  by_cases hp : d.processed % 32 = 0
  · simp only [loop_frame, hp, if_true]
    exact with_runtime_trans _ _ _ h rfl
  · simp only [loop_frame, hp, if_false]
    rfl

theorem with_runtime_process (m : DrcMath α) (d : drc_kernel α C) (fs : List (Frame α C)) :
    with_runtime d (dk_process m d fs).1 = (dk_process m d fs).1 := by
  by_cases hen : d.enabled = 0
  · rw [dk_process_disabled m d hen]
    exact run_frames_inv _ (fun x => with_runtime d x = x)
      (fun x f hx => with_runtime_trans _ _ _ hx rfl) d fs rfl
  · rw [dk_process_enabled m d hen]
    exact run_frames_inv _ (fun x => with_runtime d x = x)
      (fun x f hx => with_runtime_trans _ _ _ hx (with_runtime_loop_frame m x f)) d fs rfl

theorem with_runtime_steps (m : DrcMath α) (s0 s1 : drc_kernel α C)
    (h : ProcessSteps m s0 s1) : with_runtime s0 s1 = s1 := by
  induction h with
  | refl => rfl
  | process frames _ ih => exact with_runtime_trans _ _ _ ih (with_runtime_process m _ frames)
  | set_enabled e _ ih => exact with_runtime_trans _ _ _ ih rfl

theorem set_timing_with_runtime (m : DrcMath α) (c s : drc_kernel α C)
    (sr at_ rt pg z1 z2 z3 z4 : α) :
    set_timing m (with_runtime c s) sr at_ rt pg z1 z2 z3 z4 =
      with_runtime (set_timing m c sr at_ rt pg z1 z2 z3 z4) s := rfl

theorem configured_with_runtime (m : DrcMath α) (t k r at_ rt pt pg z1 z2 z3 z4 : α)
    (d d1 : drc_kernel α C) (hc : Configured m t k r at_ rt pt pg z1 z2 z3 z4 d)
    (h : with_runtime d d1 = d1) : Configured m t k r at_ rt pt pg z1 z2 z3 z4 d1 := by
  obtain ⟨c1, c2, c3, c4, n, c5, c6⟩ := hc
  have esr : d.sample_rate = d1.sample_rate :=
    (congrArg drc_kernel.sample_rate h : (with_runtime d d1).sample_rate = d1.sample_rate)
  have e1 : d.db_threshold = d1.db_threshold :=
    (congrArg drc_kernel.db_threshold h : (with_runtime d d1).db_threshold = d1.db_threshold)
  have e2 : d.db_knee = d1.db_knee :=
    (congrArg drc_kernel.db_knee h : (with_runtime d d1).db_knee = d1.db_knee)
  have e3 : d.ratio = d1.ratio :=
    (congrArg drc_kernel.ratio h : (with_runtime d d1).ratio = d1.ratio)
  have e4 : d.last_pre_delay_frames = d1.last_pre_delay_frames :=
    (congrArg drc_kernel.last_pre_delay_frames h :
      (with_runtime d d1).last_pre_delay_frames = d1.last_pre_delay_frames)
  refine ⟨c1.trans e1, c2.trans e2, c3.trans e3, ?_, n, ?_, c6.trans e4⟩
  · calc set_timing m d1 d1.sample_rate at_ rt pg z1 z2 z3 z4
        = set_timing m (with_runtime d d1) d.sample_rate at_ rt pg z1 z2 z3 z4 := by
          rw [h, esr]
      _ = with_runtime (set_timing m d d.sample_rate at_ rt pg z1 z2 z3 z4) d1 := rfl
      _ = d1 := by rw [c4, h]
  · rw [← esr]; exact c5

theorem configured_fixed (m : DrcMath α) (t k r at_ rt pt pg z1 z2 z3 z4 : α)
    (d : drc_kernel α C) (hc : Configured m t k r at_ rt pt pg z1 z2 z3 z4 d) :
    dk_set_parameters m d t k r at_ rt pt pg z1 z2 z3 z4 = some d := by
  obtain ⟨c1, c2, c3, c4, n, c5, c6⟩ := hc
  have hu : update_static_curve_parameters m d t k r = d := by
    rw [update_static_eq, if_neg]
    simp [c1, c2, c3]
  rw [dk_set_parameters_eq, hu, c4, c5, Option.map_some', set_pre_delay_frames_eq, if_neg]
  simp [c6]

theorem update_static_cached (m : DrcMath α) (d : drc_kernel α C) (t k r : α) :
    t = (update_static_curve_parameters m d t k r).db_threshold ∧
    k = (update_static_curve_parameters m d t k r).db_knee ∧
    r = (update_static_curve_parameters m d t k r).ratio ∧
    (update_static_curve_parameters m d t k r).sample_rate = d.sample_rate := by
  rw [update_static_eq]
  by_cases h : t ≠ d.db_threshold ∨ k ≠ d.db_knee ∨ r ≠ d.ratio
  · rw [if_pos h]; exact ⟨rfl, rfl, rfl, rfl⟩
  · rw [if_neg h]
    simp only [not_or, not_not] at h
    exact ⟨h.1, h.2.1, h.2.2, rfl⟩

theorem set_parameters_configured (m : DrcMath α) (t k r at_ rt pt pg z1 z2 z3 z4 : α)
    (s s0 : drc_kernel α C)
    (h : dk_set_parameters m s t k r at_ rt pt pg z1 z2 z3 z4 = some s0) :
    Configured m t k r at_ rt pt pg z1 z2 z3 z4 s0 := by
  rw [dk_set_parameters_eq] at h
  obtain ⟨n, hn, rfl⟩ := Option.map_eq_some'.mp h
  obtain ⟨u1, u2, u3, u4⟩ := update_static_cached m s t k r
  rw [set_pre_delay_frames_eq]
  by_cases hl : (set_timing m (update_static_curve_parameters m s t k r) s.sample_rate
      at_ rt pg z1 z2 z3 z4).last_pre_delay_frames ≠ clamp_frames n
  · rw [if_pos hl]
    refine ⟨u1, u2, u3, ?_, n, ?_, rfl⟩
    · simp only [set_timing]
      rw [u4]
      rfl
    · simp only [set_timing]
      rw [u4]
      exact hn
  · rw [if_neg hl]
    refine ⟨u1, u2, u3, ?_, n, ?_, (not_not.mp hl).symm⟩
    · simp only [set_timing]
      rw [u4]
      rfl
    · simp only [set_timing]
      rw [u4]
      exact hn

/-- C5 (idempotent configuration). If `dk_set_parameters` with some arguments takes `s` to
`s0`, and `s1` is reached from `s0` by any `dk_process` and `dk_set_enabled` calls, then
`dk_set_parameters` with the same arguments returns `s1` itself: no field changes, the
buffers and ring indices included. -/
theorem set_parameters_idempotent (m : DrcMath α) (s s0 s1 : drc_kernel α C)
    (db_threshold db_knee ratio attack_time release_time pre_delay_time db_post_gain
      releaseZone1 releaseZone2 releaseZone3 releaseZone4 : α)
    (h0 : dk_set_parameters m s db_threshold db_knee ratio attack_time release_time
      pre_delay_time db_post_gain releaseZone1 releaseZone2 releaseZone3 releaseZone4 = some s0)
    (hsteps : ProcessSteps m s0 s1) :
    dk_set_parameters m s1 db_threshold db_knee ratio attack_time release_time
      pre_delay_time db_post_gain releaseZone1 releaseZone2 releaseZone3 releaseZone4 =
      some s1 :=
  configured_fixed m _ _ _ _ _ _ _ _ _ _ _ s1
    (configured_with_runtime m _ _ _ _ _ _ _ _ _ _ _ s0 s1
      (set_parameters_configured m _ _ _ _ _ _ _ _ _ _ _ s s0 h0)
      (with_runtime_steps m s0 s1 hsteps))

/-- Witness for C5: the example kernel configured at 48 kHz with a 6 ms pre-delay, then
enabled, then fed the example block, then configured again. -/
theorem set_parameters_idempotent_witness :
    ∃ s0 : drc_kernel ℚ 2,
      dk_set_parameters testMath example_kernel (-24) 30 12 0.003 0.25 0.006 0
        0.09 0.16 0.42 0.98 = some s0 ∧
      dk_set_parameters testMath (dk_process testMath (dk_set_enabled s0 1) example_block).1
        (-24) 30 12 0.003 0.25 0.006 0 0.09 0.16 0.42 0.98 =
        some (dk_process testMath (dk_set_enabled s0 1) example_block).1 := by
  have hx : (0.006 : ℚ) * example_kernel.sample_rate = ((288 : ℕ) : ℚ) := by
    simp only [example_kernel, dk_init]; norm_num
  have hf : float_to_unsigned (testMath.roundf ((0.006 : ℚ) * example_kernel.sample_rate)) =
      some 288 := by
    change float_to_unsigned ((0.006 : ℚ) * example_kernel.sample_rate) = some 288
    rw [hx, float_to_unsigned, Nat.floor_natCast, if_pos (by norm_num)]
  have h0 : dk_set_parameters testMath example_kernel (-24) 30 12 0.003 0.25 0.006 0
      0.09 0.16 0.42 0.98 = some (set_pre_delay_frames
        (set_timing testMath (update_static_curve_parameters testMath example_kernel (-24) 30 12)
          example_kernel.sample_rate 0.003 0.25 0 0.09 0.16 0.42 0.98) 288) := by
    rw [dk_set_parameters_eq, hf]; rfl
  exact ⟨_, h0, set_parameters_idempotent testMath _ _ _ _ _ _ _ _ _ _ _ _ _ _ h0
    (ProcessSteps.process _ (ProcessSteps.set_enabled 1 (ProcessSteps.refl _)))⟩

/-- C6 (reconfiguration reset). Let `n` be the frame count `dk_set_parameters` computes from
`pre_delay_time` and `f` its clamped value. The call returns a kernel with
`last_pre_delay_frames = f`. If `f` differs from the previous `last_pre_delay_frames`, every
slot of every channel buffer is 0, the read index is 0 and the write index is `f`, whatever the
buffers held before; in bypass the next `f` outputs are then 0 and output `f + k` is the
`k`-th input supplied after the call, for any chunking. If `f` equals the previous value,
buffers and indices are untouched. -/
theorem reconfiguration_reset (m : DrcMath α) (dk : drc_kernel α C)
    (db_threshold db_knee ratio attack_time release_time pre_delay_time db_post_gain
      releaseZone1 releaseZone2 releaseZone3 releaseZone4 : α) (n : ℕ)
    (hn : float_to_unsigned (m.roundf (pre_delay_time * dk.sample_rate)) = some n) :
    ∃ dk1, dk_set_parameters m dk db_threshold db_knee ratio attack_time release_time
        pre_delay_time db_post_gain releaseZone1 releaseZone2 releaseZone3 releaseZone4 =
        some dk1 ∧
      dk1.last_pre_delay_frames = clamp_frames n ∧
      (clamp_frames n ≠ dk.last_pre_delay_frames →
        (∀ j s, dk1.pre_delay_buffers j s = 0) ∧
        dk1.pre_delay_read_index = 0 ∧
        dk1.pre_delay_write_index = clamp_frames n ∧
        (dk1.enabled = 0 → ∀ blocks : List (List (Frame α C)),
          (dk_process_calls m dk1 blocks).2.length = blocks.flatten.length ∧
          ∀ i, i < blocks.flatten.length → ∀ j : Fin C,
            (dk_process_calls m dk1 blocks).2.getD i 0 j =
              if i < clamp_frames n then 0
              else blocks.flatten.getD (i - clamp_frames n) 0 j)) ∧
      (clamp_frames n = dk.last_pre_delay_frames →
        dk1.pre_delay_buffers = dk.pre_delay_buffers ∧
        dk1.pre_delay_read_index = dk.pre_delay_read_index ∧
        dk1.pre_delay_write_index = dk.pre_delay_write_index) := by
  obtain ⟨u1, u2, u3, u4, -⟩ := update_static_ring m dk db_threshold db_knee ratio
  have hle := clamp_frames_le n
  refine ⟨_, by rw [dk_set_parameters_eq, hn]; rfl, ?_, ?_, ?_⟩
  · rw [set_pre_delay_frames_eq]
    split
    · rfl
    · rename_i h
      exact not_not.mp h
  · intro hne
    have hne' : (set_timing m (update_static_curve_parameters m dk db_threshold db_knee ratio)
        dk.sample_rate attack_time release_time db_post_gain releaseZone1 releaseZone2
        releaseZone3 releaseZone4).last_pre_delay_frames ≠ clamp_frames n := by
      simp only [set_timing]; rw [u4]; exact fun h => hne h.symm
    rw [set_pre_delay_frames_eq, if_pos hne']
    refine ⟨fun _ _ => rfl, rfl, rfl, ?_⟩
    intro hdis blocks
    have hb := bypass_outputs m _ (clamp_frames n) blocks hdis (fun _ _ _ => rfl)
      (by simp [MAX_PRE_DELAY_FRAMES]) (by simp only [MAX_PRE_DELAY_FRAMES]; omega)
      (by simp only [Nat.cast_zero, sub_zero]; omega)
    exact ⟨hb.1, hb.2.1⟩
  · intro heq
    have heq' : ¬ (set_timing m (update_static_curve_parameters m dk db_threshold db_knee ratio)
        dk.sample_rate attack_time release_time db_post_gain releaseZone1 releaseZone2
        releaseZone3 releaseZone4).last_pre_delay_frames ≠ clamp_frames n := by
      simp only [set_timing]; rw [u4]; exact not_not.mpr heq.symm
    rw [set_pre_delay_frames_eq, if_neg heq']
    exact ⟨u1, u2, u3⟩

/-- Witness for C6: the example kernel (delay 256) reconfigured to a 6 ms pre-delay, which is
288 frames at 48 kHz. -/
theorem reconfiguration_reset_witness :
    ∃ dk1 : drc_kernel ℚ 2,
      dk_set_parameters testMath example_kernel (-24) 30 12 0.003 0.25 0.006 0
        0.09 0.16 0.42 0.98 = some dk1 ∧
      dk1.last_pre_delay_frames = clamp_frames 288 := by
  have hx : (0.006 : ℚ) * example_kernel.sample_rate = ((288 : ℕ) : ℚ) := by
    simp only [example_kernel, dk_init]; norm_num
  have hf : float_to_unsigned (testMath.roundf ((0.006 : ℚ) * example_kernel.sample_rate)) =
      some 288 := by
    change float_to_unsigned ((0.006 : ℚ) * example_kernel.sample_rate) = some 288
    rw [hx, float_to_unsigned, Nat.floor_natCast, if_pos (by norm_num)]
  obtain ⟨dk1, h1, h2, -⟩ := reconfiguration_reset testMath example_kernel (-24) 30 12 0.003
    0.25 0.006 0 0.09 0.16 0.42 0.98 288 hf
  exact ⟨dk1, h1, h2⟩

theorem float_to_unsigned_wrapping_eq (x : α) (n : ℕ) (h : float_to_unsigned x = some n) :
    float_to_unsigned_wrapping x = n := by
  unfold float_to_unsigned at h
  split at h
  · rename_i hx
    obtain ⟨h1, h2⟩ := hx
    have hn : ⌊x⌋₊ = n := Option.some.inj h
    unfold float_to_unsigned_wrapping
    by_cases h0 : 0 ≤ x
    · have hfl : ⌊x⌋ = (⌊x⌋₊ : ℤ) := (Int.natCast_floor_eq_floor h0).symm
      have hlt : ⌊x⌋₊ < 2 ^ 32 := (Nat.floor_lt h0).mpr (by exact_mod_cast h2)
      rw [if_pos h0, hfl, hn] at *
      omega
    · have hlt : x < 0 := not_le.mp h0
      have hc : ⌈x⌉ = 0 := Int.ceil_eq_iff.mpr ⟨by push_cast; linarith, by push_cast; exact hlt.le⟩
      have hz : ⌊x⌋₊ = 0 := Nat.floor_eq_zero.mpr (by linarith)
      rw [if_neg h0, hc, ← hn, hz]
      rfl
  · exact absurd h (by simp)

theorem float_product_example :
    round_to_float ((7 : ℚ) / 192000 * 48000) = 7 / 4 ∧
    round_to_float ((5726623 : ℚ) / 137438953472 * 48000) = 2 ∧
    round_to_float ((89478.484375 : ℚ) * 48000) = 2 ^ 32 := by
  refine ⟨?_, ?_, ?_⟩
  · rw [round_to_float_of _ 0 14680064 (by norm_num [abs_of_pos]) (by norm_num [abs_of_pos])
      (by norm_num) (by norm_num) (by norm_num)]
    norm_num
  · rw [round_to_float_of _ 0 16777216 (by norm_num [abs_of_pos]) (by norm_num [abs_of_pos])
      (by norm_num) (by norm_num) (by norm_num)]
    norm_num
  · rw [round_to_float_of _ 31 16777216 (by norm_num [abs_of_pos]) (by norm_num [abs_of_pos])
      (by norm_num) (by norm_num) (by norm_num)]
    norm_num

/-- Counterexample to C7 as stated: at 48 kHz a pre-delay of 7/192000 s is 1.75 frames, also
as a `float` product; `set_pre_delay_time` configures 1 frame, rounding to the nearest integer
gives 2. -/
theorem pre_delay_frames_not_rounded :
    (0 : ℚ) ≤ 7 / 192000 ∧ 0 < example_kernel.sample_rate ∧
    (set_pre_delay_time floatMath example_kernel (7 / 192000)).map
      (fun d => (d.last_pre_delay_frames, d.pre_delay_write_index)) = some (1, 1) ∧
    spec_pre_delay_frames (7 / 192000) example_kernel.sample_rate = 2 := by
  have hsr : example_kernel.sample_rate = 48000 := rfl
  have hro : floatMath.roundf ((7 : ℚ) / 192000 * 48000) = 7 / 4 := float_product_example.1
  have hfl : ⌊((7 : ℚ) / 4)⌋₊ = 1 := by
    rw [Nat.floor_eq_iff (by norm_num)]; norm_num
  have hrd : round ((7 : ℚ) / 192000 * 48000) = 2 := by
    rw [round_eq, Int.floor_eq_iff]; norm_num
  refine ⟨by norm_num, by rw [hsr]; norm_num, ?_, ?_⟩
  · rw [set_pre_delay_time, hsr, hro, float_to_unsigned, hfl, if_pos (by norm_num)]
    rfl
  · rw [spec_pre_delay_frames, hsr, hrd]
    rfl

/-- C7, amended: on a machine that rounds the product to the nearest `float`, for
`pre_delay_time ≥ 0`, `sample_rate > 0` and a `float` product below `2 ^ 32`,
`set_pre_delay_time` returns, and the frame count it leaves in `last_pre_delay_frames` (and
writes to `pre_delay_write_index` when the count changes) is the `float` product with its
fractional part discarded, clamped into `[0, 1023]`. -/
theorem pre_delay_frames_truncated (m : DrcMath α) (hr : ∀ x, m.roundf x = round_to_float x)
    (dk : drc_kernel α C) (pre_delay_time : α)
    (ht : 0 ≤ pre_delay_time) (hs : 0 < dk.sample_rate)
    (hlt : round_to_float (pre_delay_time * dk.sample_rate) < 2 ^ 32) :
    ∃ dk1, set_pre_delay_time m dk pre_delay_time = some dk1 ∧
      dk1.last_pre_delay_frames =
        min ⌊round_to_float (pre_delay_time * dk.sample_rate)⌋₊ 1023 ∧
      (dk.last_pre_delay_frames ≠
          min ⌊round_to_float (pre_delay_time * dk.sample_rate)⌋₊ 1023 →
        dk1.pre_delay_write_index =
          min ⌊round_to_float (pre_delay_time * dk.sample_rate)⌋₊ 1023) := by
  have h0 : (-1 : α) < round_to_float (pre_delay_time * dk.sample_rate) :=
    lt_of_lt_of_le (by norm_num) (round_to_float_nonneg _ (mul_nonneg ht hs.le))
  have hc : ∀ n, clamp_frames n = min n 1023 := by
    intro n
    simp only [clamp_frames, MAX_PRE_DELAY_FRAMES]
    split <;> omega
  refine ⟨_, by rw [set_pre_delay_time, hr, float_to_unsigned, if_pos ⟨h0, hlt⟩]; rfl, ?_, ?_⟩
  · rw [set_pre_delay_frames_eq, hc]
    split
    · rfl
    · rename_i h
      exact not_not.mp h
  · intro hne
    rw [set_pre_delay_frames_eq, hc, if_pos hne]

/-- Witness for C7, amended: at 48 kHz the `float` 0x1.5d867cp-15 (5726623 / 2^37 s) gives
an exact product just below 2 and the `float` product 2: two frames are configured. -/
theorem pre_delay_frames_truncated_witness :
    (∀ x, floatMath.roundf x = round_to_float x) ∧
    ⌊(5726623 / 137438953472 : ℚ) * example_kernel.sample_rate⌋₊ = 1 ∧
    ∃ dk1 : drc_kernel ℚ 2,
      set_pre_delay_time floatMath example_kernel (5726623 / 137438953472) = some dk1 ∧
      dk1.last_pre_delay_frames = 2 := by
  have hsr : example_kernel.sample_rate = 48000 := rfl
  have hro : round_to_float ((5726623 / 137438953472 : ℚ) * example_kernel.sample_rate) = 2 := by
    rw [hsr]; exact float_product_example.2.1
  obtain ⟨dk1, h1, h2, -⟩ := pre_delay_frames_truncated floatMath (fun _ => rfl) example_kernel
    (5726623 / 137438953472 : ℚ) (by norm_num) (by rw [hsr]; norm_num)
    (by rw [hro]; norm_num)
  refine ⟨fun _ => rfl, ?_, dk1, h1, ?_⟩
  · rw [hsr, Nat.floor_eq_iff (by norm_num)]; norm_num
  · rw [h2, hro]
    have : ⌊(2 : ℚ)⌋₊ = 2 := Nat.floor_ofNat 2
    rw [this]
    rfl

/-- C8 at a failing input: at 48 kHz a pre-delay of 89478.484375 s is 4294967250 frames, at
least 1024, and the `float` product is `2 ^ 32`, which does not fit an `unsigned`.  The
conversion that precedes the clamp is undefined in C: the model returns no kernel, and code
that keeps the low 32 bits of the converted value configures 0 frames, not 1023.  Another
oversized request, 100000 s (4.8e9 frames, low 32 bits 505032704), is clamped to 1023 by the
same code, so the two oversized requests configure different delays. -/
theorem oversized_pre_delay_undefined :
    (1024 : ℚ) ≤ 89478.484375 * example_kernel.sample_rate ∧
    floatMath.roundf (89478.484375 * example_kernel.sample_rate) = 2 ^ 32 ∧
    dk_set_parameters floatMath example_kernel (-24) 30 12 0.003 0.25 89478.484375 0
      0.09 0.16 0.42 0.98 = none ∧
    (set_pre_delay_time_wrapping floatMath example_kernel 89478.484375).last_pre_delay_frames =
      0 ∧
    example_kernel.last_pre_delay_frames = 256 ∧
    (set_pre_delay_time_wrapping floatMath example_kernel 100000).last_pre_delay_frames =
      1023 := by
  have hsr : example_kernel.sample_rate = 48000 := rfl
  have hro : floatMath.roundf ((89478.484375 : ℚ) * 48000) = 2 ^ 32 := float_product_example.2.2
  refine ⟨by rw [hsr]; norm_num, by rw [hsr]; exact hro, ?_, ?_, rfl, ?_⟩
  · rw [dk_set_parameters_eq, hsr, hro, float_to_unsigned, if_neg (by norm_num)]
    rfl
  · have hw : float_to_unsigned_wrapping ((2 : ℚ) ^ 32) = 0 := by
      have hfl : ⌊((2 : ℚ) ^ 32)⌋ = 2 ^ 32 := by
        rw [Int.floor_eq_iff]; norm_num
      rw [float_to_unsigned_wrapping, if_pos (by norm_num), hfl]
      rfl
    rw [set_pre_delay_time_wrapping, hsr, hro, hw]
    rfl
  · have hro2 : floatMath.roundf ((100000 : ℚ) * 48000) = 4800000000 := by
      show round_to_float ((100000 : ℚ) * 48000) = 4800000000
      rw [round_to_float_of _ 32 9375000 (by norm_num [abs_of_pos])
        (by norm_num [abs_of_pos]) (by norm_num) (by norm_num) (by norm_num)]
      norm_num
    have hw : float_to_unsigned_wrapping (4800000000 : ℚ) = 505032704 := by
      have hfl : ⌊(4800000000 : ℚ)⌋ = 4800000000 := by
        rw [Int.floor_eq_iff]; norm_num
      rw [float_to_unsigned_wrapping, if_pos (by norm_num), hfl]
      rfl
    rw [set_pre_delay_time_wrapping, hsr, hro2, hw]
    rfl

/-- Below `2 ^ 32` an oversized request is clamped: a `float` product of at least 1024 frames
configures exactly 1023. -/
theorem oversized_pre_delay_clamped (m : DrcMath α) (dk : drc_kernel α C)
    (t k r at_ rt pt pg z1 z2 z3 z4 : α) (hge : 1024 ≤ m.roundf (pt * dk.sample_rate))
    (hlt : m.roundf (pt * dk.sample_rate) < 2 ^ 32) :
    ∃ dk1, dk_set_parameters m dk t k r at_ rt pt pg z1 z2 z3 z4 = some dk1 ∧
      dk1.last_pre_delay_frames = 1023 := by
  have h0 : (-1 : α) < m.roundf (pt * dk.sample_rate) := lt_of_lt_of_le (by norm_num) hge
  have hfl : 1024 ≤ ⌊m.roundf (pt * dk.sample_rate)⌋₊ := Nat.le_floor (by exact_mod_cast hge)
  have hc : clamp_frames ⌊m.roundf (pt * dk.sample_rate)⌋₊ = 1023 := by
    simp only [clamp_frames, MAX_PRE_DELAY_FRAMES]
    split <;> omega
  refine ⟨_, by rw [dk_set_parameters_eq, float_to_unsigned, if_pos ⟨h0, hlt⟩]; rfl, ?_⟩
  rw [set_pre_delay_frames_eq, hc]
  split
  · rfl
  · rename_i h
    exact not_not.mp h

/-- C9 (unity gain below the threshold). For a curve with
`0 < linear_threshold ≤ knee_threshold` and `0 ≤ x < linear_threshold`, `x = 0` included,
`volume_gain` returns exactly 1. -/
theorem unity_gain_below_threshold (m : DrcMath α) (dk : drc_kernel α C) (x : α)
    (_h0 : 0 < dk.linear_threshold) (h1 : dk.linear_threshold ≤ dk.knee_threshold)
    (_hx0 : 0 ≤ x) (hx : x < dk.linear_threshold) : volume_gain m dk x = 1 := by
  rw [volume_gain, if_pos (lt_of_lt_of_le hx h1), if_pos hx]

/-- Witness for C9: threshold 1/2, knee end 1, input 1/4. -/
theorem unity_gain_below_threshold_witness :
    (0 : ℚ) < example_curve_kernel.linear_threshold ∧
    example_curve_kernel.linear_threshold ≤ example_curve_kernel.knee_threshold ∧
    volume_gain testMath example_curve_kernel (1 / 4) = 1 :=
  have h0 : (0 : ℚ) < example_curve_kernel.linear_threshold :=
    show (0 : ℚ) < 1 / 2 by norm_num
  have h1 : example_curve_kernel.linear_threshold ≤ example_curve_kernel.knee_threshold :=
    show (1 / 2 : ℚ) ≤ 1 by norm_num
  ⟨h0, h1, unity_gain_below_threshold testMath example_curve_kernel (1 / 4) h0 h1
    (by norm_num) (show (1 / 4 : ℚ) < 1 / 2 by norm_num)⟩

theorem slope_at_congr (m : DrcMath α) (d d1 : drc_kernel α C)
    (h : d.linear_threshold = d1.linear_threshold) (x k : α) :
    slope_at m d x k = slope_at m d1 x k := by
  simp only [slope_at, h, knee_curve_congr m d d1 h]

theorem k_at_slope_loop_congr (m : DrcMath α) (d d1 : drc_kernel α C)
    (h : d.linear_threshold = d1.linear_threshold) (x ds : α) (n : ℕ) (s : α × α × α) :
    k_at_slope_loop m d x ds n s = k_at_slope_loop m d1 x ds n s := by
  induction n generalizing s with
  | zero => rfl
  | succ n ih =>
    obtain ⟨a, b, c⟩ := s
    simp only [k_at_slope_loop, slope_at_congr m d d1 h, ih]

theorem k_at_slope_congr (m : DrcMath α) (d d1 : drc_kernel α C)
    (h : d.linear_threshold = d1.linear_threshold) (ht : d.db_threshold = d1.db_threshold)
    (hk : d.db_knee = d1.db_knee) (ds : α) : k_at_slope m d ds = k_at_slope m d1 ds := by
  simp only [k_at_slope, ht, hk, k_at_slope_loop_congr m d d1 h]

theorem curve_inv_congr (m : DrcMath α) (d d1 : drc_kernel α C) (h : curve_of d = curve_of d1)
    (hd : CurveInv m d) : CurveInv m d1 := by
  simp only [curve_of, Prod.mk.injEq] at h
  obtain ⟨e1, e2, e3, e4, e5, e6, e7, e8, e9, e10⟩ := h
  rcases hd with hd | ⟨c1, c2, c3, c4, c5, c6, c7⟩
  · left; rw [← e2]; exact hd
  · right
    rw [← k_at_slope_congr m d d1 e4 e1 e2, ← knee_curve_congr m d d1 e4,
      ← e1, ← e2, ← e3, ← e4, ← e5, ← e6, ← e7, ← e8, ← e9, ← e10]
    exact ⟨c1, c2, c3, c4, c5, c6, c7⟩

theorem compute_static_curve_inv (m : DrcMath α) (dk : drc_kernel α C) (t k r : α) :
    CurveInv m (compute_static_curve m dk t k r) := by
  right
  refine ⟨?_, ?_, ?_, ?_, ?_, ?_, ?_⟩
  · rfl
  · rfl
  · exact k_at_slope_congr m (curve_stage1 m dk t k r) (compute_static_curve m dk t k r)
      rfl rfl rfl (m.roundf (1 / r))
  · rfl
  · rfl
  · rfl
  · exact congrArg (fun y => y * m.powf (m.decibels_to_linear (t + k)) (-m.roundf (1 / r)))
      (knee_curve_congr m (curve_stage1 m dk t k r) _ rfl _ _)

theorem update_static_curve_inv (m : DrcMath α) (dk : drc_kernel α C) (t k r : α)
    (h : CurveInv m dk) : CurveInv m (update_static_curve_parameters m dk t k r) := by
  rw [update_static_eq]
  split
  · exact compute_static_curve_inv m dk t k r
  · exact h

theorem curve_of_set_pre_delay_frames (d : drc_kernel α C) (n : ℕ) :
    curve_of (set_pre_delay_frames d n) = curve_of d := by
  rw [set_pre_delay_frames_eq]
  split <;> rfl

theorem curve_of_set_timing (m : DrcMath α) (d : drc_kernel α C)
    (sr at_ rt pg z1 z2 z3 z4 : α) :
    curve_of (set_timing m d sr at_ rt pg z1 z2 z3 z4) = curve_of d := by
  simp only [curve_of, set_timing]

theorem reachable_curve (m : DrcMath α) (dk : drc_kernel α C) (h : Reachable m dk) :
    CurveInv m dk := by
  induction h with
  | init dk0 sr => left; rfl
  | set_parameters t k r at_ rt pt pg z1 z2 z3 z4 _ hs ih =>
    rw [dk_set_parameters_eq] at hs
    obtain ⟨n, -, rfl⟩ := Option.map_eq_some'.mp hs
    refine curve_inv_congr m _ _ (curve_of_set_pre_delay_frames _ n).symm ?_
    exact curve_inv_congr m (update_static_curve_parameters m _ t k r) _
      (curve_of_set_timing m _ _ _ _ _ _ _ _ _).symm (update_static_curve_inv m _ t k r ih)
  | @set_enabled dk e _ ih => exact curve_inv_congr m dk (dk_set_enabled dk e) rfl ih
  | @process dk frames _ ih =>
    have e : curve_of dk = curve_of (dk_process m dk frames).1 :=
      (congrArg curve_of (with_runtime_process m dk frames) :
        curve_of (with_runtime dk (dk_process m dk frames).1) = _)
    exact curve_inv_congr m dk _ e ih

theorem knee_at_threshold (a b K L : ℝ) (ha : a = L + 1 / K)
    (hb : b = -Real.exp (K * L) / K) : a + b * Real.exp (-K * L) = L := by
  have h : Real.exp (K * L) * Real.exp (-K * L) = 1 := by
    rw [← Real.exp_add]; simp
  rw [ha, hb]
  have : -Real.exp (K * L) / K * Real.exp (-K * L) =
      -(Real.exp (K * L) * Real.exp (-K * L)) / K := by ring
  rw [this, h]
  ring

/-- C10 (continuity at the threshold junction). In exact real arithmetic, for every reachable
kernel and every `db_threshold`, `db_knee > 0` and `ratio`, after
`update_static_curve_parameters` the knee branch at `x = linear_threshold` gives
`knee_alpha + knee_beta * e^(-K * linear_threshold) = linear_threshold`, so `knee_curveK`
returns `linear_threshold` there and `volume_gain` returns 1. -/
theorem threshold_junction_continuous (m : DrcMath ℝ) (hm : ExactMath m) (dk : drc_kernel ℝ C)
    (hr : Reachable m dk) (db_threshold db_knee ratio : ℝ) (hk : 0 < db_knee) :
    (update_static_curve_parameters m dk db_threshold db_knee ratio).knee_alpha +
        (update_static_curve_parameters m dk db_threshold db_knee ratio).knee_beta *
          Real.exp (-(update_static_curve_parameters m dk db_threshold db_knee ratio).K *
            (update_static_curve_parameters m dk db_threshold db_knee ratio).linear_threshold) =
      (update_static_curve_parameters m dk db_threshold db_knee ratio).linear_threshold ∧
    knee_curveK m (update_static_curve_parameters m dk db_threshold db_knee ratio)
        (update_static_curve_parameters m dk db_threshold db_knee ratio).linear_threshold =
      (update_static_curve_parameters m dk db_threshold db_knee ratio).linear_threshold ∧
    volume_gain m (update_static_curve_parameters m dk db_threshold db_knee ratio)
        (update_static_curve_parameters m dk db_threshold db_knee ratio).linear_threshold =
      1 := by
  obtain ⟨hknee, hexp, -, -, -, hdb, -⟩ := hm
  have hinv := update_static_curve_inv m dk db_threshold db_knee ratio (reachable_curve m dk hr)
  obtain ⟨u1, u2, -, -⟩ := update_static_cached m dk db_threshold db_knee ratio
  generalize update_static_curve_parameters m dk db_threshold db_knee ratio = d at hinv u1 u2 ⊢
  rcases hinv with h | ⟨c1, -, -, c4, c5, c6, -⟩
  · exfalso
    rw [← u2, uninitialized_value] at h
    linarith
  · rw [hexp] at c5
    have hj := knee_at_threshold d.knee_alpha d.knee_beta d.K d.linear_threshold c4 c5
    have hlt : d.linear_threshold = (10 : ℝ) ^ (d.db_threshold / 20) := by rw [c1, hdb]
    have hkt : d.knee_threshold = (10 : ℝ) ^ ((d.db_threshold + d.db_knee) / 20) := by
      rw [c6, hdb]
    have hpos : 0 < d.linear_threshold := by
      rw [hlt]; exact Real.rpow_pos_of_pos (by norm_num) _
    have hless : d.linear_threshold < d.knee_threshold := by
      rw [hlt, hkt]
      apply Real.rpow_lt_rpow_of_exponent_lt (by norm_num)
      rw [← u2]
      linarith
    have hK : knee_curveK m d d.linear_threshold = d.linear_threshold := by
      rw [knee_curveK, hknee]; exact hj
    refine ⟨hj, hK, ?_⟩
    rw [volume_gain, if_pos hless, if_neg (lt_irrefl _), hK, div_self (ne_of_gt hpos)]

/-- Witness for C10: the real exponential, power, square root and decibel functions, and the
kernel right after `dk_init`, configured with threshold -24 dB, knee 30 dB and ratio 12. -/
theorem threshold_junction_continuous_witness :
    ∃ m : DrcMath ℝ, ExactMath m ∧ (0 : ℝ) < 30 ∧
      volume_gain m
        (update_static_curve_parameters m (dk_init (zero_kernel : drc_kernel ℝ 2) 48000)
          (-24) 30 12)
        (update_static_curve_parameters m (dk_init (zero_kernel : drc_kernel ℝ 2) 48000)
          (-24) 30 12).linear_threshold = 1 := by
  let M : DrcMath ℝ :=
    ⟨Real.exp, Real.exp, fun x y => x ^ y, Real.sqrt, fun x => 20 * Real.logb 10 x,
      fun x => (10 : ℝ) ^ (x / 20), fun x => x, fun x => x, fun _ => false,
      (10 : ℝ) ^ ((-2 : ℝ) / 20), fun x => x⟩
  have hM : ExactMath M :=
    ⟨fun _ => rfl, fun _ => rfl, fun _ _ _ => rfl, fun _ _ => rfl, fun _ _ => rfl, fun _ => rfl,
      fun _ => rfl⟩
  have h30 : (0 : ℝ) < 30 := by norm_num
  exact ⟨M, hM, h30, (threshold_junction_continuous M hM
    (dk_init (zero_kernel : drc_kernel ℝ 2) 48000) (Reachable.init zero_kernel 48000)
    (-24) 30 12 h30).2.2⟩

theorem exact_curve_of_update (m : DrcMath ℝ) (hm : ExactMath m) (dk : drc_kernel ℝ C)
    (hr : Reachable m dk) (t k r : ℝ) (hk : 0 ≤ k) :
    ExactCurve (update_static_curve_parameters m dk t k r) ∧
    (update_static_curve_parameters m dk t k r).linear_threshold = (10 : ℝ) ^ (t / 20) ∧
    (update_static_curve_parameters m dk t k r).knee_threshold = (10 : ℝ) ^ ((t + k) / 20) ∧
    (update_static_curve_parameters m dk t k r).slope = 1 / r ∧
    (update_static_curve_parameters m dk t k r).K =
      k_at_slope m (update_static_curve_parameters m dk t k r) (1 / r) := by
  obtain ⟨hknee, hexp, hpow, -, -, hdb, hrnd⟩ := hm
  have hinv := update_static_curve_inv m dk t k r (reachable_curve m dk hr)
  obtain ⟨u1, u2, u3, -⟩ := update_static_cached m dk t k r
  generalize update_static_curve_parameters m dk t k r = d at hinv u1 u2 u3 ⊢
  rcases hinv with h | ⟨c1, c2, c3, c4, c5, c6, c7⟩
  · exfalso
    rw [← u2, uninitialized_value] at h
    linarith
  · rw [hexp] at c5
    have hlt : d.linear_threshold = (10 : ℝ) ^ (t / 20) := by rw [c1, hdb, ← u1]
    have hkt : d.knee_threshold = (10 : ℝ) ^ ((t + k) / 20) := by rw [c6, hdb, ← u1, ← u2]
    have hpos : 0 < d.linear_threshold := by
      rw [hlt]; exact Real.rpow_pos_of_pos (by norm_num) _
    have hle : d.linear_threshold ≤ d.knee_threshold := by
      rw [hlt, hkt]
      apply Real.rpow_le_rpow_of_exponent_le (by norm_num)
      linarith
    have hkpos : 0 < d.knee_threshold := lt_of_lt_of_le hpos hle
    refine ⟨⟨hpos, hle, c4, c5, ?_⟩, hlt, hkt, by rw [c2, hrnd, ← u3],
      by rw [c3, hrnd, ← u3]⟩
    rw [c7, knee_curve, if_neg (not_lt.mpr hle), hknee, hpow _ _ hkpos]

theorem knee_forms (a b K L x : ℝ) (ha : a = L + 1 / K) (hb : b = -Real.exp (K * L) / K) :
    a + b * Real.exp (-K * x) = L + (1 - Real.exp (-K * (x - L))) / K := by
  have h : Real.exp (K * L) * Real.exp (-K * x) = Real.exp (-K * (x - L)) := by
    rw [← Real.exp_add]; congr 1; ring
  have e : b * Real.exp (-K * x) = -Real.exp (-K * (x - L)) / K := by
    rw [hb, ← h]; ring
  rw [e, ha]
  ring

theorem exact_knee_curveK (m : DrcMath ℝ) (hm : ExactMath m) (d : drc_kernel ℝ C)
    (hc : ExactCurve d) (x : ℝ) :
    knee_curveK m d x =
      d.linear_threshold + (1 - Real.exp (-d.K * (x - d.linear_threshold))) / d.K := by
  obtain ⟨-, -, ha, hb, -⟩ := hc
  rw [knee_curveK, hm.1]
  exact knee_forms _ _ _ _ _ ha hb

theorem exact_power_at_knee (d : drc_kernel ℝ C) (hc : ExactCurve d) :
    d.ratio_base * d.knee_threshold ^ (d.slope - 1) =
      (d.linear_threshold +
        (1 - Real.exp (-d.K * (d.knee_threshold - d.linear_threshold))) / d.K) /
        d.knee_threshold := by
  obtain ⟨hpos, hle, -, -, hrb⟩ := hc
  have hkpos : 0 < d.knee_threshold := lt_of_lt_of_le hpos hle
  have hp : d.knee_threshold ^ (-d.slope) * d.knee_threshold ^ (d.slope - 1) =
      d.knee_threshold⁻¹ := by
    rw [← Real.rpow_add hkpos, ← Real.rpow_neg_one]; congr 1; ring
  rw [hrb, mul_assoc, hp]
  rfl

/-- C11 (continuity at the knee junction). In exact real arithmetic, for every reachable
kernel and every `db_threshold`, `db_knee ≥ 0` and `ratio ≠ 0`, after
`update_static_curve_parameters` the power-law branch at `x = knee_threshold` equals the knee
branch there, `ratio_base * knee_threshold^(slope - 1) = knee_curveK(knee_threshold) /
knee_threshold`, and `volume_gain` returns that value; and for every `x ≥ linear_threshold`
the form used while processing, `knee_alpha + knee_beta * e^(-K x)`, equals the reference
form `linear_threshold + (1 - e^(-K (x - linear_threshold))) / K` that `knee_curve`
computes. -/
theorem knee_junction_continuous (m : DrcMath ℝ) (hm : ExactMath m) (dk d : drc_kernel ℝ C)
    (hr : Reachable m dk) (db_threshold db_knee ratio : ℝ) (hk : 0 ≤ db_knee)
    (_hratio : ratio ≠ 0)
    (hd : d = update_static_curve_parameters m dk db_threshold db_knee ratio) :
    d.ratio_base * d.knee_threshold ^ (d.slope - 1) =
      knee_curveK m d d.knee_threshold / d.knee_threshold ∧
    volume_gain m d d.knee_threshold = knee_curveK m d d.knee_threshold / d.knee_threshold ∧
    ∀ x, d.linear_threshold ≤ x →
      d.knee_alpha + d.knee_beta * Real.exp (-d.K * x) =
        d.linear_threshold + (1 - Real.exp (-d.K * (x - d.linear_threshold))) / d.K ∧
      knee_curveK m d x = knee_curve m d x d.K := by
  obtain ⟨hc, -, -, -, -⟩ := exact_curve_of_update m hm dk hr db_threshold db_knee ratio hk
  rw [← hd] at hc
  have hkpos : 0 < d.knee_threshold := lt_of_lt_of_le hc.1 hc.2.1
  have h1 : d.ratio_base * d.knee_threshold ^ (d.slope - 1) =
      knee_curveK m d d.knee_threshold / d.knee_threshold := by
    rw [exact_power_at_knee d hc, exact_knee_curveK m hm d hc]
  refine ⟨h1, ?_, ?_⟩
  · rw [volume_gain, if_neg (lt_irrefl _), hm.2.2.1 _ _ hkpos]
    exact h1
  · intro x hx
    refine ⟨knee_forms _ _ _ _ _ hc.2.2.1 hc.2.2.2.1, ?_⟩
    rw [exact_knee_curveK m hm d hc, knee_curve, if_neg (not_lt.mpr hx), hm.1]

theorem exact_math_exists : ∃ m : DrcMath ℝ, ExactMath m :=
  ⟨⟨Real.exp, Real.exp, fun x y => x ^ y, Real.sqrt, fun x => 20 * Real.logb 10 x,
      fun x => (10 : ℝ) ^ (x / 20), fun x => x, fun x => x, fun _ => false,
      (10 : ℝ) ^ ((-2 : ℝ) / 20), fun x => x⟩,
    ⟨fun _ => rfl, fun _ => rfl, fun _ _ _ => rfl, fun _ _ => rfl, fun _ _ => rfl,
      fun _ => rfl, fun _ => rfl⟩⟩

/-- Witness for C11: the kernel right after `dk_init`, configured with threshold -24 dB,
knee 30 dB and ratio 12, in exact real arithmetic. -/
theorem knee_junction_continuous_witness :
    ∃ m : DrcMath ℝ, ExactMath m ∧ (0 : ℝ) ≤ 30 ∧ (12 : ℝ) ≠ 0 ∧
      volume_gain m
        (update_static_curve_parameters m (dk_init (zero_kernel : drc_kernel ℝ 2) 48000)
          (-24) 30 12)
        (update_static_curve_parameters m (dk_init (zero_kernel : drc_kernel ℝ 2) 48000)
          (-24) 30 12).knee_threshold =
      knee_curveK m
        (update_static_curve_parameters m (dk_init (zero_kernel : drc_kernel ℝ 2) 48000)
          (-24) 30 12)
        (update_static_curve_parameters m (dk_init (zero_kernel : drc_kernel ℝ 2) 48000)
          (-24) 30 12).knee_threshold /
        (update_static_curve_parameters m (dk_init (zero_kernel : drc_kernel ℝ 2) 48000)
          (-24) 30 12).knee_threshold := by
  obtain ⟨M, hM⟩ := exact_math_exists
  have h30 : (0 : ℝ) ≤ 30 := by norm_num
  have h12 : (12 : ℝ) ≠ 0 := by norm_num
  exact ⟨M, hM, h30, h12, (knee_junction_continuous M hM
    (dk_init (zero_kernel : drc_kernel ℝ 2) 48000) _ (Reachable.init zero_kernel 48000)
    (-24) 30 12 h30 h12 rfl).2.1⟩

/-- Concavity of `1 - e^(-t)`: for `0 ≤ a ≤ b`, `a (1 - e^(-b)) ≤ b (1 - e^(-a))`. -/
theorem exp_concave_ineq (a b : ℝ) (ha : 0 ≤ a) (hab : a ≤ b) :
    a * (1 - Real.exp (-b)) ≤ b * (1 - Real.exp (-a)) := by
  rcases eq_or_lt_of_le (le_trans ha hab) with hb | hb
  · have ha0 : a = 0 := le_antisymm (hb ▸ hab) ha
    rw [← hb, ha0]
  · have hθ0 : 0 ≤ a / b := div_nonneg ha hb.le
    have hθ1 : 0 ≤ 1 - a / b := by
      rw [sub_nonneg, div_le_one hb]; exact hab
    have hc := convexOn_exp.2 (Set.mem_univ (-b)) (Set.mem_univ (0 : ℝ)) hθ0 hθ1 (by ring)
    simp only [smul_eq_mul, mul_zero, add_zero, Real.exp_zero, mul_one] at hc
    have e : a / b * -b = -a := by field_simp
    rw [e] at hc
    have h2 : b * Real.exp (-a) ≤ a * Real.exp (-b) + (b - a) := by
      have := mul_le_mul_of_nonneg_left hc hb.le
      have e2 : b * (a / b * Real.exp (-b) + (1 - a / b)) = a * Real.exp (-b) + (b - a) := by
        field_simp
      rw [e2] at this
      exact this
    linarith

/-- The knee's rise above the threshold, `(1 - e^(-K u)) / K`, grows at most as fast as
`u`. -/
theorem knee_rise_lipschitz (K u v : ℝ) (hK : 0 < K) (hu : 0 ≤ u) (huv : u ≤ v) :
    (1 - Real.exp (-K * v)) / K - (1 - Real.exp (-K * u)) / K ≤ v - u := by
  have h1 : Real.exp (-K * v) = Real.exp (-K * u) * Real.exp (-(K * (v - u))) := by
    rw [← Real.exp_add]; congr 1; ring
  have h2 : 1 - K * (v - u) ≤ Real.exp (-(K * (v - u))) := by
    have := Real.add_one_le_exp (-(K * (v - u)))
    linarith
  have h3 : Real.exp (-K * u) ≤ 1 := by
    rw [Real.exp_le_one_iff]
    have := mul_nonneg hK.le hu
    linarith
  have h4 : 0 < Real.exp (-K * u) := Real.exp_pos _
  have h5 : 0 ≤ K * (v - u) := mul_nonneg hK.le (by linarith)
  have h6 : Real.exp (-K * u) - Real.exp (-K * v) ≤ K * (v - u) := by
    rw [h1]
    nlinarith [mul_nonneg h4.le h5, Real.exp_pos (-(K * (v - u)))]
  have e : (1 - Real.exp (-K * v)) / K - (1 - Real.exp (-K * u)) / K =
      (Real.exp (-K * u) - Real.exp (-K * v)) / K := by ring
  rw [e, div_le_iff₀ hK]
  linarith

/-- The knee curve divided by its argument does not increase past the threshold. -/
theorem knee_gain_antitone (L K x y : ℝ) (hL : 0 < L) (hK : 0 < K) (hx : L ≤ x)
    (hxy : x ≤ y) :
    (L + (1 - Real.exp (-K * (y - L))) / K) / y ≤
      (L + (1 - Real.exp (-K * (x - L))) / K) / x := by
  have hx0 : 0 < x := lt_of_lt_of_le hL hx
  have hy0 : 0 < y := lt_of_lt_of_le hx0 hxy
  have hu : 0 ≤ x - L := by linarith
  have huv : x - L ≤ y - L := by linarith
  have hB := knee_rise_lipschitz K (x - L) (y - L) hK hu huv
  have hA := exp_concave_ineq (K * (x - L)) (K * (y - L)) (mul_nonneg hK.le hu)
    (mul_le_mul_of_nonneg_left huv hK.le)
  have hA' : (x - L) * ((1 - Real.exp (-K * (y - L))) / K) ≤
      (y - L) * ((1 - Real.exp (-K * (x - L))) / K) := by
    have e1 : (x - L) * ((1 - Real.exp (-K * (y - L))) / K) =
        K * (x - L) * (1 - Real.exp (-(K * (y - L)))) / (K * K) := by
      field_simp
      ring
    have e2 : (y - L) * ((1 - Real.exp (-K * (x - L))) / K) =
        K * (y - L) * (1 - Real.exp (-(K * (x - L)))) / (K * K) := by
      field_simp
      ring
    rw [e1, e2]
    exact div_le_div_of_nonneg_right hA (mul_pos hK hK).le
  rw [div_le_div_iff₀ hy0 hx0]
  nlinarith [mul_le_mul_of_nonneg_left hB hL.le]

theorem sqrt_bracket (a b : ℝ) (ha : 0 < a) (hab : a ≤ b) :
    a ≤ Real.sqrt (a * b) ∧ Real.sqrt (a * b) ≤ b := by
  have hb : 0 < b := lt_of_lt_of_le ha hab
  constructor
  · rw [Real.le_sqrt' ha]; nlinarith
  · rw [Real.sqrt_le_left hb.le]; nlinarith

/-- The bisection of `k_at_slope` keeps `minK ≤ k ≤ maxK` inside the bracket it started
with, whatever `slope_at` returns. -/
theorem k_loop_bracket (m : DrcMath ℝ) (hm : ExactMath m) (dk : drc_kernel ℝ C) (x ds : ℝ)
    (n : ℕ) : ∀ a b k : ℝ, 0 < a → a ≤ k → k ≤ b →
      a ≤ (k_at_slope_loop m dk x ds n (a, b, k)).1 ∧
      (k_at_slope_loop m dk x ds n (a, b, k)).1 ≤ (k_at_slope_loop m dk x ds n (a, b, k)).2.2 ∧
      (k_at_slope_loop m dk x ds n (a, b, k)).2.2 ≤
        (k_at_slope_loop m dk x ds n (a, b, k)).2.1 ∧
      (k_at_slope_loop m dk x ds n (a, b, k)).2.1 ≤ b := by
  induction n with
  | zero =>
    intro a b k _ hak hkb
    exact ⟨le_rfl, hak, hkb, le_rfl⟩
  | succ n ih =>
    intro a b k ha hak hkb
    have hk : 0 < k := lt_of_lt_of_le ha hak
    rw [k_at_slope_loop]
    by_cases hs : slope_at m dk x k < ds
    · simp only [hs, if_true]
      rw [hm.2.2.2.1 _ (mul_nonneg ha.le hk.le)]
      obtain ⟨s1, s2⟩ := sqrt_bracket a k ha hak
      obtain ⟨i1, i2, i3, i4⟩ := ih a k (Real.sqrt (a * k)) ha s1 s2
      exact ⟨i1, i2, i3, le_trans i4 hkb⟩
    · simp only [hs, if_false]
      rw [hm.2.2.2.1 _ (mul_nonneg hk.le (le_trans hk.le hkb))]
      obtain ⟨s1, s2⟩ := sqrt_bracket k b hk hkb
      obtain ⟨i1, i2, i3, i4⟩ := ih k b (Real.sqrt (k * b)) hk s1 s2
      exact ⟨le_trans hak i1, i2, i3, i4⟩

theorem k_at_slope_bounds (m : DrcMath ℝ) (hm : ExactMath m) (dk : drc_kernel ℝ C) (ds : ℝ) :
    0.1 ≤ k_at_slope m dk ds ∧ k_at_slope m dk ds ≤ 10000 := by
  obtain ⟨i1, i2, i3, i4⟩ := k_loop_bracket m hm dk
    (m.decibels_to_linear (dk.db_threshold + dk.db_knee)) ds 15 0.1 10000 5
    (by norm_num) (by norm_num) (by norm_num)
  exact ⟨le_trans i1 i2, le_trans i3 i4⟩

theorem knee_value_pos (L K x : ℝ) (hL : 0 < L) (hK : 0 < K) (hx : L ≤ x) :
    0 < L + (1 - Real.exp (-K * (x - L))) / K := by
  have h1 : Real.exp (-K * (x - L)) ≤ 1 := by
    rw [Real.exp_le_one_iff]
    have := mul_nonneg hK.le (sub_nonneg.mpr hx)
    linarith
  have h2 : 0 ≤ (1 - Real.exp (-K * (x - L))) / K := div_nonneg (by linarith) hK.le
  linarith

theorem exact_gain_knee (m : DrcMath ℝ) (hm : ExactMath m) (d : drc_kernel ℝ C)
    (hc : ExactCurve d) (x : ℝ) (hx : d.linear_threshold ≤ x) (hxk : x < d.knee_threshold) :
    volume_gain m d x =
      (d.linear_threshold + (1 - Real.exp (-d.K * (x - d.linear_threshold))) / d.K) / x := by
  rw [volume_gain, if_pos hxk, if_neg (not_lt.mpr hx), exact_knee_curveK m hm d hc]

theorem exact_gain_power (m : DrcMath ℝ) (hm : ExactMath m) (d : drc_kernel ℝ C)
    (hc : ExactCurve d) (x : ℝ) (hxk : d.knee_threshold ≤ x) :
    volume_gain m d x =
      (d.linear_threshold +
        (1 - Real.exp (-d.K * (d.knee_threshold - d.linear_threshold))) / d.K) *
        (d.knee_threshold ^ (-d.slope) * x ^ (d.slope - 1)) := by
  have hx0 : 0 < x := lt_of_lt_of_le (lt_of_lt_of_le hc.1 hc.2.1) hxk
  rw [volume_gain, if_neg (not_lt.mpr hxk), hm.2.2.1 _ _ hx0, hc.2.2.2.2, mul_assoc]

theorem power_factor_at_knee (T s : ℝ) (hT : 0 < T) : T ^ (-s) * T ^ (s - 1) = 1 / T := by
  rw [← Real.rpow_add hT, one_div, ← Real.rpow_neg_one]; congr 1; ring

/-- Past the threshold the gain of an exact curve with `K > 0` and `slope ≤ 1` does not
increase and is at most 1. -/
theorem exact_gain_antitone (m : DrcMath ℝ) (hm : ExactMath m) (d : drc_kernel ℝ C)
    (hc : ExactCurve d) (hK : 0 < d.K) (hs : d.slope ≤ 1) (x y : ℝ)
    (hx : d.linear_threshold ≤ x) (hxy : x ≤ y) :
    volume_gain m d y ≤ volume_gain m d x ∧ volume_gain m d x ≤ 1 := by
  have hL := hc.1
  have hLT := hc.2.1
  have hT : 0 < d.knee_threshold := lt_of_lt_of_le hL hLT
  have hx0 : 0 < x := lt_of_lt_of_le hL hx
  have hF : 0 < d.linear_threshold +
      (1 - Real.exp (-d.K * (d.knee_threshold - d.linear_threshold))) / d.K :=
    knee_value_pos _ _ _ hL hK hLT
  have hpowT : 0 < d.knee_threshold ^ (-d.slope) := Real.rpow_pos_of_pos hT _
  -- the power branch never exceeds the knee value at the end of the knee
  have hP : ∀ z, d.knee_threshold ≤ z → volume_gain m d z ≤
      (d.linear_threshold +
        (1 - Real.exp (-d.K * (d.knee_threshold - d.linear_threshold))) / d.K) /
        d.knee_threshold := by
    intro z hz
    have e : (d.linear_threshold +
        (1 - Real.exp (-d.K * (d.knee_threshold - d.linear_threshold))) / d.K) /
        d.knee_threshold =
        (d.linear_threshold +
          (1 - Real.exp (-d.K * (d.knee_threshold - d.linear_threshold))) / d.K) *
          (d.knee_threshold ^ (-d.slope) * d.knee_threshold ^ (d.slope - 1)) := by
      rw [power_factor_at_knee d.knee_threshold d.slope hT, mul_one_div]
    rw [exact_gain_power m hm d hc z hz, e]
    apply mul_le_mul_of_nonneg_left _ hF.le
    apply mul_le_mul_of_nonneg_left _ hpowT.le
    exact Real.rpow_le_rpow_of_exponent_nonpos hT hz (by linarith)
  -- the knee value over its argument is at most 1
  have hone : ∀ z, d.linear_threshold ≤ z →
      (d.linear_threshold + (1 - Real.exp (-d.K * (z - d.linear_threshold))) / d.K) / z ≤
        1 := by
    intro z hz
    have h := knee_gain_antitone d.linear_threshold d.K d.linear_threshold z hL hK le_rfl hz
    simpa [div_self (ne_of_gt hL)] using h
  constructor
  · by_cases hyk : y < d.knee_threshold
    · have hxk : x < d.knee_threshold := lt_of_le_of_lt hxy hyk
      rw [exact_gain_knee m hm d hc y (le_trans hx hxy) hyk, exact_gain_knee m hm d hc x hx hxk]
      exact knee_gain_antitone _ _ _ _ hL hK hx hxy
    · have hyk' : d.knee_threshold ≤ y := not_lt.mp hyk
      by_cases hxk : x < d.knee_threshold
      · rw [exact_gain_knee m hm d hc x hx hxk]
        exact le_trans (hP y hyk') (knee_gain_antitone _ _ _ _ hL hK hx hxk.le)
      · have hxk' : d.knee_threshold ≤ x := not_lt.mp hxk
        rw [exact_gain_power m hm d hc y hyk', exact_gain_power m hm d hc x hxk']
        apply mul_le_mul_of_nonneg_left _ hF.le
        apply mul_le_mul_of_nonneg_left _ hpowT.le
        exact Real.rpow_le_rpow_of_exponent_nonpos hx0 hxy (by linarith)
  · by_cases hxk : x < d.knee_threshold
    · rw [exact_gain_knee m hm d hc x hx hxk]
      exact hone x hx
    · exact le_trans (hP x (not_lt.mp hxk)) (hone _ hLT)

/-- C12 (gain non-increasing past the threshold). In exact real arithmetic, for every
reachable kernel, after `update_static_curve_parameters` with `db_knee ≥ 0` and `ratio ≥ 1`
the curve has `linear_threshold > 0`, `K > 0`, `0 < slope ≤ 1` and
`linear_threshold ≤ knee_threshold`, and for all `linear_threshold ≤ x ≤ y`, on whichever
sides of `knee_threshold` they lie, `volume_gain(y) ≤ volume_gain(x) ≤ 1`. -/
theorem gain_nonincreasing_past_threshold (m : DrcMath ℝ) (hm : ExactMath m)
    (dk d : drc_kernel ℝ C) (hr : Reachable m dk) (db_threshold db_knee ratio : ℝ)
    (hk : 0 ≤ db_knee) (hratio : 1 ≤ ratio)
    (hd : d = update_static_curve_parameters m dk db_threshold db_knee ratio) (x y : ℝ)
    (hx : d.linear_threshold ≤ x) (hxy : x ≤ y) :
    0 < d.linear_threshold ∧ 0 < d.K ∧ 0 < d.slope ∧ d.slope ≤ 1 ∧
    d.linear_threshold ≤ d.knee_threshold ∧
    volume_gain m d y ≤ volume_gain m d x ∧ volume_gain m d x ≤ 1 := by
  obtain ⟨hc, -, -, hs, hKeq⟩ :=
    exact_curve_of_update m hm dk hr db_threshold db_knee ratio hk
  rw [← hd] at hc hs hKeq
  have hr0 : 0 < ratio := lt_of_lt_of_le one_pos hratio
  have hK : 0 < d.K := by
    rw [hKeq]
    exact lt_of_lt_of_le (by norm_num) (k_at_slope_bounds m hm d (1 / ratio)).1
  have hs0 : 0 < d.slope := by rw [hs]; exact one_div_pos.mpr hr0
  have hs1 : d.slope ≤ 1 := by rw [hs, div_le_one hr0]; exact hratio
  obtain ⟨g1, g2⟩ := exact_gain_antitone m hm d hc hK hs1 x y hx hxy
  exact ⟨hc.1, hK, hs0, hs1, hc.2.1, g1, g2⟩

/-- Witness for C12: threshold -24 dB, knee 30 dB, ratio 12, with `x` at the threshold and
`y` at the end of the knee. -/
theorem gain_nonincreasing_past_threshold_witness :
    ∃ m : DrcMath ℝ, ExactMath m ∧ (0 : ℝ) ≤ 30 ∧ (1 : ℝ) ≤ 12 ∧
      volume_gain m
        (update_static_curve_parameters m (dk_init (zero_kernel : drc_kernel ℝ 2) 48000)
          (-24) 30 12)
        (update_static_curve_parameters m (dk_init (zero_kernel : drc_kernel ℝ 2) 48000)
          (-24) 30 12).knee_threshold ≤
      volume_gain m
        (update_static_curve_parameters m (dk_init (zero_kernel : drc_kernel ℝ 2) 48000)
          (-24) 30 12)
        (update_static_curve_parameters m (dk_init (zero_kernel : drc_kernel ℝ 2) 48000)
          (-24) 30 12).linear_threshold := by
  obtain ⟨M, hM⟩ := exact_math_exists
  have h30 : (0 : ℝ) ≤ 30 := by norm_num
  have h12 : (1 : ℝ) ≤ 12 := by norm_num
  have hle := (exact_curve_of_update M hM (dk_init (zero_kernel : drc_kernel ℝ 2) 48000)
    (Reachable.init zero_kernel 48000) (-24) 30 12 h30).1.2.1
  exact ⟨M, hM, h30, h12, (gain_nonincreasing_past_threshold M hM
    (dk_init (zero_kernel : drc_kernel ℝ 2) 48000) _ (Reachable.init zero_kernel 48000)
    (-24) 30 12 h30 h12 rfl _ _ le_rfl hle).2.2.2.2.2.1⟩

/-- Two runs of the bisection of `k_at_slope` on the same curve: the run with the smaller
desired slope ends at a `k` that is at least as large. The runs agree until the first
comparison that differs, and from there on their brackets are separated. -/
theorem k_loop_mono (m : DrcMath ℝ) (hm : ExactMath m) (dk : drc_kernel ℝ C) (x ds1 ds2 : ℝ)
    (h : ds2 ≤ ds1) (n : ℕ) : ∀ a1 b1 k1 a2 b2 k2 : ℝ,
      0 < a1 → a1 ≤ k1 → k1 ≤ b1 → 0 < a2 → a2 ≤ k2 → k2 ≤ b2 →
      ((a1 = a2 ∧ b1 = b2 ∧ k1 = k2) ∨ b1 ≤ a2) →
      (k_at_slope_loop m dk x ds1 n (a1, b1, k1)).2.2 ≤
        (k_at_slope_loop m dk x ds2 n (a2, b2, k2)).2.2 := by
  induction n with
  | zero =>
    intro a1 b1 k1 a2 b2 k2 _ _ h3 _ h5 _ hrel
    rcases hrel with ⟨-, -, e⟩ | hsep
    · exact le_of_eq e
    · exact le_trans h3 (le_trans hsep h5)
  | succ n ih =>
    intro a1 b1 k1 a2 b2 k2 h1 h2 h3 h4 h5 h6 hrel
    have hk1 : 0 < k1 := lt_of_lt_of_le h1 h2
    have hk2 : 0 < k2 := lt_of_lt_of_le h4 h5
    have hb1 : 0 < b1 := lt_of_lt_of_le hk1 h3
    have hb2 : 0 < b2 := lt_of_lt_of_le hk2 h6
    have q1 := hm.2.2.2.1 _ (mul_nonneg h1.le hk1.le)
    have q2 := hm.2.2.2.1 _ (mul_nonneg hk1.le hb1.le)
    have q3 := hm.2.2.2.1 _ (mul_nonneg h4.le hk2.le)
    have q4 := hm.2.2.2.1 _ (mul_nonneg hk2.le hb2.le)
    obtain ⟨s1, s2⟩ := sqrt_bracket a1 k1 h1 h2
    obtain ⟨s3, s4⟩ := sqrt_bracket k1 b1 hk1 h3
    obtain ⟨s5, s6⟩ := sqrt_bracket a2 k2 h4 h5
    obtain ⟨s7, s8⟩ := sqrt_bracket k2 b2 hk2 h6
    rw [k_at_slope_loop, k_at_slope_loop]
    by_cases c1 : slope_at m dk x k1 < ds1
    · by_cases c2 : slope_at m dk x k2 < ds2
      · simp only [c1, c2, if_true, q1, q3]
        apply ih _ _ _ _ _ _ h1 s1 s2 h4 s5 s6
        rcases hrel with ⟨e1, -, e3⟩ | hsep
        · left; subst e1; subst e3; exact ⟨rfl, rfl, rfl⟩
        · right; exact le_trans h3 hsep
      · simp only [c1, c2, if_true, if_false, q1, q4]
        apply ih _ _ _ _ _ _ h1 s1 s2 hk2 s7 s8
        right
        rcases hrel with ⟨-, -, e3⟩ | hsep
        · exact le_of_eq e3
        · exact le_trans h3 (le_trans hsep h5)
    · by_cases c2 : slope_at m dk x k2 < ds2
      · simp only [c1, c2, if_true, if_false, q2, q3]
        apply ih _ _ _ _ _ _ hk1 s3 s4 h4 s5 s6
        rcases hrel with ⟨-, -, e3⟩ | hsep
        · exfalso
          rw [e3] at c1
          exact c1 (lt_of_lt_of_le c2 h)
        · right; exact hsep
      · simp only [c1, c2, if_false, q2, q4]
        apply ih _ _ _ _ _ _ hk1 s3 s4 hk2 s7 s8
        rcases hrel with ⟨-, e2, e3⟩ | hsep
        · left; subst e2; subst e3; exact ⟨rfl, rfl, rfl⟩
        · right; exact le_trans hsep h5

theorem k_at_slope_mono (m : DrcMath ℝ) (hm : ExactMath m) (dk : drc_kernel ℝ C)
    (ds1 ds2 : ℝ) (h : ds2 ≤ ds1) : k_at_slope m dk ds1 ≤ k_at_slope m dk ds2 :=
  k_loop_mono m hm dk _ ds1 ds2 h 15 0.1 10000 5 0.1 10000 5 (by norm_num) (by norm_num)
    (by norm_num) (by norm_num) (by norm_num) (by norm_num) (Or.inl ⟨rfl, rfl, rfl⟩)

/-- The knee's rise `(1 - e^(-K u)) / K` at a fixed `u ≥ 0` does not grow with `K`. -/
theorem knee_rise_antitone_K (K1 K2 u : ℝ) (hK1 : 0 < K1) (hK : K1 ≤ K2) (hu : 0 ≤ u) :
    (1 - Real.exp (-K2 * u)) / K2 ≤ (1 - Real.exp (-K1 * u)) / K1 := by
  have hK2 : 0 < K2 := lt_of_lt_of_le hK1 hK
  rcases eq_or_lt_of_le hu with h0 | hpos
  · rw [← h0]; simp
  · have hA := exp_concave_ineq (K1 * u) (K2 * u) (mul_nonneg hK1.le hu)
      (mul_le_mul_of_nonneg_right hK hu)
    rw [div_le_div_iff₀ hK2 hK1]
    have e1 : -K2 * u = -(K2 * u) := by ring
    have e2 : -K1 * u = -(K1 * u) := by ring
    rw [e1, e2]
    have : u * ((1 - Real.exp (-(K2 * u))) * K1) ≤ u * ((1 - Real.exp (-(K1 * u))) * K2) := by
      nlinarith
    exact le_of_mul_le_mul_left this hpos

theorem power_factor_eq (T s x : ℝ) (hT : 0 < T) (hx : 0 < x) :
    T ^ (-s) * x ^ (s - 1) = (x / T) ^ s * x⁻¹ := by
  rw [Real.rpow_neg hT.le, Real.rpow_sub hx, Real.rpow_one, Real.div_rpow hx.le hT.le]
  field_simp

theorem compute_static_curve_computed (m : DrcMath α) (dk : drc_kernel α C) (t k r : α) :
    CurveComputed m (compute_static_curve m dk t k r) := by
  refine ⟨?_, ?_, ?_, ?_, ?_, ?_, ?_⟩
  · rfl
  · rfl
  · exact k_at_slope_congr m (curve_stage1 m dk t k r) (compute_static_curve m dk t k r)
      rfl rfl rfl (m.roundf (1 / r))
  · rfl
  · rfl
  · rfl
  · exact congrArg (fun y => y * m.powf (m.decibels_to_linear (t + k)) (-m.roundf (1 / r)))
      (knee_curve_congr m (curve_stage1 m dk t k r) _ rfl _ _)

/-- Two computed curves with the same threshold and knee width whose ratios have the same
rounded reciprocal are the same curve: `volume_gain` reads the ratio through it only. -/
theorem same_reciprocal_same_gain (m : DrcMath α) (d1 d2 : drc_kernel α C)
    (h1 : CurveComputed m d1) (h2 : CurveComputed m d2)
    (ht : d1.db_threshold = d2.db_threshold) (hk : d1.db_knee = d2.db_knee)
    (hr : m.roundf (1 / d1.ratio) = m.roundf (1 / d2.ratio)) (x : α) :
    volume_gain m d1 x = volume_gain m d2 x := by
  obtain ⟨a1, a2, a3, a4, a5, a6, a7⟩ := h1
  obtain ⟨b1, b2, b3, b4, b5, b6, b7⟩ := h2
  have e1 : d1.linear_threshold = d2.linear_threshold := by rw [a1, b1, ht]
  have e2 : d1.slope = d2.slope := by rw [a2, b2, hr]
  have e3 : d1.K = d2.K := by rw [a3, b3, hr, k_at_slope_congr m d1 d2 e1 ht hk]
  have e4 : d1.knee_alpha = d2.knee_alpha := by rw [a4, b4, e1, e3]
  have e5 : d1.knee_beta = d2.knee_beta := by rw [a5, b5, e1, e3]
  have e6 : d1.knee_threshold = d2.knee_threshold := by rw [a6, b6, ht, hk]
  have e7 : d1.ratio_base = d2.ratio_base := by
    rw [a7, b7, e2, e3, e6, knee_curve_congr m d1 d2 e1]
  simp only [volume_gain, knee_curveK, e1, e2, e3, e4, e5, e6, e7]

theorem float_reciprocal_example :
    round_to_float ((1 : ℚ) / (8388607 / 4194304)) = 8388609 / 16777216 ∧
    round_to_float ((1 : ℚ) / (16777215 / 8388608)) = 8388609 / 16777216 := by
  refine ⟨?_, ?_⟩
  · rw [round_to_float_of _ (-1) 8388609 (by norm_num [abs_of_pos])
      (by norm_num [abs_of_pos]) (by norm_num) (by norm_num) (by norm_num)]
    norm_num
  · rw [round_to_float_of _ (-1) 8388609 (by norm_num [abs_of_pos])
      (by norm_num [abs_of_pos]) (by norm_num) (by norm_num) (by norm_num)]
    norm_num

/-- Counterexample to C13 as stated: the adjacent `float` ratios `R1 = 0x1.fffffcp+0` and
`R2 = 0x1.fffffep+0`, with `1 ≤ R1 < R2`, have the same `float` reciprocal `0x1.000002p-1`;
configured on the kernel right after `dk_init` with threshold -24 dB and knee 30 dB they give
the same curve, so above the end of the knee the gain with `R2` is not smaller than the gain
with `R1`. -/
theorem adjacent_ratios_same_gain :
    (0 : ℚ) ≤ 30 ∧ (1 : ℚ) ≤ 8388607 / 4194304 ∧
    (8388607 / 4194304 : ℚ) < 16777215 / 8388608 ∧
    floatMath.roundf (1 / (8388607 / 4194304)) = 8388609 / 16777216 ∧
    floatMath.roundf (1 / (16777215 / 8388608)) = 8388609 / 16777216 ∧
    (update_static_curve_parameters floatMath example_kernel (-24) 30
      (8388607 / 4194304)).knee_threshold < 2 ∧
    ¬ volume_gain floatMath
        (update_static_curve_parameters floatMath example_kernel (-24) 30
          (16777215 / 8388608)) 2 <
      volume_gain floatMath
        (update_static_curve_parameters floatMath example_kernel (-24) 30
          (8388607 / 4194304)) 2 := by
  have hc : ∀ r : ℚ, (-24 : ℚ) ≠ example_kernel.db_threshold ∨
      (30 : ℚ) ≠ example_kernel.db_knee ∨ r ≠ example_kernel.ratio := fun r =>
    Or.inl (by
      have : example_kernel.db_threshold = -1 := rfl
      rw [this]; norm_num)
  have hu : ∀ r : ℚ, update_static_curve_parameters floatMath example_kernel (-24) 30 r =
      compute_static_curve floatMath example_kernel (-24) 30 r := fun r => by
    rw [update_static_eq, if_pos (hc r)]
  have hkt : (compute_static_curve floatMath example_kernel (-24) 30
      (8388607 / 4194304)).knee_threshold = floatMath.decibels_to_linear (-24 + 30) := rfl
  have heq := same_reciprocal_same_gain floatMath
    (compute_static_curve floatMath example_kernel (-24) 30 (16777215 / 8388608))
    (compute_static_curve floatMath example_kernel (-24) 30 (8388607 / 4194304))
    (compute_static_curve_computed floatMath example_kernel (-24) 30 _)
    (compute_static_curve_computed floatMath example_kernel (-24) 30 _) rfl rfl
    (float_reciprocal_example.2.trans float_reciprocal_example.1.symm) 2
  refine ⟨by norm_num, by norm_num, by norm_num, float_reciprocal_example.1,
    float_reciprocal_example.2, ?_, ?_⟩
  · rw [hu, hkt]
    simp only [floatMath, testMath]
    norm_num
  · rw [hu, hu, heq]
    exact lt_irrefl _

/-- Over the reals the sharper ratio compresses more above the end of the knee. -/
theorem exact_ratio_compression (m : DrcMath ℝ) (hm : ExactMath m)
    (dk1 dk2 d1 d2 : drc_kernel ℝ C) (hr1 : Reachable m dk1) (hr2 : Reachable m dk2)
    (db_threshold db_knee R1 R2 : ℝ) (hk : 0 ≤ db_knee) (hR1 : 1 ≤ R1) (hR : R1 < R2)
    (hd1 : d1 = update_static_curve_parameters m dk1 db_threshold db_knee R1)
    (hd2 : d2 = update_static_curve_parameters m dk2 db_threshold db_knee R2) (x : ℝ)
    (hx : d1.knee_threshold < x) :
    d2.knee_threshold = d1.knee_threshold ∧ volume_gain m d2 x < volume_gain m d1 x := by
  obtain ⟨hc1, hl1, ht1, hs1, hK1⟩ :=
    exact_curve_of_update m hm dk1 hr1 db_threshold db_knee R1 hk
  obtain ⟨hc2, hl2, ht2, hs2, hK2⟩ :=
    exact_curve_of_update m hm dk2 hr2 db_threshold db_knee R2 hk
  obtain ⟨a1, a2, -, -⟩ := update_static_cached m dk1 db_threshold db_knee R1
  obtain ⟨b1, b2, -, -⟩ := update_static_cached m dk2 db_threshold db_knee R2
  rw [← hd1] at hc1 hl1 ht1 hs1 hK1 a1 a2
  rw [← hd2] at hc2 hl2 ht2 hs2 hK2 b1 b2
  have hR1pos : 0 < R1 := lt_of_lt_of_le one_pos hR1
  have hR2pos : 0 < R2 := lt_trans hR1pos hR
  have hT : d2.knee_threshold = d1.knee_threshold := by rw [ht1, ht2]
  have hLeq : d2.linear_threshold = d1.linear_threshold := by rw [hl1, hl2]
  have hT1 : 0 < d1.knee_threshold := lt_of_lt_of_le hc1.1 hc1.2.1
  have hx0 : 0 < x := lt_trans hT1 hx
  -- the sharper ratio gets the larger K
  have hslope : 1 / R2 < 1 / R1 := one_div_lt_one_div_of_lt hR1pos hR
  have hKle : d1.K ≤ d2.K := by
    rw [hK1, hK2, k_at_slope_congr m d2 d1 hLeq (b1.symm.trans a1) (b2.symm.trans a2)]
    exact k_at_slope_mono m hm d1 _ _ hslope.le
  have hK1pos : 0 < d1.K := by
    rw [hK1]
    exact lt_of_lt_of_le (by norm_num) (k_at_slope_bounds m hm d1 (1 / R1)).1
  have hK2pos : 0 < d2.K := lt_of_lt_of_le hK1pos hKle
  -- so its knee ends no higher
  have hF : d2.linear_threshold +
        (1 - Real.exp (-d2.K * (d2.knee_threshold - d2.linear_threshold))) / d2.K ≤
      d1.linear_threshold +
        (1 - Real.exp (-d1.K * (d1.knee_threshold - d1.linear_threshold))) / d1.K := by
    rw [hT, hLeq]
    have := knee_rise_antitone_K d1.K d2.K (d1.knee_threshold - d1.linear_threshold)
      hK1pos hKle (sub_nonneg.mpr hc1.2.1)
    linarith
  have hF1 := knee_value_pos d1.linear_threshold d1.K d1.knee_threshold hc1.1 hK1pos hc1.2.1
  have hF2 := knee_value_pos d2.linear_threshold d2.K d2.knee_threshold hc2.1 hK2pos hc2.2.1
  -- and the power law falls faster
  have hbase : 1 < x / d1.knee_threshold := by rw [one_lt_div hT1]; exact hx
  have hρ : d2.knee_threshold ^ (-d2.slope) * x ^ (d2.slope - 1) <
      d1.knee_threshold ^ (-d1.slope) * x ^ (d1.slope - 1) := by
    rw [hT, power_factor_eq _ _ _ hT1 hx0, power_factor_eq _ _ _ hT1 hx0, hs1, hs2]
    exact mul_lt_mul_of_pos_right (Real.rpow_lt_rpow_of_exponent_lt hbase hslope)
      (inv_pos.mpr hx0)
  have hρ2 : 0 < d2.knee_threshold ^ (-d2.slope) * x ^ (d2.slope - 1) :=
    mul_pos (Real.rpow_pos_of_pos (hT ▸ hT1) _) (Real.rpow_pos_of_pos hx0 _)
  refine ⟨hT, ?_⟩
  rw [exact_gain_power m hm d2 hc2 x (by rw [hT]; exact hx.le),
    exact_gain_power m hm d1 hc1 x hx.le]
  exact lt_of_le_of_lt (mul_le_mul_of_nonneg_right hF hρ2.le) (mul_lt_mul_of_pos_left hρ hF1)

theorem update_static_computed (m : DrcMath α) (dk : drc_kernel α C) (hr : Reachable m dk)
    (t k r : α) (hk : 0 ≤ k) : CurveComputed m (update_static_curve_parameters m dk t k r) := by
  have hinv := update_static_curve_inv m dk t k r (reachable_curve m dk hr)
  obtain ⟨-, u2, -, -⟩ := update_static_cached m dk t k r
  rcases hinv with h | h
  · exfalso
    rw [← u2, uninitialized_value] at h
    linarith
  · exact h

/-- C13, amended (more ratio, more compression). For the same `db_threshold` and
`db_knee ≥ 0` and ratios `R2 > R1 ≥ 1`, each configured by `update_static_curve_parameters`
on a reachable kernel (with `K` the result of the 15-step bisection of `k_at_slope` in each
case), and every `x` above `knee_threshold`: the curve depends on the ratio through the
rounded reciprocal only, so when the two reciprocals round to the same `float` the two gains
are equal, with any math library; in exact real arithmetic, in which the reciprocal and the
math library are not rounded, the two curves have the same `knee_threshold` and the gain with
`R2` is smaller than the gain with `R1`. -/
theorem more_ratio_more_compression (m : DrcMath ℝ)
    (dk1 dk2 d1 d2 : drc_kernel ℝ C) (hr1 : Reachable m dk1) (hr2 : Reachable m dk2)
    (db_threshold db_knee R1 R2 : ℝ) (hk : 0 ≤ db_knee) (hR1 : 1 ≤ R1) (hR : R1 < R2)
    (hd1 : d1 = update_static_curve_parameters m dk1 db_threshold db_knee R1)
    (hd2 : d2 = update_static_curve_parameters m dk2 db_threshold db_knee R2) (x : ℝ)
    (hx : d1.knee_threshold < x) :
    (m.roundf (1 / R2) = m.roundf (1 / R1) → volume_gain m d2 x = volume_gain m d1 x) ∧
    (ExactMath m →
      d2.knee_threshold = d1.knee_threshold ∧ volume_gain m d2 x < volume_gain m d1 x) := by
  refine ⟨fun hrr => ?_, fun hm =>
    exact_ratio_compression m hm dk1 dk2 d1 d2 hr1 hr2 db_threshold db_knee R1 R2 hk hR1 hR
      hd1 hd2 x hx⟩
  have c1 := update_static_computed m dk1 hr1 db_threshold db_knee R1 hk
  have c2 := update_static_computed m dk2 hr2 db_threshold db_knee R2 hk
  obtain ⟨a1, a2, a3, -⟩ := update_static_cached m dk1 db_threshold db_knee R1
  obtain ⟨b1, b2, b3, -⟩ := update_static_cached m dk2 db_threshold db_knee R2
  rw [← hd1] at c1 a1 a2 a3
  rw [← hd2] at c2 b1 b2 b3
  exact same_reciprocal_same_gain m d2 d1 c2 c1 (b1.symm.trans a1) (b2.symm.trans a2)
    (by rw [← a3, ← b3]; exact hrr) x

/-- Witness for C13, amended: threshold -24 dB, knee 30 dB, ratios 4 and 12, one unit above
the end of the knee, in exact real arithmetic. -/
theorem more_ratio_more_compression_witness :
    ∃ m : DrcMath ℝ, ExactMath m ∧ (0 : ℝ) ≤ 30 ∧ (1 : ℝ) ≤ 4 ∧ (4 : ℝ) < 12 ∧
      volume_gain m
        (update_static_curve_parameters m (dk_init (zero_kernel : drc_kernel ℝ 2) 48000)
          (-24) 30 12)
        ((update_static_curve_parameters m (dk_init (zero_kernel : drc_kernel ℝ 2) 48000)
          (-24) 30 4).knee_threshold + 1) <
      volume_gain m
        (update_static_curve_parameters m (dk_init (zero_kernel : drc_kernel ℝ 2) 48000)
          (-24) 30 4)
        ((update_static_curve_parameters m (dk_init (zero_kernel : drc_kernel ℝ 2) 48000)
          (-24) 30 4).knee_threshold + 1) := by
  obtain ⟨M, hM⟩ := exact_math_exists
  have h30 : (0 : ℝ) ≤ 30 := by norm_num
  have h4 : (1 : ℝ) ≤ 4 := by norm_num
  have h12 : (4 : ℝ) < 12 := by norm_num
  exact ⟨M, hM, h30, h4, h12, ((more_ratio_more_compression M
    (dk_init (zero_kernel : drc_kernel ℝ 2) 48000)
    (dk_init (zero_kernel : drc_kernel ℝ 2) 48000) _ _ (Reachable.init zero_kernel 48000)
    (Reachable.init zero_kernel 48000) (-24) 30 4 12 h30 h4 h12 rfl rfl _
    (lt_add_one _)).2 hM).2⟩

theorem loop_frame_silent (m : DrcMath α) (dk : drc_kernel α C)
    (hz : ∀ j s, s < 1024 → dk.pre_delay_buffers j s = 0)
    (hr : dk.pre_delay_read_index < 1024) :
    (∀ j s, s < 1024 → (loop_frame m dk 0).1.pre_delay_buffers j s = 0) ∧
    (loop_frame m dk 0).1.pre_delay_read_index < 1024 ∧
    ∀ j, (loop_frame m dk 0).2 j = 0 := by
  obtain ⟨h1, h2, -, -, -, -, h7⟩ := loop_frame_spec m dk 0
  have hs : ∀ j s, s < 1024 →
      ring_store dk.pre_delay_buffers dk.pre_delay_write_index (0 : Frame α C) j s = 0 := by
    intro j s hs
    simp only [ring_store, Function.update_apply, Pi.zero_apply]
    split
    · rfl
    · exact hz j s hs
  refine ⟨?_, ?_, ?_⟩
  · intro j s hs'
    rw [h1]; exact hs j s hs'
  · rw [h2]; exact Nat.mod_lt _ (by norm_num)
  · intro j
    rw [h7]
    simp only [hs j _ hr, zero_mul]

theorem loop_run_silent (m : DrcMath α) (xs : List (Frame α C)) (dk : drc_kernel α C)
    (hin : ∀ f ∈ xs, f = 0) (hz : ∀ j s, s < 1024 → dk.pre_delay_buffers j s = 0)
    (hr : dk.pre_delay_read_index < 1024) :
    (∀ j s, s < 1024 → (run_frames (loop_frame m) dk xs).1.pre_delay_buffers j s = 0) ∧
    (run_frames (loop_frame m) dk xs).1.pre_delay_read_index < 1024 ∧
    ∀ f ∈ (run_frames (loop_frame m) dk xs).2, ∀ j, f j = 0 := by
  induction xs generalizing dk with
  | nil => exact ⟨hz, hr, fun f hf => by simp [run_frames] at hf⟩
  | cons x xs ih =>
    have hx : x = 0 := hin x (List.mem_cons_self _ _)
    subst hx
    obtain ⟨s1, s2, s3⟩ := loop_frame_silent m dk hz hr
    obtain ⟨i1, i2, i3⟩ := ih (loop_frame m dk 0).1
      (fun f hf => hin f (List.mem_cons_of_mem _ hf)) s1 s2
    refine ⟨i1, i2, ?_⟩
    intro f hf
    simp only [run_frames, List.mem_cons] at hf
    rcases hf with rfl | hf
    · exact s3
    · exact i3 f hf

theorem calls_silent (m : DrcMath α) (blocks : List (List (Frame α C)))
    (dk : drc_kernel α C) (hen : dk.enabled ≠ 0) (hin : ∀ b ∈ blocks, ∀ f ∈ b, f = 0)
    (hz : ∀ j s, s < 1024 → dk.pre_delay_buffers j s = 0)
    (hr : dk.pre_delay_read_index < 1024) :
    (dk_process_calls m dk blocks).2.length = blocks.flatten.length ∧
    ∀ f ∈ (dk_process_calls m dk blocks).2, ∀ j, f j = 0 := by
  induction blocks generalizing dk with
  | nil => exact ⟨rfl, fun f hf => by simp [dk_process_calls] at hf⟩
  | cons b bs ih =>
    obtain ⟨s1, s2, s3⟩ := loop_run_silent m b dk (hin b (List.mem_cons_self _ _)) hz hr
    have hen1 : (run_frames (loop_frame m) dk b).1.enabled ≠ 0 := by
      rw [loop_run_enabled]; exact hen
    obtain ⟨i1, i2⟩ := ih (run_frames (loop_frame m) dk b).1 hen1
      (fun c hc => hin c (List.mem_cons_of_mem _ hc)) s1 s2
    have e : (dk_process_calls m dk (b :: bs)).2 =
        (run_frames (loop_frame m) dk b).2 ++
          (dk_process_calls m (run_frames (loop_frame m) dk b).1 bs).2 := by
      simp only [dk_process_calls, dk_process_enabled m dk hen]
    rw [e]
    refine ⟨by rw [List.length_append, i1, run_frames_length, List.flatten_cons,
      List.length_append], ?_⟩
    intro f hf
    rcases List.mem_append.mp hf with h | h
    · exact s3 f h
    · exact i2 f h

/-- C14 (silence in, silence out). With the kernel enabled, all 1024 slots of every channel
buffer zero (as after `dk_init` or a pre-delay reconfiguration) and the read index inside the
buffer, any number of all-zero input frames, in any chunking into `dk_process` calls and for
any parameters, gives as many output frames, every sample of which is exactly 0. -/
theorem silence_in_silence_out (m : DrcMath α) (dk : drc_kernel α C)
    (blocks : List (List (Frame α C))) (hen : dk.enabled ≠ 0)
    (hzero : ∀ j s, s < MAX_PRE_DELAY_FRAMES → dk.pre_delay_buffers j s = 0)
    (hr : dk.pre_delay_read_index < MAX_PRE_DELAY_FRAMES)
    (hin : ∀ b ∈ blocks, ∀ f ∈ b, f = 0) :
    (dk_process_calls m dk blocks).2.length = blocks.flatten.length ∧
    ∀ f ∈ (dk_process_calls m dk blocks).2, ∀ j : Fin C, f j = 0 :=
  calls_silent m blocks dk hen hin hzero hr

/-- Witness for C14: the enabled example kernel fed three silent frames in two calls. -/
theorem silence_in_silence_out_witness :
    example_enabled_kernel.enabled ≠ 0 ∧
    (dk_process_calls testMath example_enabled_kernel [[0], [0, 0]]).2.length =
      ([[0], [0, 0]] : List (List (Frame ℚ 2))).flatten.length :=
  ⟨by decide, (silence_in_silence_out testMath example_enabled_kernel [[0], [0, 0]]
    (by decide) (fun _ _ _ => rfl) (by decide) (by
      intro b hb f hf
      simp only [List.mem_cons, List.mem_singleton, List.not_mem_nil, or_false] at hb
      rcases hb with rfl | rfl
      · simpa using hf
      · simpa using hf)).1⟩

theorem sanitized (m : DrcMath α) (h1 : m.isbadf 1 = false) (v : α) :
    m.isbadf (if m.isbadf v then 1 else min v 1) = false ∧
      (if m.isbadf v then 1 else min v 1) ≤ 1 := by
  by_cases hb : m.isbadf v = true
  · simp only [hb, if_true]
    exact ⟨h1, le_rfl⟩
  · simp only [hb]
    refine ⟨?_, min_le_right _ _⟩
    rcases le_total v 1 with h | h
    · rw [min_eq_left h]; simpa using hb
    · rw [min_eq_right h]; exact h1

theorem loop_frame_detector (m : DrcMath α) (dk : drc_kernel α C) (x : Frame α C) :
    ∃ v, (loop_frame m dk x).1.detector_average = if m.isbadf v then 1 else min v 1 :=
  ⟨_, rfl⟩

/-- C15 (detector sanitising). With `isbadf` the test for a non-finite value, which `1.0`
passes: for every kernel state, configuration and input, after the enabled `dk_process` has
processed at least one frame, `detector_average` passes the test and is at most 1; each
frame stores 1 when the value it computed fails the test and the minimum of that value and 1
otherwise. -/
theorem detector_sanitised (m : DrcMath α) (dk : drc_kernel α C) (frames : List (Frame α C))
    (hen : dk.enabled ≠ 0) (hne : frames ≠ []) (h1 : m.isbadf 1 = false) :
    m.isbadf (dk_process m dk frames).1.detector_average = false ∧
    (dk_process m dk frames).1.detector_average ≤ 1 ∧
    ∃ v, (dk_process m dk frames).1.detector_average = if m.isbadf v then 1 else min v 1 := by
  have e : frames = frames.dropLast ++ [frames.getLast hne] :=
    (List.dropLast_append_getLast hne).symm
  have hrun : (dk_process m dk frames).1 =
      (loop_frame m (run_frames (loop_frame m) dk frames.dropLast).1 (frames.getLast hne)).1 := by
    rw [dk_process_enabled m dk hen]
    conv_lhs => rw [e, run_frames_append]
    rfl
  obtain ⟨v, hv⟩ := loop_frame_detector m
    (run_frames (loop_frame m) dk frames.dropLast).1 (frames.getLast hne)
  rw [hrun, hv]
  exact ⟨(sanitized m h1 v).1, (sanitized m h1 v).2, v, rfl⟩

/-- Witness for C15: the enabled example kernel after the example block. -/
theorem detector_sanitised_witness :
    example_enabled_kernel.enabled ≠ 0 ∧ example_block ≠ [] ∧ testMath.isbadf 1 = false ∧
    (dk_process testMath example_enabled_kernel example_block).1.detector_average ≤ 1 :=
  ⟨by decide, by simp [example_block], rfl,
    (detector_sanitised testMath example_enabled_kernel example_block (by decide)
      (by simp [example_block]) rfl).2.1⟩

theorem curve_computed_congr (m : DrcMath α) (d d1 : drc_kernel α C)
    (h : curve_of d = curve_of d1) (hd : CurveComputed m d) : CurveComputed m d1 := by
  simp only [curve_of, Prod.mk.injEq] at h
  obtain ⟨e1, e2, e3, e4, e5, e6, e7, e8, e9, e10⟩ := h
  obtain ⟨c1, c2, c3, c4, c5, c6, c7⟩ := hd
  unfold CurveComputed
  rw [← k_at_slope_congr m d d1 e4 e1 e2, ← knee_curve_congr m d d1 e4,
    ← e1, ← e2, ← e3, ← e4, ← e5, ← e6, ← e7, ← e8, ← e9, ← e10]
  exact ⟨c1, c2, c3, c4, c5, c6, c7⟩

/-- Counterexample to C16 as stated: right after `dk_init`, `dk_set_parameters` with
`db_threshold = db_knee = ratio = -1` finds its arguments equal to the cached values and
computes nothing: `linear_threshold`, `K`, `knee_threshold` and `ratio_base` still hold the
-1 written by `dk_init`, while `decibels_to_linear(-1)` is not -1. -/
theorem first_configuration_skipped :
    ∃ d : drc_kernel ℚ 2,
      dk_set_parameters testMath (dk_init zero_kernel 48000) (-1) (-1) (-1) 0.003 0.25 0.006 0
        0.09 0.16 0.42 0.98 = some d ∧
      d.linear_threshold = -1 ∧ d.K = -1 ∧ d.knee_threshold = -1 ∧ d.ratio_base = -1 ∧
      testMath.decibels_to_linear (-1) ≠ -1 := by
  have hx : (0.006 : ℚ) * (dk_init (zero_kernel : drc_kernel ℚ 2) 48000).sample_rate =
      ((288 : ℕ) : ℚ) := by
    simp only [dk_init]; norm_num
  have hf : float_to_unsigned (testMath.roundf
      ((0.006 : ℚ) * (dk_init (zero_kernel : drc_kernel ℚ 2) 48000).sample_rate)) =
      some 288 := by
    change float_to_unsigned
      ((0.006 : ℚ) * (dk_init (zero_kernel : drc_kernel ℚ 2) 48000).sample_rate) = some 288
    rw [hx, float_to_unsigned, Nat.floor_natCast, if_pos (by norm_num)]
  have hu : update_static_curve_parameters testMath
      (dk_init (zero_kernel : drc_kernel ℚ 2) 48000) (-1) (-1) (-1) =
      dk_init zero_kernel 48000 := by
    rw [update_static_eq, if_neg]
    simp [dk_init, uninitialized_value]
  refine ⟨_, by rw [dk_set_parameters_eq, hf, hu]; rfl, ?_, ?_, ?_, ?_, ?_⟩
  · rfl
  · rfl
  · rfl
  · rfl
  · simp only [testMath]; norm_num

/-- C16, amended: when at least one of `db_threshold`, `db_knee`, `ratio` differs from -1,
the first `dk_set_parameters` call after `dk_init` that returns has performed the full
static-curve computation: the three parameters are stored and `linear_threshold`, `slope`,
`K`, `knee_alpha`, `knee_beta`, `knee_threshold` and `ratio_base` hold the values computed
from them. -/
theorem first_configuration_computed (m : DrcMath α) (dk0 d : drc_kernel α C)
    (sample_rate db_threshold db_knee ratio attack_time release_time pre_delay_time
      db_post_gain releaseZone1 releaseZone2 releaseZone3 releaseZone4 : α)
    (hne : db_threshold ≠ -1 ∨ db_knee ≠ -1 ∨ ratio ≠ -1)
    (hs : dk_set_parameters m (dk_init dk0 sample_rate) db_threshold db_knee ratio attack_time
      release_time pre_delay_time db_post_gain releaseZone1 releaseZone2 releaseZone3
      releaseZone4 = some d) :
    d.db_threshold = db_threshold ∧ d.db_knee = db_knee ∧ d.ratio = ratio ∧
    d.linear_threshold = m.decibels_to_linear db_threshold ∧
    d.slope = m.roundf (1 / ratio) ∧
    d.K = k_at_slope m d (m.roundf (1 / ratio)) ∧
    d.knee_alpha = d.linear_threshold + 1 / d.K ∧
    d.knee_beta = -m.expf (d.K * d.linear_threshold) / d.K ∧
    d.knee_threshold = m.decibels_to_linear (db_threshold + db_knee) ∧
    d.ratio_base =
      knee_curve m d d.knee_threshold d.K * m.powf d.knee_threshold (-d.slope) := by
  rw [dk_set_parameters_eq] at hs
  obtain ⟨n, -, rfl⟩ := Option.map_eq_some'.mp hs
  have hc : db_threshold ≠ (dk_init dk0 sample_rate).db_threshold ∨
      db_knee ≠ (dk_init dk0 sample_rate).db_knee ∨
      ratio ≠ (dk_init dk0 sample_rate).ratio := hne
  have hu : update_static_curve_parameters m (dk_init dk0 sample_rate) db_threshold db_knee
      ratio = compute_static_curve m (dk_init dk0 sample_rate) db_threshold db_knee ratio := by
    rw [update_static_eq, if_pos hc]
  rw [hu]
  have hcomp := compute_static_curve_computed m (dk_init dk0 sample_rate) db_threshold db_knee
    ratio
  have hcurve : curve_of (compute_static_curve m (dk_init dk0 sample_rate) db_threshold
      db_knee ratio) =
      curve_of (set_pre_delay_frames (set_timing m (compute_static_curve m
        (dk_init dk0 sample_rate) db_threshold db_knee ratio) (dk_init dk0 sample_rate).sample_rate
        attack_time release_time db_post_gain releaseZone1 releaseZone2 releaseZone3
        releaseZone4) n) := by
    rw [curve_of_set_pre_delay_frames, curve_of_set_timing]
  have hfin := curve_computed_congr m _ _ hcurve hcomp
  generalize set_pre_delay_frames (set_timing m (compute_static_curve m
    (dk_init dk0 sample_rate) db_threshold db_knee ratio) (dk_init dk0 sample_rate).sample_rate
    attack_time release_time db_post_gain releaseZone1 releaseZone2 releaseZone3
    releaseZone4) n = d at hcurve hfin ⊢
  simp only [curve_of, Prod.mk.injEq] at hcurve
  obtain ⟨e1, e2, e3, -⟩ := hcurve
  have f1 : d.db_threshold = db_threshold := e1.symm
  have f2 : d.db_knee = db_knee := e2.symm
  have f3 : d.ratio = ratio := e3.symm
  obtain ⟨c1, c2, c3, c4, c5, c6, c7⟩ := hfin
  rw [f1] at c1 c6
  rw [f2] at c6
  rw [f3] at c2 c3
  exact ⟨f1, f2, f3, c1, c2, c3, c4, c5, c6, c7⟩

/-- Witness for C16, amended: threshold -24 dB, knee 30 dB, ratio 12 right after `dk_init`. -/
theorem first_configuration_computed_witness :
    ∃ d : drc_kernel ℚ 2,
      dk_set_parameters testMath (dk_init zero_kernel 48000) (-24) 30 12 0.003 0.25 0.006 0
        0.09 0.16 0.42 0.98 = some d ∧
      d.db_threshold = -24 ∧ d.linear_threshold = testMath.decibels_to_linear (-24) := by
  have hx : (0.006 : ℚ) * (dk_init (zero_kernel : drc_kernel ℚ 2) 48000).sample_rate =
      ((288 : ℕ) : ℚ) := by
    simp only [dk_init]; norm_num
  have hf : float_to_unsigned (testMath.roundf
      ((0.006 : ℚ) * (dk_init (zero_kernel : drc_kernel ℚ 2) 48000).sample_rate)) =
      some 288 := by
    change float_to_unsigned
      ((0.006 : ℚ) * (dk_init (zero_kernel : drc_kernel ℚ 2) 48000).sample_rate) = some 288
    rw [hx, float_to_unsigned, Nat.floor_natCast, if_pos (by norm_num)]
  have hs : dk_set_parameters testMath (dk_init (zero_kernel : drc_kernel ℚ 2) 48000) (-24) 30
      12 0.003 0.25 0.006 0 0.09 0.16 0.42 0.98 = some (set_pre_delay_frames
        (set_timing testMath (update_static_curve_parameters testMath
          (dk_init (zero_kernel : drc_kernel ℚ 2) 48000) (-24) 30 12)
          (dk_init (zero_kernel : drc_kernel ℚ 2) 48000).sample_rate 0.003 0.25 0
          0.09 0.16 0.42 0.98) 288) := by
    rw [dk_set_parameters_eq, hf]; rfl
  have h := first_configuration_computed testMath zero_kernel _ 48000 (-24) 30 12 0.003 0.25
    0.006 0 0.09 0.16 0.42 0.98 (Or.inl (by norm_num)) hs
  exact ⟨_, hs, h.1, h.2.2.2.1⟩

theorem update_envelope_release (m : DrcMath α) (dk : drc_kernel α C)
    (h : m.warp_asinf dk.detector_average > dk.compressor_gain) :
    (dk_process_update_envelope m dk).envelope_rate =
        m.decibels_to_linear ((kSpacingDb : α) / release_duration dk (release_x m dk)) ∧
    (dk_process_update_envelope m dk).max_attack_compression_diff_db = none ∧
    (dk_process_update_envelope m dk).scaled_desired_gain = m.warp_asinf dk.detector_average ∧
    (dk_process_update_envelope m dk).compressor_gain = dk.compressor_gain := by
  simp only [dk_process_update_envelope, h, if_true]
  exact ⟨rfl, trivial, trivial, trivial⟩

theorem update_envelope_attack (m : DrcMath α) (dk : drc_kernel α C)
    (h : ¬ m.warp_asinf dk.detector_average > dk.compressor_gain) :
    (dk_process_update_envelope m dk).envelope_rate =
        1 - m.powf (0.25 / max 0.5 (attack_max m dk)) (1 / dk.attack_frames) ∧
    (dk_process_update_envelope m dk).max_attack_compression_diff_db =
        some (attack_max m dk) ∧
    (dk_process_update_envelope m dk).scaled_desired_gain = m.warp_asinf dk.detector_average ∧
    (dk_process_update_envelope m dk).compressor_gain = dk.compressor_gain := by
  simp only [dk_process_update_envelope, h, if_false]
  unfold attack_max compression_diff_db
  cases dk.max_attack_compression_diff_db <;> exact ⟨rfl, rfl, trivial, trivial⟩

theorem enabled_frame_gain (m : DrcMath α) (dk : drc_kernel α C) (x : Frame α C) :
    (enabled_frame m dk x).1.compressor_gain =
      if dk.envelope_rate < 1 then
        dk.compressor_gain + (dk.scaled_desired_gain - dk.compressor_gain) * dk.envelope_rate
      else min 1 (dk.compressor_gain * dk.envelope_rate) := rfl

theorem release_x_range (m : DrcMath α) (dk : drc_kernel α C) :
    0 ≤ release_x m dk ∧ release_x m dk ≤ 3 := by
  unfold release_x
  generalize (if m.isbadf (compression_diff_db m dk) then (-1 : α)
    else compression_diff_db m dk) = c
  have h1 : (-12 : α) ≤ min 0 (max (-12) c) := le_min (by norm_num) (le_max_left _ _)
  have h2 : min 0 (max (-12) c) ≤ 0 := min_le_left _ _
  constructor
  · have : (0 : α) ≤ min 0 (max (-12) c) + 12 := by linarith
    exact mul_nonneg (by norm_num) this
  · have e : (3 : α) = 0.25 * 12 := by norm_num
    rw [e]
    exact mul_le_mul_of_nonneg_left (by linarith) (by norm_num)

/-- Counterexample to C18 as stated: in exact real arithmetic, a kernel with `kA = -1` and
the other coefficients 0 has a release duration of -1 frames; with the compressor gain below
the warped detector value the release branch is taken and stores
`envelope_rate = 10^((5 / -1) / 20)`, which is below 1. -/
theorem release_rate_below_one :
    ∃ m : DrcMath ℝ, ExactMath m ∧
      m.warp_asinf ({ (zero_kernel : drc_kernel ℝ 2) with
          kA := -1, compressor_gain := m.warp_asinf 0 - 1 }).detector_average >
        ({ (zero_kernel : drc_kernel ℝ 2) with
          kA := -1, compressor_gain := m.warp_asinf 0 - 1 }).compressor_gain ∧
      (dk_process_update_envelope m
        ({ (zero_kernel : drc_kernel ℝ 2) with
            kA := -1, compressor_gain := m.warp_asinf 0 - 1 })).envelope_rate < 1 := by
  obtain ⟨M, hM⟩ := exact_math_exists
  have hrel : M.warp_asinf ({ (zero_kernel : drc_kernel ℝ 2) with
        kA := -1, compressor_gain := M.warp_asinf 0 - 1 }).detector_average >
      ({ (zero_kernel : drc_kernel ℝ 2) with
        kA := -1, compressor_gain := M.warp_asinf 0 - 1 }).compressor_gain :=
    show M.warp_asinf 0 - 1 < M.warp_asinf 0 by linarith
  refine ⟨M, hM, hrel, ?_⟩
  rw [(update_envelope_release M _ hrel).1, hM.2.2.2.2.2.1]
  have hd : release_duration ({ (zero_kernel : drc_kernel ℝ 2) with
      kA := -1, compressor_gain := M.warp_asinf 0 - 1 })
      (release_x M ({ (zero_kernel : drc_kernel ℝ 2) with
        kA := -1, compressor_gain := M.warp_asinf 0 - 1 })) = -1 := by
    simp [release_duration, zero_kernel]
  rw [hd]
  apply Real.rpow_lt_one_of_one_lt_of_neg (by norm_num)
  norm_num [kSpacingDb]

/-- C18, amended: in exact real arithmetic, for every kernel state in which
`dk_process_update_envelope` takes the release branch, the rescaled argument `x` lies in
`[0, 3]`, the running attack maximum is reset, and the stored `envelope_rate` is
`10^((5 / duration) / 20)` with `duration = kA + kB x + kC x² + kD x³ + kE x⁴`; whenever that
duration is positive, `envelope_rate ≥ 1` and the next frame uses the release update of the
compressor gain (multiply, cap at 1). -/
theorem release_rate_at_least_one (m : DrcMath ℝ) (hm : ExactMath m) (dk : drc_kernel ℝ C)
    (hrel : m.warp_asinf dk.detector_average > dk.compressor_gain)
    (hdur : 0 < release_duration dk (release_x m dk)) (x : Frame ℝ C) :
    0 ≤ release_x m dk ∧ release_x m dk ≤ 3 ∧
    (dk_process_update_envelope m dk).max_attack_compression_diff_db = none ∧
    (dk_process_update_envelope m dk).envelope_rate =
      (10 : ℝ) ^ ((5 / release_duration dk (release_x m dk)) / 20) ∧
    1 ≤ (dk_process_update_envelope m dk).envelope_rate ∧
    (enabled_frame m (dk_process_update_envelope m dk) x).1.compressor_gain =
      min 1 ((dk_process_update_envelope m dk).compressor_gain *
        (dk_process_update_envelope m dk).envelope_rate) := by
  obtain ⟨h1, h2, -, -⟩ := update_envelope_release m dk hrel
  obtain ⟨r1, r2⟩ := release_x_range m dk
  have hrate : (dk_process_update_envelope m dk).envelope_rate =
      (10 : ℝ) ^ ((5 / release_duration dk (release_x m dk)) / 20) := by
    rw [h1, hm.2.2.2.2.2.1]
    norm_num [kSpacingDb]
  have hge : 1 ≤ (dk_process_update_envelope m dk).envelope_rate := by
    rw [hrate]
    apply Real.one_le_rpow (by norm_num)
    exact div_nonneg (div_nonneg (by norm_num) hdur.le) (by norm_num)
  refine ⟨r1, r2, h2, hrate, hge, ?_⟩
  rw [enabled_frame_gain, if_neg (not_lt.mpr hge)]

/-- Witness for C18, amended: a release duration of one frame. -/
theorem release_rate_at_least_one_witness :
    ∃ m : DrcMath ℝ, ExactMath m ∧
      1 ≤ (dk_process_update_envelope m
        ({ (zero_kernel : drc_kernel ℝ 2) with
            kA := 1, compressor_gain := m.warp_asinf 0 - 1 })).envelope_rate := by
  obtain ⟨M, hM⟩ := exact_math_exists
  have hrel : M.warp_asinf ({ (zero_kernel : drc_kernel ℝ 2) with
        kA := 1, compressor_gain := M.warp_asinf 0 - 1 }).detector_average >
      ({ (zero_kernel : drc_kernel ℝ 2) with
        kA := 1, compressor_gain := M.warp_asinf 0 - 1 }).compressor_gain :=
    show M.warp_asinf 0 - 1 < M.warp_asinf 0 by linarith
  have hd : 0 < release_duration ({ (zero_kernel : drc_kernel ℝ 2) with
      kA := 1, compressor_gain := M.warp_asinf 0 - 1 })
      (release_x M ({ (zero_kernel : drc_kernel ℝ 2) with
        kA := 1, compressor_gain := M.warp_asinf 0 - 1 })) := by
    simp [release_duration, zero_kernel]
  exact ⟨M, hM, (release_rate_at_least_one M hM _ hrel hd 0).2.2.2.2.1⟩

theorem trace_zero (p : ℤ) : dk_process_trace p 0 = [] := by
  rw [dk_process_trace]; rfl

theorem trace_pos (p : ℤ) (count : ℕ) (h : count ≠ 0) :
    dk_process_trace p count =
      (p, min (32 - (p % 32).toNat) count) ::
        dk_process_trace (wrap_int (p + (min (32 - (p % 32).toNat) count : ℕ)))
          (count - min (32 - (p % 32).toNat) count) := by
  rw [dk_process_trace]
  simp only [h, if_false, int_bits_mask, DIVISION_FRAMES]

/-- The loop of `dk_process` performs exactly the iterations of its trace. -/
theorem dk_process_loop_trace (m : DrcMath α) (n : ℕ) :
    ∀ (frames : List (Frame α C)), frames.length ≤ n → ∀ (dk : drc_kernel α C) (p : ℤ),
      wrap_int p = p →
      dk_process_loop m dk p frames =
        ((run_trace m dk (dk_process_trace p frames.length) frames).1,
          wrap_int (p + frames.length),
          (run_trace m dk (dk_process_trace p frames.length) frames).2) := by
  induction n with
  | zero =>
    intro frames hlen dk p hp
    have : frames = [] := List.length_eq_zero.mp (Nat.le_zero.mp hlen)
    subst this
    rw [dk_process_loop, List.length_nil, trace_zero, Nat.cast_zero, add_zero, hp]
    rfl
  | succ n ih =>
    intro frames hlen dk p hp
    by_cases hnil : frames = []
    · subst hnil
      rw [dk_process_loop, List.length_nil, trace_zero, Nat.cast_zero, add_zero, hp]
      rfl
    · have hpos : 0 < frames.length := List.length_pos.mpr hnil
      have hoff : (p % 32).toNat < 32 := by omega
      rw [dk_process_loop, trace_pos p frames.length (by omega)]
      simp only [hnil, if_false, int_bits_mask, DIVISION_FRAMES, run_trace]
      generalize hf : min (32 - (p % 32).toNat) frames.length = f
      have hf1 : 1 ≤ f := by omega
      have hf2 : f ≤ frames.length := by omega
      have hrest := ih (frames.drop f) (by simp; omega)
        (dk_process_division m
          (if (p % 32).toNat = 0 then dk_process_update_envelope m dk else dk)
          (frames.take f)).1 (wrap_int (p + f)) (wrap_int_idem _)
      rw [hrest]
      simp only [List.length_drop]
      refine Prod.ext rfl (Prod.ext ?_ rfl)
      simp only
      rw [wrap_int_add]
      congr 1
      omega

theorem filter_inside_division (p : ℤ) (g : ℕ) (hf : (p % 32).toNat + (g + 1) ≤ 32) :
    (((List.range g).map Nat.succ).map (fun i : ℕ => wrap_int (p + i))).filter
      (fun q => q % 32 = 0) = [] := by
  rw [List.filter_eq_nil_iff]
  intro q hq
  simp only [List.map_map, List.mem_map, List.mem_range, Function.comp_apply] at hq
  obtain ⟨j, hj, rfl⟩ := hq
  simp only [decide_eq_true_eq]
  rw [wrap_int_mod]
  simp only [Nat.succ_eq_add_one, Nat.cast_add, Nat.cast_one]
  omega

/-- The fragments of a trace stay inside a division, are contiguous from `p` (as the wrapping
counter counts), add up to `count`, and the iterations that start on a division boundary are
the frame positions `i` in `[0, count)` at which the counter `p + i` is a multiple of 32, each
once. -/
theorem trace_props (n : ℕ) : ∀ count, count ≤ n → ∀ p : ℤ, wrap_int p = p →
    (∀ qf ∈ dk_process_trace p count, 1 ≤ qf.2 ∧ (qf.2 : ℤ) ≤ 32 - qf.1 % 32) ∧
    (∀ i, i < (dk_process_trace p count).length →
      ((dk_process_trace p count).getD i (0, 0)).1 =
        wrap_int (p + ((((dk_process_trace p count).take i).map Prod.snd).sum : ℕ))) ∧
    ((dk_process_trace p count).map Prod.snd).sum = count ∧
    ((dk_process_trace p count).map Prod.fst).filter (fun q => q % 32 = 0) =
      ((List.range count).map (fun i : ℕ => wrap_int (p + i))).filter
        (fun q => q % 32 = 0) := by
  induction n with
  | zero =>
    intro count hc p hp
    have : count = 0 := Nat.le_zero.mp hc
    subst this
    rw [trace_zero]
    simp
  | succ n ih =>
    intro count hc p hp
    by_cases h0 : count = 0
    · subst h0
      rw [trace_zero]
      simp
    · have hoff : (p % 32).toNat < 32 := by omega
      rw [trace_pos p count h0]
      generalize hf : min (32 - (p % 32).toNat) count = f
      have hf1 : 1 ≤ f := by omega
      have hf2 : f ≤ count := by omega
      have hf3 : (p % 32).toNat + f ≤ 32 := by omega
      have hp1 : wrap_int (wrap_int (p + f)) = wrap_int (p + f) := wrap_int_idem _
      obtain ⟨i1, i2, i3, i4⟩ := ih (count - f) (by omega) (wrap_int (p + f)) hp1
      refine ⟨?_, ?_, ?_, ?_⟩
      · intro qf hqf
        rcases List.mem_cons.mp hqf with rfl | h
        · exact ⟨hf1, by simp only; omega⟩
        · exact i1 qf h
      · intro i hi
        cases i with
        | zero => simp [hp]
        | succ i =>
          simp only [List.length_cons, Nat.add_lt_add_iff_right] at hi
          simp only [List.getD_cons_succ, List.take_succ_cons, List.map_cons, List.sum_cons]
          rw [i2 i hi, wrap_int_add]
          congr 1
          push_cast
          ring
      · simp only [List.map_cons, List.sum_cons, i3]
        omega
      · obtain ⟨g, rfl⟩ : ∃ g, f = g + 1 := ⟨f - 1, by omega⟩
        have hr : List.range count =
            0 :: ((List.range g).map Nat.succ ++
              (List.range (count - (g + 1))).map (fun i => g + 1 + i)) := by
          have e1 : count = g + 1 + (count - (g + 1)) := by omega
          conv_lhs => rw [e1, List.range_add, List.range_succ_eq_map]
          rfl
        have hshift : ((List.range (count - (g + 1))).map (fun i => g + 1 + i)).map
              (fun i : ℕ => wrap_int (p + i)) =
            (List.range (count - (g + 1))).map
              (fun i : ℕ => wrap_int (wrap_int (p + ((g + 1 : ℕ) : ℤ)) + i)) := by
          rw [List.map_map]
          apply List.map_congr_left
          intro i _
          simp only [Function.comp_apply]
          rw [wrap_int_add]
          congr 1
          push_cast
          ring
        have h0 : wrap_int (p + ((0 : ℕ) : ℤ)) = p := by
          rw [Nat.cast_zero, add_zero, hp]
        rw [hr, List.map_cons, List.map_cons, List.map_append, List.filter_cons,
          List.filter_cons, List.filter_append, filter_inside_division p g hf3,
          List.nil_append, hshift, ← i4, h0]

/-- After an enabled `dk_process` the counter has advanced by the number of frames, wrapping
around like an `int`. -/
theorem dk_process_processed (m : DrcMath α) (dk : drc_kernel α C) (frames : List (Frame α C))
    (hen : dk.enabled ≠ 0) (hp : wrap_int dk.processed = dk.processed) :
    (dk_process m dk frames).1.processed = wrap_int (dk.processed + frames.length) := by
  simp only [dk_process, hen, if_false]
  rw [dk_process_loop_trace m frames.length frames le_rfl dk dk.processed hp]

/-- Counterexample to C19 as stated: the enabled example kernel with
`processed = 2147483640`, a value an `int` can hold, returns from a block of 16 frames with
`processed = -2147483640`, which is not `p + count = 2147483656`. -/
theorem processed_wraps_around :
    (dk_process testMath (set_processed example_enabled_kernel 2147483640)
        (List.replicate 16 (fun _ => 0))).1.processed = -2147483640 ∧
    (dk_process testMath (set_processed example_enabled_kernel 2147483640)
        (List.replicate 16 (fun _ => 0))).1.processed ≠
      (set_processed example_enabled_kernel 2147483640).processed +
        (List.replicate 16 (fun _ => (0 : ℚ)) : List (Frame ℚ 2)).length := by
  have h := dk_process_processed testMath (set_processed example_enabled_kernel 2147483640)
    (List.replicate 16 (fun _ => 0)) (by decide) (by decide)
  have e : wrap_int ((set_processed example_enabled_kernel 2147483640).processed +
      ((List.replicate 16 (fun _ => (0 : ℚ)) : List (Frame ℚ 2)).length : ℕ)) =
      -2147483640 := by
    rw [set_processed_processed, List.length_replicate]
    decide
  rw [e] at h
  refine ⟨h, ?_⟩
  rw [h, set_processed_processed, List.length_replicate]
  decide

/-- C19, amended (the dispatcher partitions a block into division-aligned fragments). The
loop of the enabled `dk_process`, started with `processed = p` (any value of an `int`) on
`count` frames, is a total function and performs exactly the iterations of
`dk_process_trace p count`: each iteration that starts with the counter on a multiple of 32
runs `dk_process_update_envelope` before its fragment is processed. Every fragment `f`
satisfies `1 ≤ f ≤ 32 - (processed mod 32)`; fragment `i` starts with the counter at `p` plus
the sum of the fragments before it, wrapped into the range of `int`; the fragments add up to
`count`; the iterations that run `dk_process_update_envelope` are those of the frame
positions `i` in `[0, count)` at which the wrapped counter `p + i` is a multiple of 32, each
once; and `dk_process` returns with `processed = p + count` wrapped into the range of `int`,
which is `p + count` itself whenever `p + count < 2^31`. -/
theorem dispatcher_partition (m : DrcMath α) (dk : drc_kernel α C) (frames : List (Frame α C))
    (p : ℤ) (hen : dk.enabled ≠ 0) (hlo : -2 ^ 31 ≤ p) (hhi : p < 2 ^ 31) :
    dk_process_loop m dk p frames =
      ((run_trace m dk (dk_process_trace p frames.length) frames).1,
        wrap_int (p + frames.length),
        (run_trace m dk (dk_process_trace p frames.length) frames).2) ∧
    (∀ qf ∈ dk_process_trace p frames.length, 1 ≤ qf.2 ∧ (qf.2 : ℤ) ≤ 32 - qf.1 % 32) ∧
    (∀ i, i < (dk_process_trace p frames.length).length →
      ((dk_process_trace p frames.length).getD i (0, 0)).1 =
        wrap_int (p + ((((dk_process_trace p frames.length).take i).map Prod.snd).sum : ℕ))) ∧
    ((dk_process_trace p frames.length).map Prod.snd).sum = frames.length ∧
    ((dk_process_trace p frames.length).map Prod.fst).filter (fun q => q % 32 = 0) =
      ((List.range frames.length).map (fun i : ℕ => wrap_int (p + i))).filter
        (fun q => q % 32 = 0) ∧
    (dk.processed = p →
      (dk_process m dk frames).1.processed = wrap_int (p + frames.length) ∧
      (p + frames.length < 2 ^ 31 → (dk_process m dk frames).1.processed = p + frames.length) ∧
      (dk_process m dk frames).2 =
        (run_trace m dk (dk_process_trace p frames.length) frames).2) := by
  have hp : wrap_int p = p := wrap_int_of_range p hlo hhi
  obtain ⟨t1, t2, t3, t4⟩ := trace_props frames.length frames.length le_rfl p hp
  have hl := dk_process_loop_trace m frames.length frames le_rfl dk p hp
  refine ⟨hl, t1, t2, t3, t4, ?_⟩
  intro hdk
  subst hdk
  have hfin : (dk_process m dk frames).1.processed = wrap_int (dk.processed + frames.length) :=
    dk_process_processed m dk frames hen hp
  refine ⟨hfin, ?_, ?_⟩
  · intro hsum
    rw [hfin]
    exact wrap_int_of_range _ (by omega) hsum
  · simp only [dk_process, hen, if_false]
    rw [hl]

/-- Witness for C19, amended: the enabled example kernel on the example block. -/
theorem dispatcher_partition_witness :
    example_enabled_kernel.enabled ≠ 0 ∧ (-2 ^ 31 : ℤ) ≤ 0 ∧ (0 : ℤ) < 2 ^ 31 ∧
    (dk_process testMath example_enabled_kernel example_block).1.processed = 0 + 3 :=
  ⟨by decide, by decide, by decide,
    ((dispatcher_partition testMath example_enabled_kernel example_block 0
      (by decide) (by decide) (by decide)).2.2.2.2.2 rfl).2.1 (by decide)⟩

theorem small_combination (c1 c2 c3 c4 y1 y2 y3 y4 e : α) (h1 : |c1| ≤ e) (h2 : |c2| ≤ e)
    (h3 : |c3| ≤ e) (h4 : |c4| ≤ e) :
    |c1 * y1 + c2 * y2 + c3 * y3 + c4 * y4| ≤ e * (|y1| + |y2| + |y3| + |y4|) := by
  have a1 : |c1 * y1| ≤ e * |y1| := by
    rw [abs_mul]; exact mul_le_mul_of_nonneg_right h1 (abs_nonneg _)
  have a2 : |c2 * y2| ≤ e * |y2| := by
    rw [abs_mul]; exact mul_le_mul_of_nonneg_right h2 (abs_nonneg _)
  have a3 : |c3 * y3| ≤ e * |y3| := by
    rw [abs_mul]; exact mul_le_mul_of_nonneg_right h3 (abs_nonneg _)
  have a4 : |c4 * y4| ≤ e * |y4| := by
    rw [abs_mul]; exact mul_le_mul_of_nonneg_right h4 (abs_nonneg _)
  have b1 := abs_add (c1 * y1 + c2 * y2 + c3 * y3) (c4 * y4)
  have b2 := abs_add (c1 * y1 + c2 * y2) (c3 * y3)
  have b3 := abs_add (c1 * y1) (c2 * y2)
  linarith

theorem set_parameters_quartic (m : DrcMath α) (dk d : drc_kernel α C)
    (t k r at_ rt pt pg z1 z2 z3 z4 : α)
    (hs : dk_set_parameters m dk t k r at_ rt pt pg z1 z2 z3 z4 = some d) :
    d.kA = 0.9999999999999998 * (dk.sample_rate * rt * z1)
      + 1.8432219684323923e-16 * (dk.sample_rate * rt * z2)
      - 1.9373394351676423e-16 * (dk.sample_rate * rt * z3)
      + 8.824516011816245e-18 * (dk.sample_rate * rt * z4) ∧
    d.kB = -1.5788320352845888 * (dk.sample_rate * rt * z1)
      + 2.3305837032074286 * (dk.sample_rate * rt * z2)
      - 0.9141194204840429 * (dk.sample_rate * rt * z3)
      + 0.1623677525612032 * (dk.sample_rate * rt * z4) ∧
    d.kC = 0.5334142869106424 * (dk.sample_rate * rt * z1)
      - 1.272736789213631 * (dk.sample_rate * rt * z2)
      + 0.9258856042207512 * (dk.sample_rate * rt * z3)
      - 0.18656310191776226 * (dk.sample_rate * rt * z4) ∧
    d.kD = 0.08783463138207234 * (dk.sample_rate * rt * z1)
      - 0.1694162967925622 * (dk.sample_rate * rt * z2)
      + 0.08588057951595272 * (dk.sample_rate * rt * z3)
      - 0.00429891410546283 * (dk.sample_rate * rt * z4) ∧
    d.kE = -0.042416883008123074 * (dk.sample_rate * rt * z1)
      + 0.1115693827987602 * (dk.sample_rate * rt * z2)
      - 0.09764676325265872 * (dk.sample_rate * rt * z3)
      + 0.028494263462021576 * (dk.sample_rate * rt * z4) := by
  rw [dk_set_parameters_eq] at hs
  obtain ⟨n, -, rfl⟩ := Option.map_eq_some'.mp hs
  rw [set_pre_delay_frames_eq]
  split <;> exact ⟨rfl, rfl, rfl, rfl, rfl⟩

/-- C20 (the release quartic passes through its design points). With
`y_i = release_frames * releaseZone_i`, `release_frames = sample_rate * release_time`, and
`kA .. kE` as `dk_set_parameters` computes them from the decimal literals as written, the
polynomial that `dk_process_update_envelope` evaluates satisfies, in exact arithmetic,
`|P(i - 1) - y_i| ≤ 10⁻⁶ (|y1| + |y2| + |y3| + |y4|)` for `i = 1, 2, 3, 4`. -/
theorem release_quartic_through_points (m : DrcMath α) (dk d : drc_kernel α C)
    (db_threshold db_knee ratio attack_time release_time pre_delay_time db_post_gain
      releaseZone1 releaseZone2 releaseZone3 releaseZone4 y1 y2 y3 y4 : α)
    (hs : dk_set_parameters m dk db_threshold db_knee ratio attack_time release_time
      pre_delay_time db_post_gain releaseZone1 releaseZone2 releaseZone3 releaseZone4 = some d)
    (hy1 : y1 = dk.sample_rate * release_time * releaseZone1)
    (hy2 : y2 = dk.sample_rate * release_time * releaseZone2)
    (hy3 : y3 = dk.sample_rate * release_time * releaseZone3)
    (hy4 : y4 = dk.sample_rate * release_time * releaseZone4) :
    |release_duration d 0 - y1| ≤ 1e-6 * (|y1| + |y2| + |y3| + |y4|) ∧
    |release_duration d 1 - y2| ≤ 1e-6 * (|y1| + |y2| + |y3| + |y4|) ∧
    |release_duration d 2 - y3| ≤ 1e-6 * (|y1| + |y2| + |y3| + |y4|) ∧
    |release_duration d 3 - y4| ≤ 1e-6 * (|y1| + |y2| + |y3| + |y4|) := by
  obtain ⟨hA, hB, hC, hD, hE⟩ := set_parameters_quartic m dk d db_threshold db_knee ratio
    attack_time release_time pre_delay_time db_post_gain releaseZone1 releaseZone2
    releaseZone3 releaseZone4 hs
  rw [← hy1, ← hy2, ← hy3, ← hy4] at hA hB hC hD hE
  refine ⟨?_, ?_, ?_, ?_⟩
  · have e : release_duration d 0 - y1 =
        (0.9999999999999998 - 1) * y1 +
        (1.8432219684323923e-16) * y2 +
        ((-1.9373394351676423e-16)) * y3 +
        (8.824516011816245e-18) * y4 := by
      rw [release_duration, hA, hB, hC, hD, hE]
      ring
    rw [e]
    refine small_combination _ _ _ _ _ _ _ _ _ ?_ ?_ ?_ ?_ <;>
      (rw [abs_le]; constructor <;> norm_num)
  · have e : release_duration d 1 - y2 =
        (0.9999999999999998 + (-1.5788320352845888) * 1 + 0.5334142869106424 * 1 + 0.08783463138207234 * 1 + (-0.042416883008123074) * 1) * y1 +
        (1.8432219684323923e-16 + 2.3305837032074286 * 1 + (-1.272736789213631) * 1 + (-0.1694162967925622) * 1 + 0.1115693827987602 * 1 - 1) * y2 +
        ((-1.9373394351676423e-16) + (-0.9141194204840429) * 1 + 0.9258856042207512 * 1 + 0.08588057951595272 * 1 + (-0.09764676325265872) * 1) * y3 +
        (8.824516011816245e-18 + 0.1623677525612032 * 1 + (-0.18656310191776226) * 1 + (-0.00429891410546283) * 1 + 0.028494263462021576 * 1) * y4 := by
      rw [release_duration, hA, hB, hC, hD, hE]
      ring
    rw [e]
    refine small_combination _ _ _ _ _ _ _ _ _ ?_ ?_ ?_ ?_ <;>
      (rw [abs_le]; constructor <;> norm_num)
  · have e : release_duration d 2 - y3 =
        (0.9999999999999998 + (-1.5788320352845888) * 2 + 0.5334142869106424 * 4 + 0.08783463138207234 * 8 + (-0.042416883008123074) * 16) * y1 +
        (1.8432219684323923e-16 + 2.3305837032074286 * 2 + (-1.272736789213631) * 4 + (-0.1694162967925622) * 8 + 0.1115693827987602 * 16) * y2 +
        ((-1.9373394351676423e-16) + (-0.9141194204840429) * 2 + 0.9258856042207512 * 4 + 0.08588057951595272 * 8 + (-0.09764676325265872) * 16 - 1) * y3 +
        (8.824516011816245e-18 + 0.1623677525612032 * 2 + (-0.18656310191776226) * 4 + (-0.00429891410546283) * 8 + 0.028494263462021576 * 16) * y4 := by
      rw [release_duration, hA, hB, hC, hD, hE]
      ring
    rw [e]
    refine small_combination _ _ _ _ _ _ _ _ _ ?_ ?_ ?_ ?_ <;>
      (rw [abs_le]; constructor <;> norm_num)
  · have e : release_duration d 3 - y4 =
        (0.9999999999999998 + (-1.5788320352845888) * 3 + 0.5334142869106424 * 9 + 0.08783463138207234 * 27 + (-0.042416883008123074) * 81) * y1 +
        (1.8432219684323923e-16 + 2.3305837032074286 * 3 + (-1.272736789213631) * 9 + (-0.1694162967925622) * 27 + 0.1115693827987602 * 81) * y2 +
        ((-1.9373394351676423e-16) + (-0.9141194204840429) * 3 + 0.9258856042207512 * 9 + 0.08588057951595272 * 27 + (-0.09764676325265872) * 81) * y3 +
        (8.824516011816245e-18 + 0.1623677525612032 * 3 + (-0.18656310191776226) * 9 + (-0.00429891410546283) * 27 + 0.028494263462021576 * 81 - 1) * y4 := by
      rw [release_duration, hA, hB, hC, hD, hE]
      ring
    rw [e]
    refine small_combination _ _ _ _ _ _ _ _ _ ?_ ?_ ?_ ?_ <;>
      (rw [abs_le]; constructor <;> norm_num)

/-- Witness for C20: 48 kHz, release time 0.25 s, release zones 0.09, 0.16, 0.42, 0.98. -/
theorem release_quartic_through_points_witness :
    ∃ d : drc_kernel ℚ 2,
      dk_set_parameters testMath example_kernel (-24) 30 12 0.003 0.25 0.006 0
        0.09 0.16 0.42 0.98 = some d ∧
      |release_duration d 0 - example_kernel.sample_rate * 0.25 * 0.09| ≤
        1e-6 * (|example_kernel.sample_rate * 0.25 * 0.09| +
          |example_kernel.sample_rate * 0.25 * 0.16| +
          |example_kernel.sample_rate * 0.25 * 0.42| +
          |example_kernel.sample_rate * 0.25 * 0.98|) := by
  have hx : (0.006 : ℚ) * example_kernel.sample_rate = ((288 : ℕ) : ℚ) := by
    simp only [example_kernel, dk_init]; norm_num
  have hf : float_to_unsigned (testMath.roundf ((0.006 : ℚ) * example_kernel.sample_rate)) =
      some 288 := by
    change float_to_unsigned ((0.006 : ℚ) * example_kernel.sample_rate) = some 288
    rw [hx, float_to_unsigned, Nat.floor_natCast, if_pos (by norm_num)]
  have h0 : dk_set_parameters testMath example_kernel (-24) 30 12 0.003 0.25 0.006 0
      0.09 0.16 0.42 0.98 = some (set_pre_delay_frames
        (set_timing testMath (update_static_curve_parameters testMath example_kernel (-24) 30 12)
          example_kernel.sample_rate 0.003 0.25 0 0.09 0.16 0.42 0.98) 288) := by
    rw [dk_set_parameters_eq, hf]; rfl
  exact ⟨_, h0, (release_quartic_through_points testMath example_kernel _ (-24) 30 12 0.003
    0.25 0.006 0 0.09 0.16 0.42 0.98 _ _ _ _ h0 rfl rfl rfl rfl).1⟩

/-- The bracket of the bisection, with only the square root assumed exact; the other
functions of the math library, and with them `slope_at`, are arbitrary. -/
theorem k_loop_bracket_sqrt (m : DrcMath ℝ) (hsqrt : ∀ x, 0 ≤ x → m.sqrtf x = Real.sqrt x)
    (dk : drc_kernel ℝ C) (x ds : ℝ) (n : ℕ) : ∀ a b k : ℝ, 0 < a → a ≤ k → k ≤ b →
      a ≤ (k_at_slope_loop m dk x ds n (a, b, k)).1 ∧
      (k_at_slope_loop m dk x ds n (a, b, k)).1 ≤ (k_at_slope_loop m dk x ds n (a, b, k)).2.2 ∧
      (k_at_slope_loop m dk x ds n (a, b, k)).2.2 ≤
        (k_at_slope_loop m dk x ds n (a, b, k)).2.1 ∧
      (k_at_slope_loop m dk x ds n (a, b, k)).2.1 ≤ b := by
  induction n with
  | zero =>
    intro a b k _ hak hkb
    exact ⟨le_rfl, hak, hkb, le_rfl⟩
  | succ n ih =>
    intro a b k ha hak hkb
    have hk : 0 < k := lt_of_lt_of_le ha hak
    rw [k_at_slope_loop]
    by_cases hs : slope_at m dk x k < ds
    · simp only [hs, if_true]
      rw [hsqrt _ (mul_nonneg ha.le hk.le)]
      obtain ⟨s1, s2⟩ := sqrt_bracket a k ha hak
      obtain ⟨i1, i2, i3, i4⟩ := ih a k (Real.sqrt (a * k)) ha s1 s2
      exact ⟨i1, i2, i3, le_trans i4 hkb⟩
    · simp only [hs, if_false]
      rw [hsqrt _ (mul_nonneg hk.le (le_trans hk.le hkb))]
      obtain ⟨s1, s2⟩ := sqrt_bracket k b hk hkb
      obtain ⟨i1, i2, i3, i4⟩ := ih k b (Real.sqrt (k * b)) hk s1 s2
      exact ⟨le_trans hak i1, i2, i3, i4⟩

/-- C22 (the knee-sharpness search stays inside its bracket). With an exact square root and
whatever `slope_at` returns, for every curve state, every `x` and every desired slope, after
any number of iterations of the loop of `k_at_slope` (so throughout its 15 iterations)
`0.1 ≤ minK ≤ k ≤ maxK ≤ 10000`; the returned `K` lies in `[0.1, 10000]` and is positive;
and whenever `update_static_curve_parameters` recomputes the curve, the `K` it stores, by
which `knee_alpha` and `knee_beta` are divided, is in that range and not zero. -/
theorem knee_search_in_bracket (m : DrcMath ℝ)
    (hsqrt : ∀ x, 0 ≤ x → m.sqrtf x = Real.sqrt x) (dk : drc_kernel ℝ C)
    (desired_slope : ℝ) :
    (∀ (x : ℝ) (n : ℕ),
      0.1 ≤ (k_at_slope_loop m dk x desired_slope n (0.1, 10000, 5)).1 ∧
      (k_at_slope_loop m dk x desired_slope n (0.1, 10000, 5)).1 ≤
        (k_at_slope_loop m dk x desired_slope n (0.1, 10000, 5)).2.2 ∧
      (k_at_slope_loop m dk x desired_slope n (0.1, 10000, 5)).2.2 ≤
        (k_at_slope_loop m dk x desired_slope n (0.1, 10000, 5)).2.1 ∧
      (k_at_slope_loop m dk x desired_slope n (0.1, 10000, 5)).2.1 ≤ 10000) ∧
    0.1 ≤ k_at_slope m dk desired_slope ∧ k_at_slope m dk desired_slope ≤ 10000 ∧
    0 < k_at_slope m dk desired_slope ∧
    ∀ db_threshold db_knee ratio : ℝ,
      (db_threshold ≠ dk.db_threshold ∨ db_knee ≠ dk.db_knee ∨ ratio ≠ dk.ratio) →
      0.1 ≤ (update_static_curve_parameters m dk db_threshold db_knee ratio).K ∧
      (update_static_curve_parameters m dk db_threshold db_knee ratio).K ≤ 10000 ∧
      (update_static_curve_parameters m dk db_threshold db_knee ratio).K ≠ 0 := by
  have hloop : ∀ (d : drc_kernel ℝ C) (x ds : ℝ) (n : ℕ),
      0.1 ≤ (k_at_slope_loop m d x ds n (0.1, 10000, 5)).1 ∧
      (k_at_slope_loop m d x ds n (0.1, 10000, 5)).1 ≤
        (k_at_slope_loop m d x ds n (0.1, 10000, 5)).2.2 ∧
      (k_at_slope_loop m d x ds n (0.1, 10000, 5)).2.2 ≤
        (k_at_slope_loop m d x ds n (0.1, 10000, 5)).2.1 ∧
      (k_at_slope_loop m d x ds n (0.1, 10000, 5)).2.1 ≤ 10000 := fun d x ds n =>
    k_loop_bracket_sqrt m hsqrt d x ds n 0.1 10000 5 (by norm_num) (by norm_num) (by norm_num)
  have hK : ∀ (d : drc_kernel ℝ C) (ds : ℝ),
      0.1 ≤ k_at_slope m d ds ∧ k_at_slope m d ds ≤ 10000 := by
    intro d ds
    obtain ⟨i1, i2, i3, i4⟩ :=
      hloop d (m.decibels_to_linear (d.db_threshold + d.db_knee)) ds 15
    exact ⟨le_trans i1 i2, le_trans i3 i4⟩
  refine ⟨fun x n => hloop dk x desired_slope n, (hK dk desired_slope).1, (hK dk desired_slope).2,
    lt_of_lt_of_le (by norm_num) (hK dk desired_slope).1, ?_⟩
  intro t k r hc
  have hu : (update_static_curve_parameters m dk t k r).K =
      k_at_slope m (curve_stage1 m dk t k r) (m.roundf (1 / r)) := by
    rw [update_static_eq, if_pos hc]; rfl
  rw [hu]
  obtain ⟨b1, b2⟩ := hK (curve_stage1 m dk t k r) (m.roundf (1 / r))
  exact ⟨b1, b2, ne_of_gt (lt_of_lt_of_le (by norm_num) b1)⟩

/-- Witness for C22: the kernel right after `dk_init`, desired slope 1/12. -/
theorem knee_search_in_bracket_witness :
    ∃ m : DrcMath ℝ, (∀ x, 0 ≤ x → m.sqrtf x = Real.sqrt x) ∧
      0 < k_at_slope m (dk_init (zero_kernel : drc_kernel ℝ 2) 48000) (1 / 12) := by
  obtain ⟨M, hM⟩ := exact_math_exists
  exact ⟨M, hM.2.2.2.1, (knee_search_in_bracket M hM.2.2.2.1
    (dk_init (zero_kernel : drc_kernel ℝ 2) 48000) (1 / 12)).2.2.2.1⟩

theorem gain_inv_congr (d d1 : drc_kernel α C) (h : envelope_of d1 = envelope_of d)
    (hd : GainInv d) : GainInv d1 := by
  simp only [envelope_of, Prod.mk.injEq] at h
  obtain ⟨h1, h2, h3, h4, h5⟩ := h
  unfold GainInv
  rw [h1, h2, h3, h4, h5]
  exact hd

theorem envelope_of_set_parameters (m : DrcMath α) (dk dk1 : drc_kernel α C)
    (t k r at_ rt pt pg z1 z2 z3 z4 : α)
    (hs : dk_set_parameters m dk t k r at_ rt pt pg z1 z2 z3 z4 = some dk1) :
    envelope_of dk1 = envelope_of dk := by
  rw [dk_set_parameters_eq] at hs
  obtain ⟨n, -, rfl⟩ := Option.map_eq_some'.mp hs
  have h1 : envelope_of (update_static_curve_parameters m dk t k r) = envelope_of dk := by
    rw [update_static_eq]; split <;> rfl
  rw [← h1, set_pre_delay_frames_eq]
  split <;> rfl

theorem envelope_of_delay_run (dk : drc_kernel α C) (xs : List (Frame α C)) :
    envelope_of (run_frames delay_frame dk xs).1 = envelope_of dk :=
  run_frames_field delay_frame envelope_of (fun _ _ => rfl) dk xs

theorem attack_frames_delay_run (dk : drc_kernel α C) (xs : List (Frame α C)) :
    (run_frames delay_frame dk xs).1.attack_frames = dk.attack_frames :=
  run_frames_field delay_frame drc_kernel.attack_frames (fun _ _ => rfl) dk xs

theorem attack_frames_loop_frame (m : DrcMath α) (d : drc_kernel α C) (x : Frame α C) :
    (loop_frame m d x).1.attack_frames = d.attack_frames :=
  ((congrArg drc_kernel.attack_frames (with_runtime_loop_frame m d x) :
    (with_runtime d (loop_frame m d x).1).attack_frames =
      (loop_frame m d x).1.attack_frames)).symm

theorem update_envelope_detector (m : DrcMath α) (dk : drc_kernel α C) :
    (dk_process_update_envelope m dk).detector_average = dk.detector_average ∧
    (dk_process_update_envelope m dk).compressor_gain = dk.compressor_gain := by
  simp only [dk_process_update_envelope]
  split <;> exact ⟨rfl, rfl⟩

theorem enabled_frame_gain_le (m : DrcMath α) (d : drc_kernel α C) (x : Frame α C)
    (hc : d.compressor_gain ≤ 1) (hr : 0 < d.envelope_rate)
    (hs : d.scaled_desired_gain ≤ 1) : (enabled_frame m d x).1.compressor_gain ≤ 1 := by
  rw [enabled_frame_gain]
  split
  · rename_i h1
    nlinarith [mul_nonneg (sub_nonneg.mpr hc) (sub_nonneg.mpr h1.le),
      mul_nonneg (sub_nonneg.mpr hs) hr.le]
  · exact min_le_left _ _

theorem enabled_frame_detector_le (m : DrcMath α) (d : drc_kernel α C) (x : Frame α C) :
    (enabled_frame m d x).1.detector_average ≤ 1 := by
  obtain ⟨v, hv⟩ : ∃ v, (enabled_frame m d x).1.detector_average =
      if m.isbadf v then 1 else min v 1 := ⟨_, rfl⟩
  rw [hv]
  split
  · exact le_rfl
  · exact min_le_right _ _

theorem update_envelope_inv (m : DrcMath ℝ) (hm : ExactMath m)
    (hwarp : ∀ x, x ≤ 1 → m.warp_asinf x ≤ 1) (d : drc_kernel ℝ C)
    (hd : d.detector_average ≤ 1) (haf : 0 < d.attack_frames) :
    0 < (dk_process_update_envelope m d).envelope_rate ∧
    (dk_process_update_envelope m d).scaled_desired_gain ≤ 1 := by
  by_cases hrel : m.warp_asinf d.detector_average > d.compressor_gain
  · obtain ⟨h1, -, h3, -⟩ := update_envelope_release m d hrel
    rw [h1, h3, hm.2.2.2.2.2.1]
    exact ⟨Real.rpow_pos_of_pos (by norm_num) _, hwarp _ hd⟩
  · obtain ⟨h1, -, h3, -⟩ := update_envelope_attack m d hrel
    have heff : (0.5 : ℝ) ≤ max 0.5 (attack_max m d) := le_max_left _ _
    have heff0 : (0 : ℝ) < max 0.5 (attack_max m d) := lt_of_lt_of_le (by norm_num) heff
    have hx0 : 0 < 0.25 / max 0.5 (attack_max m d) := div_pos (by norm_num) heff0
    have hx1 : 0.25 / max 0.5 (attack_max m d) < 1 := by
      rw [div_lt_one heff0]
      exact lt_of_lt_of_le (by norm_num) heff
    have hpow1 : (0.25 / max 0.5 (attack_max m d)) ^ (1 / d.attack_frames) < 1 :=
      Real.rpow_lt_one hx0.le hx1 (one_div_pos.mpr haf)
    rw [h1, h3, hm.2.2.1 _ _ hx0]
    exact ⟨by linarith, hwarp _ hd⟩

theorem loop_frame_gain_inv (m : DrcMath ℝ) (hm : ExactMath m)
    (hwarp : ∀ x, x ≤ 1 → m.warp_asinf x ≤ 1) (d : drc_kernel ℝ C) (x : Frame ℝ C)
    (hd : GainInv d) (haf : 0 < d.attack_frames) : GainInv (loop_frame m d x).1 := by
  obtain ⟨hc, hda, hin⟩ := hd
  by_cases hp : d.processed % 32 = 0
  · obtain ⟨hr, hs⟩ := update_envelope_inv m hm hwarp d hda haf
    obtain ⟨-, e2⟩ := update_envelope_detector m d
    have hc1 : (dk_process_update_envelope m d).compressor_gain ≤ 1 := by rw [e2]; exact hc
    simp only [loop_frame, hp, if_true]
    exact ⟨enabled_frame_gain_le m _ x hc1 hr hs, enabled_frame_detector_le m _ x,
      fun _ => ⟨hr, hs⟩⟩
  · obtain ⟨hr, hs⟩ := hin hp
    simp only [loop_frame, hp, if_false]
    exact ⟨enabled_frame_gain_le m _ x hc hr hs, enabled_frame_detector_le m _ x,
      fun _ => ⟨hr, hs⟩⟩

theorem dk_process_gain_inv (m : DrcMath ℝ) (hm : ExactMath m)
    (hwarp : ∀ x, x ≤ 1 → m.warp_asinf x ≤ 1) (d : drc_kernel ℝ C)
    (frames : List (Frame ℝ C)) (hd : GainInv d) (haf : 0 < d.attack_frames) :
    GainInv (dk_process m d frames).1 := by
  by_cases hen : d.enabled = 0
  · rw [dk_process_disabled m d hen]
    exact gain_inv_congr d _ (envelope_of_delay_run d frames) hd
  · rw [dk_process_enabled m d hen]
    exact (run_frames_inv (loop_frame m) (fun k => GainInv k ∧ 0 < k.attack_frames)
      (fun k x hk => ⟨loop_frame_gain_inv m hm hwarp k x hk.1 hk.2, by
        rw [attack_frames_loop_frame]; exact hk.2⟩) d frames ⟨hd, haf⟩).1

theorem reachable_gain_inv (m : DrcMath ℝ) (hm : ExactMath m)
    (hwarp : ∀ x, x ≤ 1 → m.warp_asinf x ≤ 1) (dk : drc_kernel ℝ C)
    (h : ReachableAttack m dk) : GainInv dk := by
  induction h with
  | init dk0 sr =>
    refine ⟨le_of_eq rfl, ?_, fun hp => absurd rfl hp⟩
    exact (show (dk_init dk0 sr).detector_average = 0 from rfl) ▸ zero_le_one
  | set_parameters t k r at_ rt pt pg z1 z2 z3 z4 _ hs ih =>
    exact gain_inv_congr _ _ (envelope_of_set_parameters m _ _ t k r at_ rt pt pg z1 z2 z3 z4 hs) ih
  | set_enabled e _ ih => exact ih
  | process frames _ haf ih => exact dk_process_gain_inv m hm hwarp _ frames ih haf

theorem update_envelope_set_envelope (m : DrcMath α) (dk : drc_kernel α C) (e s : α) :
    dk_process_update_envelope m (set_envelope dk e s) = dk_process_update_envelope m dk := by
  simp only [dk_process_update_envelope, set_envelope]

theorem loop_frame_set_envelope (m : DrcMath α) (dk : drc_kernel α C) (e s : α)
    (x : Frame α C) (hp : dk.processed % 32 = 0) :
    loop_frame m (set_envelope dk e s) x = loop_frame m dk x := by
  have hp1 : (set_envelope dk e s).processed % 32 = 0 := hp
  simp only [loop_frame, hp, hp1, if_true, update_envelope_set_envelope]
  rfl

theorem dk_process_set_envelope (m : DrcMath α) (dk : drc_kernel α C) (e s : α)
    (frames : List (Frame α C)) (hp : dk.processed % 32 = 0) (hen : dk.enabled ≠ 0)
    (hne : frames ≠ []) :
    dk_process m (set_envelope dk e s) frames = dk_process m dk frames := by
  have hen1 : (set_envelope dk e s).enabled ≠ 0 := hen
  rw [dk_process_enabled m dk hen, dk_process_enabled m _ hen1]
  cases frames with
  | nil => exact absurd rfl hne
  | cons x xs => simp only [run_frames, loop_frame_set_envelope m dk e s x hp]

theorem exact_math_warp_exists :
    ∃ m : DrcMath ℝ, ExactMath m ∧ ∀ x, x ≤ 1 → m.warp_asinf x ≤ 1 :=
  ⟨⟨Real.exp, Real.exp, fun x y => x ^ y, Real.sqrt, fun x => 20 * Real.logb 10 x,
      fun x => (10 : ℝ) ^ (x / 20), fun x => x, fun x => x, fun _ => false,
      (10 : ℝ) ^ ((-2 : ℝ) / 20), fun x => x⟩,
    ⟨fun _ => rfl, fun _ => rfl, fun _ _ _ => rfl, fun _ _ => rfl, fun _ _ => rfl,
      fun _ => rfl, fun _ => rfl⟩, fun _ h => h⟩

theorem attack_frames_set_pre_delay_frames (dk : drc_kernel α C) (n : ℕ) :
    (set_pre_delay_frames dk n).attack_frames = dk.attack_frames := by
  rw [set_pre_delay_frames_eq]
  split <;> rfl

/-- C21 (the compressor gain never exceeds unity). In exact real arithmetic, with a
`warp_asinf` that maps every value at most 1 to a value at most 1, in every state reachable
from `dk_init` by `dk_set_parameters`, `dk_set_enabled` and `dk_process` calls that find
`attack_frames > 0`: `compressor_gain ≤ 1`; inside a division the stored `envelope_rate` is
positive and the stored `scaled_desired_gain` at most 1, and at a division boundary so are
the values that `dk_process_update_envelope` writes; the gain is at most 1 after every frame
of any further block; `dk_init` sets `compressor_gain = 1` and `processed = 0`; and a call
that starts on a division boundary (as the first one does) gives the same kernel and output
whatever `envelope_rate` and `scaled_desired_gain` held before, so both are written before
they are read. -/
theorem compressor_gain_at_most_one (m : DrcMath ℝ) (hm : ExactMath m)
    (hwarp : ∀ x, x ≤ 1 → m.warp_asinf x ≤ 1) (dk : drc_kernel ℝ C)
    (h : ReachableAttack m dk) :
    dk.compressor_gain ≤ 1 ∧
    (dk.processed % 32 ≠ 0 → 0 < dk.envelope_rate ∧ dk.scaled_desired_gain ≤ 1) ∧
    (dk.processed % 32 = 0 → 0 < dk.attack_frames →
      0 < (dk_process_update_envelope m dk).envelope_rate ∧
      (dk_process_update_envelope m dk).scaled_desired_gain ≤ 1) ∧
    (∀ (frames : List (Frame ℝ C)) (i : ℕ), 0 < dk.attack_frames →
      (dk_process m dk (frames.take i)).1.compressor_gain ≤ 1) ∧
    (∀ (dk0 : drc_kernel ℝ C) (sample_rate : ℝ),
      (dk_init dk0 sample_rate).compressor_gain = 1 ∧
      (dk_init dk0 sample_rate).processed = 0) ∧
    (∀ (e s : ℝ) (frames : List (Frame ℝ C)),
      dk.processed % 32 = 0 → dk.enabled ≠ 0 → frames ≠ [] →
      dk_process m (set_envelope dk e s) frames = dk_process m dk frames) := by
  obtain ⟨h1, h2, h3⟩ := reachable_gain_inv m hm hwarp dk h
  refine ⟨h1, h3, fun _ haf => update_envelope_inv m hm hwarp dk h2 haf, ?_,
    fun _ _ => ⟨rfl, rfl⟩, ?_⟩
  · intro frames i haf
    exact (reachable_gain_inv m hm hwarp _ (ReachableAttack.process (frames.take i) h haf)).1
  · intro e s frames hp hen hne
    exact dk_process_set_envelope m dk e s frames hp hen hne

/-- Witness for C21: the kernel right after `dk_init` at 48 kHz, configured with an attack
time of 3 ms, enabled, after one frame. -/
theorem compressor_gain_at_most_one_witness :
    ∃ (m : DrcMath ℝ) (d : drc_kernel ℝ 2),
      ExactMath m ∧ (∀ x, x ≤ 1 → m.warp_asinf x ≤ 1) ∧
      dk_set_parameters m (dk_init zero_kernel 48000) (-24) 30 12 0.003 0.25 0.006 0
        0.09 0.16 0.42 0.98 = some d ∧
      0 < (dk_set_enabled d 1).attack_frames ∧
      (dk_process m (dk_set_enabled d 1) [fun _ => 1]).1.compressor_gain ≤ 1 := by
  obtain ⟨M, hM, hw⟩ := exact_math_warp_exists
  have hx : (0.006 : ℝ) * (dk_init (zero_kernel : drc_kernel ℝ 2) 48000).sample_rate =
      ((288 : ℕ) : ℝ) := by
    simp only [dk_init]; norm_num
  have hf : float_to_unsigned (M.roundf
      ((0.006 : ℝ) * (dk_init (zero_kernel : drc_kernel ℝ 2) 48000).sample_rate)) =
      some 288 := by
    rw [hM.2.2.2.2.2.2, hx, float_to_unsigned, Nat.floor_natCast, if_pos (by norm_num)]
  have hs : dk_set_parameters M (dk_init (zero_kernel : drc_kernel ℝ 2) 48000) (-24) 30
      12 0.003 0.25 0.006 0 0.09 0.16 0.42 0.98 = some (set_pre_delay_frames
        (set_timing M (update_static_curve_parameters M
          (dk_init (zero_kernel : drc_kernel ℝ 2) 48000) (-24) 30 12)
          (dk_init (zero_kernel : drc_kernel ℝ 2) 48000).sample_rate 0.003 0.25 0
          0.09 0.16 0.42 0.98) 288) := by
    rw [dk_set_parameters_eq, hf]; rfl
  have haf : 0 < (dk_set_enabled (set_pre_delay_frames
        (set_timing M (update_static_curve_parameters M
          (dk_init (zero_kernel : drc_kernel ℝ 2) 48000) (-24) 30 12)
          (dk_init (zero_kernel : drc_kernel ℝ 2) 48000).sample_rate 0.003 0.25 0
          0.09 0.16 0.42 0.98) 288) 1).attack_frames := by
    have e : (dk_set_enabled (set_pre_delay_frames
        (set_timing M (update_static_curve_parameters M
          (dk_init (zero_kernel : drc_kernel ℝ 2) 48000) (-24) 30 12)
          (dk_init (zero_kernel : drc_kernel ℝ 2) 48000).sample_rate 0.003 0.25 0
          0.09 0.16 0.42 0.98) 288) 1).attack_frames = max 0.001 0.003 * 48000 :=
      attack_frames_set_pre_delay_frames _ 288
    rw [e]
    exact mul_pos (lt_max_of_lt_left (by norm_num)) (by norm_num)
  exact ⟨M, _, hM, hw, hs, haf,
    (compressor_gain_at_most_one M hM hw _
      (ReachableAttack.process [fun _ => 1]
        (ReachableAttack.set_enabled 1
          (ReachableAttack.set_parameters (-24) 30 12 0.003 0.25 0.006 0 0.09 0.16 0.42 0.98
            (ReachableAttack.init zero_kernel 48000) hs)) haf)).1⟩

end Kernel

end DrcKernel
